import Mathlib

/-!
Verification of the omegga-fireworks particle engine.

This file shallowly embeds the repository's sources:
  * `src/particle.ts` — `Range`/`VecRange` samplers, `hsvToRgb`, `Particle`,
    `ParticleSystem` (the core: doubly linked active set with in-traversal
    removal and death-time child spawning);
  * `src/omegga.plugin.ts` — `loadParticleFile` / `resolveRefs`;
  * the `format.ts` file (in `src/unnamed/part_000`) — the definition types
    (`ParticleDef`, `ParticleChild`, `ParticleDefRef`).

Numbers are modelled as rationals (JS numbers, with transcendental library
functions `Math.cos`/`Math.sin`/`Math.sqrt` and `Math.PI` abstracted as an
uninterpreted `JsMath` environment).  `Math.random()` is modelled as a
dependency-injected stream of draws (`Rng`), threaded through every sampling
operation in exactly the order the source consumes draws.

The JS object heap is modelled explicitly: particles live in a growing list
(`heap`), object references are indices, and `prev`/`next` fields are
`Option` indices.  The `onDeath` closure bound by `Particle.fromDef` captures
only the cached child count and the list of child definitions, so it is
modelled as that data (`plan`), interpreted at death time exactly as the
closure body does.  A ghost event log records simulate invocations, death
callback firings, spawn positions and `addParticle` calls; it affects no
behaviour.
-/

set_option autoImplicit false

namespace Fireworks

/-- `Range` (particle.ts): either a fixed number or a closed interval
`[lo, hi]` sampled uniformly. -/
inductive Range where
  | fixed (v : ℚ)
  | interval (lo hi : ℚ)
  deriving DecidableEq

/-- `VecRange` (particle.ts): a `Range` broadcast to all three components,
or a triple of per-axis `Range`s. -/
inductive VecRange where
  | single (r : Range)
  | triple (x y z : Range)
  deriving DecidableEq

/-- JS `Math.random()` modelled as a stream of draws with a cursor. -/
structure Rng where
  stream : Nat → ℚ
  idx : Nat

/-- Take the next draw from the stream. -/
def Rng.next (g : Rng) : ℚ × Rng :=
  (g.stream g.idx, ⟨g.stream, g.idx + 1⟩)

/-- JS `Math.round`: round half towards positive infinity. -/
def jround (q : ℚ) : ℤ := ⌊q + 1 / 2⌋

/-- `computeRange` (particle.ts): a fixed value is returned unchanged
(regardless of the `integer` flag); an interval draws
`Math.random() * (hi - lo) + lo`, rounded when `integer` is set. -/
def computeRange (r : Range) (integer : Bool) (g : Rng) : ℚ × Rng :=
  match r with
  | .fixed v => (v, g)
  | .interval lo hi =>
    let (u, g1) := g.next
    let result := u * (hi - lo) + lo
    (if integer then (jround result : ℚ) else result, g1)

/-- `computeVecRange` (particle.ts).  A `single` range is sampled once and the
result copied to all three components (the JS source returns
`[range, range, range]` directly for a plain number and calls `computeRange`
once for a two-element interval; since `computeRange` on a fixed value is the
identity and consumes no draw, both collapse to one `computeRange` call).
A `triple` samples each component independently, left to right. -/
def computeVecRange (v : VecRange) (g : Rng) : (ℚ × ℚ × ℚ) × Rng :=
  match v with
  | .single r =>
    let (res, g1) := computeRange r false g
    ((res, res, res), g1)
  | .triple a b c =>
    let (x, g1) := computeRange a false g
    let (y, g2) := computeRange b false g1
    let (z, g3) := computeRange c false g2
    ((x, y, z), g3)

/-- `hsvToRgb` (particle.ts): sector-based HSV to RGB, each channel
`Math.round(channel * 255)`.  The JS `switch (i % 6)` uses the sign-of-dividend
remainder; for `h < 0` the remainder is negative, no case matches and the JS
code yields NaN channels — that unreachable-in-practice branch is modelled as
`(0, 0, 0)` and no claim depends on it. -/
def hsvToRgb (h s v : ℚ) : ℤ × ℤ × ℤ :=
  let i : ℤ := ⌊h * 6⌋
  let f : ℚ := h * 6 - i
  let p : ℚ := v * (1 - s)
  let q : ℚ := v * (1 - f * s)
  let t : ℚ := v * (1 - (1 - f) * s)
  let rgb : ℚ × ℚ × ℚ :=
    if Int.tmod i 6 = 0 then (v, t, p)
    else if Int.tmod i 6 = 1 then (q, v, p)
    else if Int.tmod i 6 = 2 then (p, v, t)
    else if Int.tmod i 6 = 3 then (p, q, v)
    else if Int.tmod i 6 = 4 then (t, p, v)
    else if Int.tmod i 6 = 5 then (v, p, q)
    else (0, 0, 0)
  (jround (rgb.1 * 255), jround (rgb.2.1 * 255), jround (rgb.2.2 * 255))

/-- Non-recursive fields of a particle definition (particle.ts `ParticleDef`;
`inheritVelocity` is declared in the repository's `format.ts` and is consumed
only by the spec-modelled instantiation with a parent, below). -/
structure ParticleDefBase where
  color : Range × Range × Range
  hsv : Bool := false
  size : Option Range := none
  velocity : VecRange
  randomVelocity : Bool := false
  inheritVelocity : Bool := false
  lifespan : Range
  gravity : Option Range := none
  preSimulate : Option ℚ := none
  deriving DecidableEq

/-- `ParticleDef` (particle.ts): the base fields plus the death-time child
generation fields `numChildren`/`children` (recursive). -/
inductive ParticleDef where
  | mk (base : ParticleDefBase) (numChildren : Option Range)
       (children : List ParticleDef)

def ParticleDef.base : ParticleDef → ParticleDefBase
  | .mk b _ _ => b

def ParticleDef.numChildren : ParticleDef → Option Range
  | .mk _ n _ => n

def ParticleDef.children : ParticleDef → List ParticleDef
  | .mk _ _ c => c

/-- JS truthiness of the `numChildren` field: absent and the number `0` are
falsy; any other number and any two-element array (even `[0, 0]`) are truthy. -/
def rangeTruthy : Option Range → Bool
  | none => false
  | some (.fixed v) => decide (v ≠ 0)
  | some (.interval _ _) => true

/-- `Particle.default_gravity` (particle.ts): `-9.8 * 15`. -/
def Particle.default_gravity : ℚ := -9.8 * 15

/-- The mutable simulation state of one particle (particle.ts `Particle`).
`prev`/`next` are heap indices.  `plan` is the data captured by the `onDeath`
closure bound in `fromDef`: the cached child count `n` and the list of child
definitions (the closure also captures the system and reads `this.x/y/z` at
call time; both are supplied when the plan is interpreted). -/
structure Particle where
  x : ℚ
  y : ℚ
  z : ℚ
  size : ℚ := 1
  r : ℚ := 255
  g : ℚ := 255
  b : ℚ := 255
  vx : ℚ := 0
  vy : ℚ := 0
  vz : ℚ := 0
  age : ℚ := 0
  lifespan : ℚ := 0
  gravity : ℚ := Particle.default_gravity
  deathCalled : Bool := false
  prev : Option Nat := none
  next : Option Nat := none
  plan : Option (ℚ × List ParticleDef) := none

/-- The JS math library functions used by `randomVelocity`, abstracted
(transcendentals are not rational). -/
structure JsMath where
  cos : ℚ → ℚ
  sin : ℚ → ℚ
  sqrt : ℚ → ℚ
  pi : ℚ

/-- Plugin config consumed by the core: `update_rate` in milliseconds. -/
structure Config where
  update_rate : ℚ

/-- Ghost events recording the observable actions of a tick. -/
inductive Ev where
  | simulated (i : Nat)
  | death (i : Nat)
  | spawned (i : Nat) (x y z : ℚ)
  | added (head : Nat)
  deriving DecidableEq

/-- `ParticleSystem` (particle.ts) together with the modelled object heap,
the injected randomness and the ghost log. -/
structure ParticleSystem where
  config : Config
  math : JsMath
  heap : List Particle
  root : Option Nat := none
  rng : Rng
  log : List Ev := []

def ParticleSystem.getP (s : ParticleSystem) (i : Nat) : Option Particle :=
  s.heap[i]?

def ParticleSystem.setP (s : ParticleSystem) (i : Nat) (p : Particle) :
    ParticleSystem :=
  { s with heap := s.heap.set i p }

/-- Mutate the particle object at index `i` (no-op on a dangling index, which
cannot occur for a JS object reference). -/
def ParticleSystem.modifyP (s : ParticleSystem) (i : Nat)
    (f : Particle → Particle) : ParticleSystem :=
  match s.heap[i]? with
  | some p => s.setP i (f p)
  | none => s

def ParticleSystem.logEv (s : ParticleSystem) (e : Ev) : ParticleSystem :=
  { s with log := s.log ++ [e] }

/-- Allocate a new particle object on the heap, returning its reference. -/
def ParticleSystem.alloc (s : ParticleSystem) (p : Particle) :
    Nat × ParticleSystem :=
  (s.heap.length, { s with heap := s.heap ++ [p] })

def nextOf (s : ParticleSystem) (i : Nat) : Option Nat :=
  (s.getP i).bind Particle.next

def prevOf (s : ParticleSystem) (i : Nat) : Option Nat :=
  (s.getP i).bind Particle.prev

/-- The `while (last.next) last = last.next;` walk of `addParticle`,
fuelled (the JS loop diverges on a cyclic chain; fuel is always at least the
chain length at every use in this file). -/
def findLast (s : ParticleSystem) : Nat → Nat → Nat
  | 0, i => i
  | fuel + 1, i =>
    match nextOf s i with
    | some j => findLast s fuel j
    | none => i

/-- `ParticleSystem.addParticle` (particle.ts): walk the supplied chain to its
tail, point the tail at the current head, point the current head back at the
tail, and make the supplied chain head the new system head. -/
def ParticleSystem.addParticle (s : ParticleSystem) (i : Nat) :
    ParticleSystem :=
  let last := findLast s s.heap.length i
  let oldRoot := s.root
  let s1 := s.modifyP last (fun p => { p with next := oldRoot })
  let s2 :=
    match oldRoot with
    | some r => s1.modifyP r (fun p => { p with prev := some last })
    | none => s1
  { s2 with root := some i, log := s2.log ++ [.added i] }

/-- `Particle.simulateSpatial` (particle.ts): advance position by velocity,
then add gravity to the vertical velocity. -/
def Particle.simulateSpatial (p : Particle) (delta : ℚ) : Particle :=
  { p with
    x := p.x + p.vx * delta
    y := p.y + p.vy * delta
    z := p.z + p.vz * delta
    vz := p.vz + p.gravity * delta }

/-- The first two statements of `Particle.simulate`: the spatial update
followed by the age increment. -/
def Particle.aged (p : Particle) (delta : ℚ) : Particle :=
  let p1 := p.simulateSpatial delta
  { p1 with age := p1.age + delta }

/-- A particle with its link fields and one-shot flag scrubbed; the view
preserved by every pointer-relinking operation. -/
def Particle.core (p : Particle) : Particle :=
  { p with prev := none, next := none, deathCalled := false }

/-- Core view of the heap at index `i`. -/
def cores (s : ParticleSystem) (i : Nat) : Option Particle :=
  (s.getP i).map Particle.core

/-- Death-flag view of the heap at index `i`. -/
def dcs (s : ParticleSystem) (i : Nat) : Option Bool :=
  (s.getP i).map Particle.deathCalled

/-- Color step of `fromDef` (particle.ts): if `hsv`, sample the three
ranges un-rounded, convert via `hsvToRgb` (already rounded; the source's
second `.map(Math.round)` is the identity on integers); otherwise sample
each range with `integer` set. -/
def colorStep (d : ParticleDef) (p0 : Particle) (g : Rng) : Particle × Rng :=
  if d.base.hsv then
    let c1 := computeRange d.base.color.1 false g
    let c2 := computeRange d.base.color.2.1 false c1.2
    let c3 := computeRange d.base.color.2.2 false c2.2
    let rgb := hsvToRgb c1.1 c2.1 c3.1
    ({ p0 with r := (rgb.1 : ℚ), g := (rgb.2.1 : ℚ), b := (rgb.2.2 : ℚ) },
     c3.2)
  else
    let c1 := computeRange d.base.color.1 true g
    let c2 := computeRange d.base.color.2.1 true c1.2
    let c3 := computeRange d.base.color.2.2 true c2.2
    ({ p0 with r := c1.1, g := c2.1, b := c3.1 }, c3.2)

/-- Velocity step of `fromDef` (particle.ts): sample the `VecRange`, then —
if `randomVelocity` — scale component-wise by a random point on the unit
sphere (azimuth draw first, then the z draw). -/
def velocityStep (m : JsMath) (d : ParticleDef) (p : Particle) (g : Rng) :
    Particle × Rng :=
  let vres := computeVecRange d.base.velocity g
  let p2 := { p with vx := vres.1.1, vy := vres.1.2.1, vz := vres.1.2.2 }
  if d.base.randomVelocity then
    let n1 := vres.2.next
    let theta := n1.1 * 2 * m.pi
    let n2 := n1.2.next
    let zz := n2.1 * 2 - 1
    let z2 := m.sqrt (1 - zz * zz)
    let xx := z2 * m.cos theta
    let yy := z2 * m.sin theta
    ({ p2 with vx := p2.vx * xx, vy := p2.vy * yy, vz := p2.vz * zz }, n2.2)
  else (p2, vres.2)

/-- Lifespan step of `fromDef` (particle.ts): sampled, not rounded. -/
def lifespanStep (d : ParticleDef) (p : Particle) (g : Rng) :
    Particle × Rng :=
  let lres := computeRange d.base.lifespan false g
  ({ p with lifespan := lres.1 }, lres.2)

/-- Gravity step of `fromDef` (particle.ts): `if ('gravity' in def)
p.gravity *= computeRange(def.gravity)`. -/
def gravityStep (d : ParticleDef) (p : Particle) (g : Rng) :
    Particle × Rng :=
  match d.base.gravity with
  | some gr =>
    let gres := computeRange gr false g
    ({ p with gravity := p.gravity * gres.1 }, gres.2)
  | none => (p, g)

/-- Size step of `fromDef` (particle.ts): `if ('size' in def)
p.size = computeRange(def.size, true)`. -/
def sizeStep (d : ParticleDef) (p : Particle) (g : Rng) : Particle × Rng :=
  match d.base.size with
  | some sr =>
    let sres := computeRange sr true g
    ({ p with size := sres.1 }, sres.2)
  | none => (p, g)

/-- Pre-simulation step of `fromDef` (particle.ts): when `preSimulate` is
truthy (set and nonzero), one `simulateSpatial` call of duration
`(update_rate / 1000) * preSimulate`. -/
def preSimStep (cfg : Config) (d : ParticleDef) (p : Particle) : Particle :=
  match d.base.preSimulate with
  | some t =>
    if t = 0 then p else p.simulateSpatial ((cfg.update_rate / 1000) * t)
  | none => p

/-- Death-plan binding step of `fromDef` (particle.ts): when `numChildren`
and `children` are truthy, sample the count once (`integer` set) and, when
the count is truthy, cache it together with the child definitions. -/
def planStep (d : ParticleDef) (p : Particle) (g : Rng) : Particle × Rng :=
  if rangeTruthy d.numChildren && !d.children.isEmpty then
    match d.numChildren with
    | some nr =>
      let nres := computeRange nr true g
      (if nres.1 ≠ 0 then { p with plan := some (nres.1, d.children) }
       else p, nres.2)
    | none => (p, g)
  else (p, g)

/-- The particle-construction part of `Particle.fromDef` (particle.ts),
returning the constructed particle and the advanced random stream; the
steps follow the source order (color, velocity, lifespan, gravity, size,
pre-simulation, death-plan binding — the last consuming its draw from the
state after the size step, as pre-simulation draws nothing). -/
def fromDefParticle (s : ParticleSystem) (d : ParticleDef) (x y z : ℚ) :
    Particle × Rng :=
  let c := colorStep d { x := x, y := y, z := z } s.rng
  let v := velocityStep s.math d c.1 c.2
  let l := lifespanStep d v.1 v.2
  let gr := gravityStep d l.1 l.2
  let sz := sizeStep d gr.1 gr.2
  let p4 := preSimStep s.config d sz.1
  planStep d p4 sz.2

/-- `Particle.fromDef` (particle.ts): construct the particle from the
definition (see `fromDefParticle` for the construction steps) and allocate
it on the heap, consuming the system's random stream. -/
def Particle.fromDef (s : ParticleSystem) (d : ParticleDef) (x y z : ℚ) :
    Nat × ParticleSystem :=
  let pr := fromDefParticle s d x y z
  let as_ := ParticleSystem.alloc { s with rng := pr.2 } pr.1
  (as_.1, as_.2.logEv (.spawned as_.1 x y z))

/-- Placeholder definition totalising the out-of-range child pick: in JS a draw outside
`[0, 1)` would index past the array and crash inside `fromDef`. -/
def dummyDef : ParticleDef :=
  .mk { color := (.fixed 0, .fixed 0, .fixed 0), velocity := .single (.fixed 0),
        lifespan := .fixed 0 } none []

/-- The child-definition pick of the death callback:
`children.length === 1 ? children[0] : children[floor(random() * length)]`.
A single-element list consumes no draw. -/
def pickDef (kids : List ParticleDef) (g : Rng) : ParticleDef × Rng :=
  if kids.length = 1 then (kids.headD dummyDef, g)
  else
    let (u, g1) := g.next
    ((kids.get? (⌊u * (kids.length : ℚ)⌋).toNat).getD dummyDef, g1)

/-- The `for (let i = 0; i < n; i++)` body of the bound `onDeath`: pick a
child definition, instantiate it at the captured position, and link it behind
the previously created child.  The accumulator carries `(first, cur)`. -/
def spawnLoop (kids : List ParticleDef) (px py pz : ℚ) :
    Nat → ParticleSystem → Option (Nat × Nat) →
    ParticleSystem × Option (Nat × Nat)
  | 0, s, acc => (s, acc)
  | cnt + 1, s, acc =>
    let pick := pickDef kids s.rng
    let cs := Particle.fromDef { s with rng := pick.2 } pick.1 px py pz
    match acc with
    | none => spawnLoop kids px py pz cnt cs.2 (some (cs.1, cs.1))
    | some fc =>
      let s2 := cs.2.modifyP fc.2 (fun p => { p with next := some cs.1 })
      let s3 := s2.modifyP cs.1 (fun p => { p with prev := some fc.2 })
      spawnLoop kids px py pz cnt s3 (some (fc.1, cs.1))

/-- Interpret the bound `onDeath` closure: spawn the cached number of
children at the dying particle's current position, chained together, and —
if at least one was produced — insert the whole chain with a single
`addParticle` call.  `n` is a JS number: `for (let i = 0; i < n; i++)` runs
`⌈n⌉` iterations when `n > 0` and none otherwise. -/
def runPlan (s : ParticleSystem) (px py pz : ℚ) :
    Option (ℚ × List ParticleDef) → ParticleSystem
  | none => s
  | some nk =>
    let cnt := (⌈nk.1⌉ : ℤ).toNat
    match spawnLoop nk.2 px py pz cnt s none with
    | (s1, some fc) => s1.addParticle fc.1
    | (s1, none) => s1

/-- `if (this.prev) this.prev.next = this.next;` — the first unlink
statement of the death branch of `Particle.simulate`. -/
def unlinkPrev (s : ParticleSystem) (pv nx : Option Nat) : ParticleSystem :=
  match pv with
  | some pr => s.modifyP pr fun q => { q with next := nx }
  | none => s

/-- `if (this.next) this.next.prev = this.prev;` — the second unlink
statement of the death branch of `Particle.simulate`. -/
def unlinkNext (s : ParticleSystem) (pv nx : Option Nat) : ParticleSystem :=
  match nx with
  | some n2 => s.modifyP n2 fun q => { q with prev := pv }
  | none => s

/-- `Particle.simulate` (particle.ts), on the particle object at heap index
`i`: spatial update, age increment, then the death branch — unlink from the
recorded neighbours (tolerating absent ones), fire the one-shot death logic,
and report not-alive; otherwise report alive (`onUpdate` is never bound by
this plugin, so the alive branch has no further effect). -/
def Particle.simulate (s : ParticleSystem) (i : Nat) (delta : ℚ) :
    ParticleSystem × Bool :=
  match s.getP i with
  | none => (s.logEv (.simulated i), true)
  | some p0 =>
    let p2 := p0.aged delta
    let s1 := (s.setP i p2).logEv (.simulated i)
    if p2.lifespan ≠ 0 ∧ p2.lifespan ≤ p2.age then
      let s3 := unlinkNext (unlinkPrev s1 p2.prev p2.next) p2.prev p2.next
      let s4 :=
        if p2.deathCalled then s3
        else
          runPlan
            ((s3.modifyP i (fun q => { q with deathCalled := true })).logEv
              (.death i))
            p2.x p2.y p2.z p2.plan
      (s4, false)
    else (s1, true)

/-- The traversal of `ParticleSystem.simulate`, fuelled (the while loop
visits each live node once; fuel is the heap size at tick entry, sufficient
for every well-formed chain). -/
def simLoop (delta : ℚ) : Nat → Option Nat → ParticleSystem → ParticleSystem
  | 0, _, s => s
  | _ + 1, none, s => s
  | fuel + 1, some c, s =>
    let sa := Particle.simulate s c delta
    let s2 :=
      if sa.2 = false ∧ sa.1.root = some c then
        { sa.1 with root := nextOf sa.1 c }
      else sa.1
    simLoop delta fuel (nextOf s2 c) s2

/-- The body of one `simLoop` iteration: simulate the cursor node and, if it
died while it was the head, advance the head to its former `next`. -/
def stepState (delta : ℚ) (c : Nat) (s : ParticleSystem) : ParticleSystem :=
  let sa := Particle.simulate s c delta
  if sa.2 = false ∧ sa.1.root = some c then
    { sa.1 with root := nextOf sa.1 c }
  else sa.1

/-- `ParticleSystem.simulate` (particle.ts): walk the active list from the
head, simulating each node once, advancing the head past a node that dies
while it is still the head. -/
def ParticleSystem.simulate (s : ParticleSystem) (delta : ℚ) :
    ParticleSystem :=
  simLoop delta s.heap.length s.root s

/-- A sequence of direct `Particle.simulate(delta)` calls on one particle,
collecting the returned alive flags. -/
def simSeq : ParticleSystem → Nat → List ℚ → ParticleSystem × List Bool
  | s, _, [] => (s, [])
  | s, i, d :: ds =>
    let sa := Particle.simulate s i d
    let rest := simSeq sa.1 i ds
    (rest.1, sa.2 :: rest.2)

/-- Modelled from the spec: the repository's latest `Particle.fromDef`
revision — the one taking an optional parent particle and honouring the
`inheritVelocity` flag declared in `format.ts` — is not among the sources
under `src/` (only the flag's declaration is).  Per spec §4.2 it is the
`src/particle.ts` `fromDef` with one extra step between size and
pre-simulation: "if `inheritVelocity` is set and a parent was supplied, add
the parent's current velocity vector component-wise to the particle's
velocity."  The construction is `fromDefParticle`'s step chain with the
inheritance step inserted between the size step and pre-simulation
(inheritance consumes no random draw). -/
def inheritStep (d : ParticleDef) (parent : Option Particle) (p : Particle) :
    Particle :=
  match parent with
  | some par =>
    if d.base.inheritVelocity then
      { p with vx := p.vx + par.vx, vy := p.vy + par.vy, vz := p.vz + par.vz }
    else p
  | none => p

/-- Modelled from the spec (see `inheritStep`): the particle-construction
part of the parent-aware `fromDef`. -/
def fromDefParticleP (s : ParticleSystem) (d : ParticleDef) (x y z : ℚ)
    (parent : Option Particle) : Particle × Rng :=
  let c := colorStep d { x := x, y := y, z := z } s.rng
  let v := velocityStep s.math d c.1 c.2
  let l := lifespanStep d v.1 v.2
  let gr := gravityStep d l.1 l.2
  let sz := sizeStep d gr.1 gr.2
  let pi_ := inheritStep d parent sz.1
  let p4 := preSimStep s.config d pi_
  planStep d p4 sz.2

/-- Modelled from the spec (see `fromDefParticleP`): `Particle.fromDef` with
the optional parent, allocating the constructed particle on the heap. -/
def Particle.fromDefP (s : ParticleSystem) (d : ParticleDef) (x y z : ℚ)
    (parent : Option Particle) : Nat × ParticleSystem :=
  let pr := fromDefParticleP s d x y z parent
  let as_ := ParticleSystem.alloc { s with rng := pr.2 } pr.1
  (as_.1, as_.2.logEv (.spawned as_.1 x y z))

/-- Pointer view of the heap: the `next` field of object `i`, `none` when no
object lives at `i`. -/
def nexts (s : ParticleSystem) (i : Nat) : Option (Option Nat) :=
  (s.getP i).map Particle.next

/-- Pointer view of the heap: the `prev` field of object `i`. -/
def prevs (s : ParticleSystem) (i : Nat) : Option (Option Nat) :=
  (s.getP i).map Particle.prev

/-- Does the `next`-chain starting at reference `r` consist exactly of the
ids `L` and end at the null terminator? -/
def chainLinksB (s : ParticleSystem) : Option Nat → List Nat → Bool
  | r, [] => r == none
  | r, x :: xs =>
    r == some x &&
      match nexts s x with
      | none => false
      | some nx => chainLinksB s nx xs

/-- The system's active list is exactly `L`: the `next`-chain from the head
is `L`, the ids are distinct, and all of them are heap references. -/
def chainIs (s : ParticleSystem) (L : List Nat) : Prop :=
  chainLinksB s s.root L = true ∧ L.Nodup ∧ ∀ x ∈ L, x < s.heap.length

/-- Every chain node's `prev` is its chain predecessor, or `none`, or an id
outside the chain (the shapes stale pointers left by earlier unlinks take).
Consequence used throughout: a dying node never rewires the `next` field of
a chain node the traversal cursor has not yet reached. -/
def prevOkB (s : ParticleSystem) (all : List Nat) :
    Option Nat → List Nat → Bool
  | _, [] => true
  | pred, x :: xs =>
    (match prevs s x with
     | none => true
     | some none => true
     | some (some q) => pred == some q || !(all.contains q)) &&
    prevOkB s all (some x) xs

/-- `prevOkB` anchored at the chain head. -/
def PrevInv (s : ParticleSystem) (L : List Nat) : Prop :=
  prevOkB s L none L = true

/-- The events a run appended to the log. -/
def logDelta (s sNew : ParticleSystem) : List Ev :=
  sNew.log.drop s.log.length

/-- The particle ids of the `simulated` events in a log fragment, in order. -/
def simEvs (l : List Ev) : List Nat :=
  l.filterMap fun e =>
    match e with
    | .simulated i => some i
    | _ => none

/-- Sum of the first `t` deltas of a tick sequence. -/
def sumTo (ds : List ℚ) (t : Nat) : ℚ :=
  (ds.take t).sum

mutual
/-- `ParticleDef` as declared in `format.ts`: base fields plus an optional
list of child-spawn rules. -/
inductive FDef where
  | mk (base : ParticleDefBase) (children : Option (List FChild)) : FDef

/-- `ParticleChild` (format.ts): a definition reference — or a list of
alternatives — plus an optional count `Range`. -/
inductive FChild where
  | mk (dref : FChildDef) (count : Option Range) : FChild

/-- The `def` field of a child rule: `ParticleDefRef | ParticleDefRef[]`. -/
inductive FChildDef where
  | single (r : FRef)
  | alts (rs : List FRef)

/-- `ParticleDefRef` (format.ts): an inline definition or a name. -/
inductive FRef where
  | inline (d : FDef)
  | name (nm : String)
end

/-- `data.defs` of a particle file, as an association list. -/
def lookupDef (table : List (String × FDef)) (k : String) : Option FDef :=
  (table.find? fun e => e.1 == k).map (·.2)

mutual
/-- `resolveRefs` (omegga.plugin.ts) in functional form.  The JS version
mutates definitions in place and recurses unboundedly (a cyclic reference
chain overflows the stack); the model threads an explicit fuel, every
recursive call consuming one unit, and returns the resolved definition.
`error "invalid_def_ref"` is the JS `throw 'invalid_def_ref'`;
`error "out_of_fuel"` models the stack overflow of unbounded recursion. -/
def resolveDef : Nat → List (String × FDef) → FDef → Except String FDef
  | 0, _, _ => .error "out_of_fuel"
  | _ + 1, _, .mk b none => .ok (.mk b none)
  | fuel + 1, table, .mk b (some kids) =>
    match resolveChildren fuel table kids with
    | .error e => .error e
    | .ok kids2 => .ok (.mk b (some kids2))

def resolveChildren :
    Nat → List (String × FDef) → List FChild → Except String (List FChild)
  | 0, _, _ => .error "out_of_fuel"
  | _ + 1, _, [] => .ok []
  | fuel + 1, table, c :: cs =>
    match resolveChild fuel table c with
    | .error e => .error e
    | .ok c2 =>
      match resolveChildren fuel table cs with
      | .error e => .error e
      | .ok cs2 => .ok (c2 :: cs2)

def resolveChild :
    Nat → List (String × FDef) → FChild → Except String FChild
  | 0, _, _ => .error "out_of_fuel"
  | fuel + 1, table, .mk (.single r) cnt =>
    match resolveRef fuel table r with
    | .error e => .error e
    | .ok d2 => .ok (.mk (.single (.inline d2)) cnt)
  | fuel + 1, table, .mk (.alts rs) cnt =>
    match resolveRefList fuel table rs with
    | .error e => .error e
    | .ok ds => .ok (.mk (.alts (ds.map .inline)) cnt)

def resolveRef : Nat → List (String × FDef) → FRef → Except String FDef
  | 0, _, _ => .error "out_of_fuel"
  | fuel + 1, table, .inline d => resolveDef fuel table d
  | fuel + 1, table, .name nm =>
    match lookupDef table nm with
    | none => .error "invalid_def_ref"
    | some d => resolveDef fuel table d

def resolveRefList :
    Nat → List (String × FDef) → List FRef → Except String (List FDef)
  | 0, _, _ => .error "out_of_fuel"
  | _ + 1, _, [] => .ok []
  | fuel + 1, table, r :: rs =>
    match resolveRef fuel table r with
    | .error e => .error e
    | .ok d2 =>
      match resolveRefList fuel table rs with
      | .error e => .error e
      | .ok ds => .ok (d2 :: ds)
end

/-- The `for (const def of Object.values(data.defs)) resolveRefs(def);` loop
of `loadParticleFile`, resolving each table entry against the full table. -/
def loadLoop (fuel : Nat) (table : List (String × FDef)) :
    List (String × FDef) → Except String (List (String × FDef))
  | [] => .ok []
  | e :: rest =>
    match resolveDef fuel table e.2 with
    | .error err => .error err
    | .ok d2 =>
      match loadLoop fuel table rest with
      | .error err => .error err
      | .ok rest2 => .ok ((e.1, d2) :: rest2)

/-- `loadParticleFile` (omegga.plugin.ts), definition-resolution part: the
parsed `defs` table with every entry's references resolved, or the first
thrown error. -/
def loadParticleFile (fuel : Nat) (table : List (String × FDef)) :
    Except String (List (String × FDef)) :=
  loadLoop fuel table table

mutual
/-- All names occurring in a definition's child rules, recursively through
inline definitions. -/
def namesInDef : FDef → List String
  | .mk _ none => []
  | .mk _ (some kids) => namesInChildren kids

def namesInChildren : List FChild → List String
  | [] => []
  | c :: cs => namesInChild c ++ namesInChildren cs

def namesInChild : FChild → List String
  | .mk (.single r) _ => namesInRef r
  | .mk (.alts rs) _ => namesInRefList rs

def namesInRef : FRef → List String
  | .inline d => namesInDef d
  | .name nm => [nm]

def namesInRefList : List FRef → List String
  | [] => []
  | r :: rs => namesInRef r ++ namesInRefList rs
end

mutual
/-- No rule's `def` field anywhere in the definition still holds a string
reference. -/
def noNamesDef : FDef → Bool
  | .mk _ none => true
  | .mk _ (some kids) => noNamesChildren kids

def noNamesChildren : List FChild → Bool
  | [] => true
  | c :: cs => noNamesChild c && noNamesChildren cs

def noNamesChild : FChild → Bool
  | .mk (.single r) _ => noNamesRef r
  | .mk (.alts rs) _ => noNamesRefList rs

def noNamesRef : FRef → Bool
  | .inline d => noNamesDef d
  | .name _ => false

def noNamesRefList : List FRef → Bool
  | [] => true
  | r :: rs => noNamesRef r && noNamesRefList rs
end

/-- Packaged description of the state after the child-creation loop of the
death callback, run with accumulator `some (f, cur)` for `cnt` more
children: `cnt` fresh particles are allocated contiguously, chained behind
`cur`, with all pre-existing objects' pointers untouched except `cur`'s
`next`. -/
structure SpawnOut (s : ParticleSystem) (px py pz : ℚ) (cnt f cur : Nat)
    (r : ParticleSystem × Option (Nat × Nat)) : Prop where
  accEq : r.2 = some (f, if cnt = 0 then cur else s.heap.length + cnt - 1)
  len : r.1.heap.length = s.heap.length + cnt
  rootEq : r.1.root = s.root
  configEq : r.1.config = s.config
  nextsOld : ∀ j, j < s.heap.length → j ≠ cur → nexts r.1 j = nexts s j
  prevsOld : ∀ j, j < s.heap.length → prevs r.1 j = prevs s j
  nextsCur : 1 ≤ cnt → nexts r.1 cur = some (some s.heap.length)
  zeroEq : cnt = 0 → r.1 = s
  nextsMid : ∀ k, k + 1 < cnt →
    nexts r.1 (s.heap.length + k) = some (some (s.heap.length + k + 1))
  nextsLast : 1 ≤ cnt → nexts r.1 (s.heap.length + cnt - 1) = some none
  prevsNew : ∀ k, k < cnt → prevs r.1 (s.heap.length + k) =
    some (some (if k = 0 then cur else s.heap.length + k - 1))
  logEq : r.1.log = s.log ++
    (List.range cnt).map fun k => Ev.spawned (s.heap.length + k) px py pz

/-- Packaged description of the state after a death callback with a cached
count resolving to `cnt ≥ 1` children: the fresh chain `[len, len+cnt)` is
spliced in front of the old head by the single `addParticle` call. -/
structure RunPlanOut (s : ParticleSystem) (px py pz : ℚ) (cnt : Nat)
    (r : ParticleSystem) : Prop where
  len : r.heap.length = s.heap.length + cnt
  rootEq : r.root = some s.heap.length
  configEq : r.config = s.config
  nextsOld : ∀ j, j < s.heap.length → nexts r j = nexts s j
  prevsOld : ∀ j, j < s.heap.length → s.root ≠ some j →
    prevs r j = prevs s j
  prevsRoot : ∀ rr, s.root = some rr → rr < s.heap.length →
    prevs r rr = some (some (s.heap.length + cnt - 1))
  nextsMid : ∀ k, k + 1 < cnt →
    nexts r (s.heap.length + k) = some (some (s.heap.length + k + 1))
  nextsLast : nexts r (s.heap.length + cnt - 1) = some s.root
  prevsNew : ∀ k, k < cnt → 1 ≤ k →
    prevs r (s.heap.length + k) = some (some (s.heap.length + k - 1))
  prevsHead : prevs r s.heap.length = some none
  logEq : r.log = s.log ++
    ((List.range cnt).map fun k => Ev.spawned (s.heap.length + k) px py pz)
    ++ [Ev.added s.heap.length]

/-- A chain segment: from reference `r`, the `next`-links pass exactly
through the ids `L` and then hold reference `r2` (so `chainLinksB s r L =
chainSegB s r L none`). -/
def chainSegB (s : ParticleSystem) : Option Nat → List Nat → Option Nat → Bool
  | r, [], r2 => r == r2
  | r, x :: xs, r2 =>
    r == some x &&
      match nexts s x with
      | none => false
      | some nx => chainSegB s nx xs r2

/-- The predecessor reference a walk ending after `L` hands on: the last id
of `L`, or the incoming `pred` when `L` is empty. -/
def endPred (pred : Option Nat) (L : List Nat) : Option Nat :=
  match L.getLast? with
  | some x => some x
  | none => pred

/-- The number of loop iterations the bound `onDeath` runs for a cached
plan: `⌈n⌉` for a cached count `n` (JS `for (let i = 0; i < n; i++)`),
nothing without a plan. -/
def planCnt : Option (ℚ × List ParticleDef) → Nat
  | none => 0
  | some nk => (⌈nk.1⌉ : ℤ).toNat

/-- The invariant of the tick traversal (`ParticleSystem.simulate`'s while
loop): the whole active list `W` is a chain from the system head whose
fresh part (ids allocated at or after heap size `N`) is a prefix, every
back-pointer of a chain node is its exact predecessor, absent, or an id
outside the chain, and the sublist `todo` still ahead of the cursor `cur`
is a suffix of `W` made of pre-tick ids. -/
structure LoopInv (N : Nat) (s : ParticleSystem) (cur : Option Nat)
    (W todo : List Nat) : Prop where
  chainW : chainLinksB s s.root W = true
  chainCur : chainLinksB s cur todo = true
  hsuffix : ∃ V, W = V ++ todo
  nodup : W.Nodup
  bounds : ∀ x ∈ W, x < s.heap.length
  prevOk : prevOkB s W none W = true
  prevBound : ∀ x ∈ W, ∀ q, prevs s x = some (some q) → q < s.heap.length
  todoOld : ∀ x ∈ todo, x < N
  hNlen : N ≤ s.heap.length
  hsplit : ∃ F O, W = F ++ O ∧ (∀ x ∈ F, N ≤ x) ∧ (∀ x ∈ O, x < N)

/-! ### Concrete inputs used by the closed instances -/

/-- A constant random stream. -/
def wRng : Rng := ⟨fun _ => 1 / 2, 0⟩

/-- Trivial rational stand-ins for the JS math functions (only consumed by
`randomVelocity` definitions). -/
def wMath : JsMath := { cos := fun _ => 1, sin := fun _ => 0, sqrt := fun _ => 0, pi := 3 }

/-- A system with the given update rate, heap and head. -/
def wSysR (u : ℚ) (ps : List Particle) (root : Option Nat) : ParticleSystem :=
  { config := { update_rate := u }, math := wMath, heap := ps, root := root,
    rng := wRng }

/-- A system with the plugin's default 50 ms update rate. -/
def wSys (ps : List Particle) (root : Option Nat) : ParticleSystem :=
  wSysR 50 ps root

/-- A plain particle at the origin with the given lifespan and links. -/
def wP (L : ℚ) (pv nx : Option Nat) : Particle :=
  { x := 0, y := 0, z := 0, lifespan := L, gravity := 0, prev := pv,
    next := nx }

/-- Base fields with a unit x-velocity, zero gravity factor and a 1-second
pre-simulation, used to exhibit the pre-simulation duration scaling. -/
def c7Base : ParticleDefBase :=
  { color := (.fixed 255, .fixed 255, .fixed 255),
    velocity := .triple (.fixed 1) (.fixed 0) (.fixed 0),
    lifespan := .fixed 1, gravity := some (.fixed 0),
    preSimulate := some 1 }

/-- The pre-simulating definition. -/
def c7Def : ParticleDef := .mk c7Base none []

/-- The same definition without the pre-simulation. -/
def c7DefNoPre : ParticleDef := .mk { c7Base with preSimulate := none } none []

/-- A definition with `inheritVelocity` set. -/
def c4Def : ParticleDef :=
  .mk { color := (.fixed 255, .fixed 255, .fixed 255),
        velocity := .single (.fixed 3), inheritVelocity := true,
        lifespan := .fixed 1 } none []

/-- A long-lived child definition with constant fields. -/
def c1Child : ParticleDef :=
  .mk { color := (.fixed 255, .fixed 255, .fixed 255),
        velocity := .single (.fixed 0), lifespan := .fixed 5 } none []

/-- Two chained particles; the head dies on the first 1-second tick and its
cached plan spawns one `c1Child`. -/
def c1Sys : ParticleSystem :=
  wSys
    [{ x := 0, y := 0, z := 0, lifespan := 1, gravity := 0, next := some 1,
       plan := some (1, [c1Child]) },
     { x := 0, y := 0, z := 0, lifespan := 5, gravity := 0, prev := some 0 }]
    (some 0)

/-- A child rule whose `def` field names a definition absent from the table. -/
def c9BadChild : FChild := .mk (.single (.name "missing")) (some (.fixed 2))

/-- A definition holding the dangling child rule. -/
def c9BadDef : FDef :=
  .mk { color := (.fixed 255, .fixed 255, .fixed 255),
        velocity := .single (.fixed 0), lifespan := .fixed 1 }
    (some [c9BadChild])

/-- A one-entry definition table whose only entry has the dangling
reference. -/
def c9Table : List (String × FDef) := [("boom", c9BadDef)]

/-! ## Basic lemmas about the data model and the state operations -/

@[simp] theorem ParticleDef.base_mk (b : ParticleDefBase) (n : Option Range)
    (c : List ParticleDef) : (ParticleDef.mk b n c).base = b := rfl

@[simp] theorem ParticleDef.numChildren_mk (b : ParticleDefBase)
    (n : Option Range) (c : List ParticleDef) :
    (ParticleDef.mk b n c).numChildren = n := rfl

@[simp] theorem ParticleDef.children_mk (b : ParticleDefBase)
    (n : Option Range) (c : List ParticleDef) :
    (ParticleDef.mk b n c).children = c := rfl

section StateOps

variable (s : ParticleSystem) (e : Ev) (i j : Nat) (p : Particle)
  (f : Particle → Particle)

@[simp] theorem getP_logEv : (s.logEv e).getP i = s.getP i := rfl

@[simp] theorem root_logEv : (s.logEv e).root = s.root := rfl

@[simp] theorem heap_logEv : (s.logEv e).heap = s.heap := rfl

@[simp] theorem log_logEv : (s.logEv e).log = s.log ++ [e] := rfl

@[simp] theorem config_logEv : (s.logEv e).config = s.config := rfl

@[simp] theorem math_logEv : (s.logEv e).math = s.math := rfl

@[simp] theorem rng_logEv : (s.logEv e).rng = s.rng := rfl

@[simp] theorem root_setP : (s.setP j p).root = s.root := rfl

@[simp] theorem log_setP : (s.setP j p).log = s.log := rfl

@[simp] theorem config_setP : (s.setP j p).config = s.config := rfl

@[simp] theorem math_setP : (s.setP j p).math = s.math := rfl

@[simp] theorem rng_setP : (s.setP j p).rng = s.rng := rfl

@[simp] theorem length_setP :
    (s.setP j p).heap.length = s.heap.length := by
  simp [ParticleSystem.setP]

theorem getP_setP : (s.setP j p).getP i =
    if j = i then (if j < s.heap.length then some p else s.getP i)
    else s.getP i := by
  simp only [ParticleSystem.setP, ParticleSystem.getP, List.getElem?_set]
  by_cases h : j = i
  · subst h
    by_cases hl : j < s.heap.length
    · simp [hl]
    · simp only [if_pos rfl, if_neg hl,
        List.getElem?_eq_none (Nat.le_of_not_lt hl)]
  · simp only [h, if_false]

theorem getP_setP_ne (h : j ≠ i) : (s.setP j p).getP i = s.getP i := by
  simp [getP_setP, h]

theorem getP_setP_self (h : j < s.heap.length) :
    (s.setP j p).getP j = some p := by
  simp [getP_setP, h]

theorem getP_lt_length {s : ParticleSystem} {i : Nat} {p : Particle}
    (h : s.getP i = some p) : i < s.heap.length := by
  by_contra hl
  rw [ParticleSystem.getP, List.getElem?_eq_none (Nat.le_of_not_lt hl)] at h
  exact Option.noConfusion h

theorem modifyP_of_none (h : s.getP j = none) : s.modifyP j f = s := by
  rw [ParticleSystem.modifyP]
  rw [ParticleSystem.getP] at h
  simp [h]

theorem modifyP_of_some {s : ParticleSystem} {j : Nat} {p : Particle}
    (f : Particle → Particle) (h : s.getP j = some p) :
    s.modifyP j f = s.setP j (f p) := by
  rw [ParticleSystem.modifyP]
  rw [ParticleSystem.getP] at h
  simp [h]

@[simp] theorem root_modifyP : (s.modifyP j f).root = s.root := by
  rw [ParticleSystem.modifyP]
  cases s.heap[j]? <;> simp

@[simp] theorem log_modifyP : (s.modifyP j f).log = s.log := by
  rw [ParticleSystem.modifyP]
  cases s.heap[j]? <;> simp

@[simp] theorem config_modifyP : (s.modifyP j f).config = s.config := by
  rw [ParticleSystem.modifyP]
  cases s.heap[j]? <;> simp

@[simp] theorem math_modifyP : (s.modifyP j f).math = s.math := by
  rw [ParticleSystem.modifyP]
  cases s.heap[j]? <;> simp

@[simp] theorem rng_modifyP : (s.modifyP j f).rng = s.rng := by
  rw [ParticleSystem.modifyP]
  cases s.heap[j]? <;> simp

@[simp] theorem length_modifyP :
    (s.modifyP j f).heap.length = s.heap.length := by
  rw [ParticleSystem.modifyP]
  cases s.heap[j]? <;> simp [ParticleSystem.setP]

theorem getP_modifyP_ne (h : j ≠ i) : (s.modifyP j f).getP i = s.getP i := by
  rw [ParticleSystem.modifyP]
  cases hj : s.heap[j]? <;> simp [getP_setP_ne _ _ _ _ h]

theorem getP_modifyP_self {s : ParticleSystem} {j : Nat} {p : Particle}
    (f : Particle → Particle) (h : s.getP j = some p) :
    (s.modifyP j f).getP j = some (f p) := by
  rw [modifyP_of_some f h]
  exact getP_setP_self _ _ _ (getP_lt_length h)

@[simp] theorem alloc_fst : (s.alloc p).1 = s.heap.length := rfl

@[simp] theorem root_alloc : (s.alloc p).2.root = s.root := rfl

@[simp] theorem log_alloc : (s.alloc p).2.log = s.log := rfl

@[simp] theorem config_alloc : (s.alloc p).2.config = s.config := rfl

@[simp] theorem math_alloc : (s.alloc p).2.math = s.math := rfl

@[simp] theorem rng_alloc : (s.alloc p).2.rng = s.rng := rfl

@[simp] theorem length_alloc :
    (s.alloc p).2.heap.length = s.heap.length + 1 := by
  simp [ParticleSystem.alloc]

theorem getP_alloc_lt (h : i < s.heap.length) :
    (s.alloc p).2.getP i = s.getP i := by
  simp [ParticleSystem.alloc, ParticleSystem.getP,
    List.getElem?_append_left h]

theorem getP_alloc_len : (s.alloc p).2.getP s.heap.length = some p := by
  simp [ParticleSystem.alloc, ParticleSystem.getP]

theorem getP_alloc_ne (s : ParticleSystem) (p : Particle) {i : Nat}
    (h : i ≠ s.heap.length) : (s.alloc p).2.getP i = s.getP i := by
  rcases Nat.lt_or_ge i s.heap.length with hlt | hge
  · exact getP_alloc_lt s i p hlt
  · have h1 : s.heap.length + 1 ≤ i := Nat.lt_of_le_of_ne hge (Ne.symm h)
    have e1 : (s.alloc p).2.getP i = none := by
      rw [ParticleSystem.getP]
      exact List.getElem?_eq_none (by simpa [ParticleSystem.alloc] using h1)
    have e2 : s.getP i = none := by
      rw [ParticleSystem.getP]
      exact List.getElem?_eq_none hge
    rw [e1, e2]

end StateOps

section PointerViews

variable (s : ParticleSystem) (e : Ev) (i j : Nat) (p : Particle)
  (f : Particle → Particle)

@[simp] theorem nexts_logEv : nexts (s.logEv e) i = nexts s i := rfl

@[simp] theorem prevs_logEv : prevs (s.logEv e) i = prevs s i := rfl

theorem nexts_setP_ne (h : j ≠ i) : nexts (s.setP j p) i = nexts s i := by
  rw [nexts, getP_setP_ne _ _ _ _ h, nexts]

theorem prevs_setP_ne (h : j ≠ i) : prevs (s.setP j p) i = prevs s i := by
  rw [prevs, getP_setP_ne _ _ _ _ h, prevs]

theorem nexts_setP_self (h : j < s.heap.length) :
    nexts (s.setP j p) j = some p.next := by
  rw [nexts, getP_setP_self _ _ _ h]; rfl

theorem prevs_setP_self (h : j < s.heap.length) :
    prevs (s.setP j p) j = some p.prev := by
  rw [prevs, getP_setP_self _ _ _ h]; rfl

theorem nexts_setP_keep {s : ParticleSystem} {j : Nat} {p0 p : Particle}
    (h : s.getP j = some p0) (hn : p.next = p0.next) (i : Nat) :
    nexts (s.setP j p) i = nexts s i := by
  by_cases hji : j = i
  · subst hji
    rw [nexts_setP_self _ _ _ (getP_lt_length h), hn, nexts, h]
    rfl
  · exact nexts_setP_ne _ _ _ _ hji

theorem prevs_setP_keep {s : ParticleSystem} {j : Nat} {p0 p : Particle}
    (h : s.getP j = some p0) (hp : p.prev = p0.prev) (i : Nat) :
    prevs (s.setP j p) i = prevs s i := by
  by_cases hji : j = i
  · subst hji
    rw [prevs_setP_self _ _ _ (getP_lt_length h), hp, prevs, h]
    rfl
  · exact prevs_setP_ne _ _ _ _ hji

theorem nexts_modifyP_keep {s : ParticleSystem} {j : Nat}
    {f : Particle → Particle} (hf : ∀ q, (f q).next = q.next) (i : Nat) :
    nexts (s.modifyP j f) i = nexts s i := by
  cases hj : s.getP j with
  | none => rw [modifyP_of_none _ _ _ hj]
  | some p0 => rw [modifyP_of_some f hj]; exact nexts_setP_keep hj (hf p0) i

theorem prevs_modifyP_keep {s : ParticleSystem} {j : Nat}
    {f : Particle → Particle} (hf : ∀ q, (f q).prev = q.prev) (i : Nat) :
    prevs (s.modifyP j f) i = prevs s i := by
  cases hj : s.getP j with
  | none => rw [modifyP_of_none _ _ _ hj]
  | some p0 => rw [modifyP_of_some f hj]; exact prevs_setP_keep hj (hf p0) i

theorem nexts_modifyP_setNext {s : ParticleSystem} {j : Nat} {p0 : Particle}
    (v : Option Nat) (h : s.getP j = some p0) (i : Nat) :
    nexts (s.modifyP j fun q => { q with next := v }) i =
      if j = i then some v else nexts s i := by
  rw [modifyP_of_some _ h]
  by_cases hji : j = i
  · subst hji
    rw [nexts_setP_self _ _ _ (getP_lt_length h), if_pos rfl]
  · rw [nexts_setP_ne _ _ _ _ hji, if_neg hji]

theorem prevs_modifyP_setPrev {s : ParticleSystem} {j : Nat} {p0 : Particle}
    (v : Option Nat) (h : s.getP j = some p0) (i : Nat) :
    prevs (s.modifyP j fun q => { q with prev := v }) i =
      if j = i then some v else prevs s i := by
  rw [modifyP_of_some _ h]
  by_cases hji : j = i
  · subst hji
    rw [prevs_setP_self _ _ _ (getP_lt_length h), if_pos rfl]
  · rw [prevs_setP_ne _ _ _ _ hji, if_neg hji]

theorem nexts_alloc (i : Nat) :
    nexts (s.alloc p).2 i =
      if i = s.heap.length then some p.next else nexts s i := by
  by_cases h : i = s.heap.length
  · subst h
    rw [nexts, getP_alloc_len, if_pos rfl]; rfl
  · rw [nexts, getP_alloc_ne s p h, if_neg h, nexts]

theorem prevs_alloc (i : Nat) :
    prevs (s.alloc p).2 i =
      if i = s.heap.length then some p.prev else prevs s i := by
  by_cases h : i = s.heap.length
  · subst h
    rw [prevs, getP_alloc_len, if_pos rfl]; rfl
  · rw [prevs, getP_alloc_ne s p h, if_neg h, prevs]

theorem nexts_modifyP_prevSet (s : ParticleSystem) (j : Nat)
    (v : Option Nat) (i : Nat) :
    nexts (s.modifyP j fun q => { q with prev := v }) i = nexts s i := by
  apply nexts_modifyP_keep
  intro q
  rfl

theorem prevs_modifyP_nextSet (s : ParticleSystem) (j : Nat)
    (v : Option Nat) (i : Nat) :
    prevs (s.modifyP j fun q => { q with next := v }) i = prevs s i := by
  apply prevs_modifyP_keep
  intro q
  rfl

theorem nexts_modifyP_dcSet (s : ParticleSystem) (j : Nat) (i : Nat) :
    nexts (s.modifyP j fun q => { q with deathCalled := true }) i =
      nexts s i := by
  apply nexts_modifyP_keep
  intro q
  rfl

theorem prevs_modifyP_dcSet (s : ParticleSystem) (j : Nat) (i : Nat) :
    prevs (s.modifyP j fun q => { q with deathCalled := true }) i =
      prevs s i := by
  apply prevs_modifyP_keep
  intro q
  rfl

end PointerViews

section FromDefLemmas

variable (s : ParticleSystem) (d : ParticleDef) (x y z : ℚ) (i : Nat)

@[simp] theorem fromDef_fst : (Particle.fromDef s d x y z).1 = s.heap.length :=
  rfl

@[simp] theorem fromDef_root :
    (Particle.fromDef s d x y z).2.root = s.root := rfl

@[simp] theorem fromDef_config :
    (Particle.fromDef s d x y z).2.config = s.config := rfl

@[simp] theorem fromDef_math :
    (Particle.fromDef s d x y z).2.math = s.math := rfl

@[simp] theorem fromDef_length :
    (Particle.fromDef s d x y z).2.heap.length = s.heap.length + 1 := by
  simp [Particle.fromDef]

@[simp] theorem fromDef_log :
    (Particle.fromDef s d x y z).2.log =
      s.log ++ [.spawned s.heap.length x y z] := by
  simp [Particle.fromDef]

theorem fromDef_getP_lt (h : i < s.heap.length) :
    (Particle.fromDef s d x y z).2.getP i = s.getP i := by
  have := getP_alloc_lt { s with rng := (fromDefParticle s d x y z).2 } i
    (fromDefParticle s d x y z).1 h
  simpa [Particle.fromDef] using this

theorem fromDef_getP_new :
    (Particle.fromDef s d x y z).2.getP s.heap.length =
      some (fromDefParticle s d x y z).1 := by
  have := getP_alloc_len { s with rng := (fromDefParticle s d x y z).2 }
    (fromDefParticle s d x y z).1
  simpa [Particle.fromDef] using this

end FromDefLemmas

section StepShapeLemmas

variable (d : ParticleDef) (m : JsMath) (cfg : Config) (p : Particle)
  (g : Rng) (parent : Option Particle)

theorem colorStep_eq : ∃ cr cg cb g2,
    colorStep d p g = ({ p with r := cr, g := cg, b := cb }, g2) := by
  simp only [colorStep]
  split
  · exact ⟨_, _, _, _, rfl⟩
  · exact ⟨_, _, _, _, rfl⟩

theorem velocityStep_eq : ∃ a b c g2,
    velocityStep m d p g = ({ p with vx := a, vy := b, vz := c }, g2) := by
  simp only [velocityStep]
  split
  · exact ⟨_, _, _, _, rfl⟩
  · exact ⟨_, _, _, _, rfl⟩

theorem lifespanStep_eq : ∃ lf g2,
    lifespanStep d p g = ({ p with lifespan := lf }, g2) :=
  ⟨_, _, rfl⟩

theorem gravityStep_eq : ∃ gv g2,
    gravityStep d p g = ({ p with gravity := gv }, g2) := by
  simp only [gravityStep]
  split
  · exact ⟨_, _, rfl⟩
  · exact ⟨_, _, rfl⟩

theorem sizeStep_eq : ∃ sv g2,
    sizeStep d p g = ({ p with size := sv }, g2) := by
  simp only [sizeStep]
  split
  · exact ⟨_, _, rfl⟩
  · exact ⟨_, _, rfl⟩

theorem preSimStep_eq : ∃ a b c w,
    preSimStep cfg d p = { p with x := a, y := b, z := c, vz := w } := by
  simp only [preSimStep, Particle.simulateSpatial]
  repeat' split
  all_goals exact ⟨_, _, _, _, rfl⟩

theorem planStep_eq : ∃ pl g2,
    planStep d p g = ({ p with plan := pl }, g2) := by
  simp only [planStep]
  repeat' split
  all_goals exact ⟨_, _, rfl⟩

theorem inheritStep_eq : ∃ a b c,
    inheritStep d parent p = { p with vx := a, vy := b, vz := c } := by
  simp only [inheritStep]
  repeat' split
  all_goals exact ⟨_, _, _, rfl⟩

theorem colorStep_prev : (colorStep d p g).1.prev = p.prev := by
  simp only [colorStep]; split <;> rfl

theorem colorStep_next : (colorStep d p g).1.next = p.next := by
  simp only [colorStep]; split <;> rfl

theorem colorStep_age : (colorStep d p g).1.age = p.age := by
  simp only [colorStep]; split <;> rfl

theorem colorStep_dc : (colorStep d p g).1.deathCalled = p.deathCalled := by
  simp only [colorStep]; split <;> rfl

theorem velocityStep_prev : (velocityStep m d p g).1.prev = p.prev := by
  simp only [velocityStep]; split <;> rfl

theorem velocityStep_next : (velocityStep m d p g).1.next = p.next := by
  simp only [velocityStep]; split <;> rfl

theorem velocityStep_age : (velocityStep m d p g).1.age = p.age := by
  simp only [velocityStep]; split <;> rfl

theorem velocityStep_dc :
    (velocityStep m d p g).1.deathCalled = p.deathCalled := by
  simp only [velocityStep]; split <;> rfl

theorem lifespanStep_prev : (lifespanStep d p g).1.prev = p.prev := rfl

theorem lifespanStep_next : (lifespanStep d p g).1.next = p.next := rfl

theorem lifespanStep_age : (lifespanStep d p g).1.age = p.age := rfl

theorem lifespanStep_dc :
    (lifespanStep d p g).1.deathCalled = p.deathCalled := rfl

theorem gravityStep_prev : (gravityStep d p g).1.prev = p.prev := by
  simp only [gravityStep]; split <;> rfl

theorem gravityStep_next : (gravityStep d p g).1.next = p.next := by
  simp only [gravityStep]; split <;> rfl

theorem gravityStep_age : (gravityStep d p g).1.age = p.age := by
  simp only [gravityStep]; split <;> rfl

theorem gravityStep_dc :
    (gravityStep d p g).1.deathCalled = p.deathCalled := by
  simp only [gravityStep]; split <;> rfl

theorem sizeStep_prev : (sizeStep d p g).1.prev = p.prev := by
  simp only [sizeStep]; split <;> rfl

theorem sizeStep_next : (sizeStep d p g).1.next = p.next := by
  simp only [sizeStep]; split <;> rfl

theorem sizeStep_age : (sizeStep d p g).1.age = p.age := by
  simp only [sizeStep]; split <;> rfl

theorem sizeStep_dc : (sizeStep d p g).1.deathCalled = p.deathCalled := by
  simp only [sizeStep]; split <;> rfl

theorem preSimStep_prev : (preSimStep cfg d p).prev = p.prev := by
  simp only [preSimStep, Particle.simulateSpatial]; repeat' split
  all_goals rfl

theorem preSimStep_next : (preSimStep cfg d p).next = p.next := by
  simp only [preSimStep, Particle.simulateSpatial]; repeat' split
  all_goals rfl

theorem preSimStep_age : (preSimStep cfg d p).age = p.age := by
  simp only [preSimStep, Particle.simulateSpatial]; repeat' split
  all_goals rfl

theorem preSimStep_dc : (preSimStep cfg d p).deathCalled = p.deathCalled := by
  simp only [preSimStep, Particle.simulateSpatial]; repeat' split
  all_goals rfl

theorem planStep_prev : (planStep d p g).1.prev = p.prev := by
  simp only [planStep]; repeat' split
  all_goals rfl

theorem planStep_next : (planStep d p g).1.next = p.next := by
  simp only [planStep]; repeat' split
  all_goals rfl

theorem planStep_age : (planStep d p g).1.age = p.age := by
  simp only [planStep]; repeat' split
  all_goals rfl

theorem planStep_dc : (planStep d p g).1.deathCalled = p.deathCalled := by
  simp only [planStep]; repeat' split
  all_goals rfl

theorem fromDefParticle_prev (s : ParticleSystem) (d : ParticleDef)
    (x y z : ℚ) : (fromDefParticle s d x y z).1.prev = none := by
  simp only [fromDefParticle]
  rw [planStep_prev, preSimStep_prev, sizeStep_prev, gravityStep_prev,
    lifespanStep_prev, velocityStep_prev, colorStep_prev]

theorem fromDefParticle_next (s : ParticleSystem) (d : ParticleDef)
    (x y z : ℚ) : (fromDefParticle s d x y z).1.next = none := by
  simp only [fromDefParticle]
  rw [planStep_next, preSimStep_next, sizeStep_next, gravityStep_next,
    lifespanStep_next, velocityStep_next, colorStep_next]

theorem fromDefParticle_age (s : ParticleSystem) (d : ParticleDef)
    (x y z : ℚ) : (fromDefParticle s d x y z).1.age = 0 := by
  simp only [fromDefParticle]
  rw [planStep_age, preSimStep_age, sizeStep_age, gravityStep_age,
    lifespanStep_age, velocityStep_age, colorStep_age]

theorem fromDefParticle_dc (s : ParticleSystem) (d : ParticleDef)
    (x y z : ℚ) : (fromDefParticle s d x y z).1.deathCalled = false := by
  simp only [fromDefParticle]
  rw [planStep_dc, preSimStep_dc, sizeStep_dc, gravityStep_dc,
    lifespanStep_dc, velocityStep_dc, colorStep_dc]

end StepShapeLemmas

section AgedLemmas

variable (p : Particle) (delta : ℚ)

@[simp] theorem aged_age : (p.aged delta).age = p.age + delta := rfl

@[simp] theorem aged_lifespan : (p.aged delta).lifespan = p.lifespan := rfl

@[simp] theorem aged_deathCalled :
    (p.aged delta).deathCalled = p.deathCalled := rfl

@[simp] theorem aged_prev : (p.aged delta).prev = p.prev := rfl

@[simp] theorem aged_next : (p.aged delta).next = p.next := rfl

@[simp] theorem aged_plan : (p.aged delta).plan = p.plan := rfl

@[simp] theorem aged_x : (p.aged delta).x = p.x + p.vx * delta := rfl

@[simp] theorem aged_y : (p.aged delta).y = p.y + p.vy * delta := rfl

@[simp] theorem aged_z : (p.aged delta).z = p.z + p.vz * delta := rfl

@[simp] theorem aged_vx : (p.aged delta).vx = p.vx := rfl

@[simp] theorem aged_vy : (p.aged delta).vy = p.vy := rfl

@[simp] theorem aged_vz : (p.aged delta).vz = p.vz + p.gravity * delta := rfl

@[simp] theorem aged_gravity : (p.aged delta).gravity = p.gravity := rfl

@[simp] theorem core_age (q : Particle) : q.core.age = q.age := rfl

@[simp] theorem core_lifespan (q : Particle) : q.core.lifespan = q.lifespan :=
  rfl

@[simp] theorem core_plan (q : Particle) : q.core.plan = q.plan := rfl

@[simp] theorem core_x (q : Particle) : q.core.x = q.x := rfl

@[simp] theorem core_y (q : Particle) : q.core.y = q.y := rfl

@[simp] theorem core_z (q : Particle) : q.core.z = q.z := rfl

@[simp] theorem core_vx (q : Particle) : q.core.vx = q.vx := rfl

@[simp] theorem core_vy (q : Particle) : q.core.vy = q.vy := rfl

@[simp] theorem core_vz (q : Particle) : q.core.vz = q.vz := rfl

@[simp] theorem core_gravity (q : Particle) : q.core.gravity = q.gravity :=
  rfl

@[simp] theorem core_size (q : Particle) : q.core.size = q.size := rfl

@[simp] theorem core_r (q : Particle) : q.core.r = q.r := rfl

@[simp] theorem core_g (q : Particle) : q.core.g = q.g := rfl

@[simp] theorem core_b (q : Particle) : q.core.b = q.b := rfl

theorem core_setNext (q : Particle) (v : Option Nat) :
    ({ q with next := v } : Particle).core = q.core := rfl

theorem core_setPrev (q : Particle) (v : Option Nat) :
    ({ q with prev := v } : Particle).core = q.core := rfl

theorem core_setDC (q : Particle) :
    ({ q with deathCalled := true } : Particle).core = q.core := rfl

theorem dc_setNext (q : Particle) (v : Option Nat) :
    ({ q with next := v } : Particle).deathCalled = q.deathCalled := rfl

theorem dc_setPrev (q : Particle) (v : Option Nat) :
    ({ q with prev := v } : Particle).deathCalled = q.deathCalled := rfl

end AgedLemmas

section CoreViews

variable (s : ParticleSystem) (e : Ev) (i j : Nat) (p : Particle)
  (f : Particle → Particle)

@[simp] theorem cores_logEv : cores (s.logEv e) i = cores s i := rfl

@[simp] theorem dcs_logEv : dcs (s.logEv e) i = dcs s i := rfl

theorem cores_setP_ne (h : j ≠ i) : cores (s.setP j p) i = cores s i := by
  rw [cores, getP_setP_ne _ _ _ _ h, cores]

theorem dcs_setP_ne (h : j ≠ i) : dcs (s.setP j p) i = dcs s i := by
  rw [dcs, getP_setP_ne _ _ _ _ h, dcs]

theorem cores_setP_self (h : j < s.heap.length) :
    cores (s.setP j p) j = some p.core := by
  rw [cores, getP_setP_self _ _ _ h]; rfl

theorem dcs_setP_self (h : j < s.heap.length) :
    dcs (s.setP j p) j = some p.deathCalled := by
  rw [dcs, getP_setP_self _ _ _ h]; rfl

theorem cores_setP_keep {s : ParticleSystem} {j : Nat} {p0 p : Particle}
    (h : s.getP j = some p0) (hc : p.core = p0.core) (i : Nat) :
    cores (s.setP j p) i = cores s i := by
  by_cases hji : j = i
  · subst hji
    rw [cores_setP_self _ _ _ (getP_lt_length h), hc, cores, h]
    rfl
  · exact cores_setP_ne _ _ _ _ hji

theorem dcs_setP_keep {s : ParticleSystem} {j : Nat} {p0 p : Particle}
    (h : s.getP j = some p0) (hd : p.deathCalled = p0.deathCalled) (i : Nat) :
    dcs (s.setP j p) i = dcs s i := by
  by_cases hji : j = i
  · subst hji
    rw [dcs_setP_self _ _ _ (getP_lt_length h), hd, dcs, h]
    rfl
  · exact dcs_setP_ne _ _ _ _ hji

theorem cores_modifyP_keep {s : ParticleSystem} {j : Nat}
    {f : Particle → Particle} (hf : ∀ q, (f q).core = q.core) (i : Nat) :
    cores (s.modifyP j f) i = cores s i := by
  cases hj : s.getP j with
  | none => rw [modifyP_of_none _ _ _ hj]
  | some p0 => rw [modifyP_of_some f hj]; exact cores_setP_keep hj (hf p0) i

theorem dcs_modifyP_keep {s : ParticleSystem} {j : Nat}
    {f : Particle → Particle}
    (hf : ∀ q, (f q).deathCalled = q.deathCalled) (i : Nat) :
    dcs (s.modifyP j f) i = dcs s i := by
  cases hj : s.getP j with
  | none => rw [modifyP_of_none _ _ _ hj]
  | some p0 => rw [modifyP_of_some f hj]; exact dcs_setP_keep hj (hf p0) i

theorem cores_alloc (i : Nat) :
    cores (s.alloc p).2 i =
      if i = s.heap.length then some p.core else cores s i := by
  by_cases h : i = s.heap.length
  · subst h
    rw [cores, getP_alloc_len, if_pos rfl]; rfl
  · rw [cores, getP_alloc_ne s p h, if_neg h, cores]

theorem dcs_alloc (i : Nat) :
    dcs (s.alloc p).2 i =
      if i = s.heap.length then some p.deathCalled else dcs s i := by
  by_cases h : i = s.heap.length
  · subst h
    rw [dcs, getP_alloc_len, if_pos rfl]; rfl
  · rw [dcs, getP_alloc_ne s p h, if_neg h, dcs]

theorem cores_addParticle (h : Nat) (i : Nat) :
    cores (s.addParticle h) i = cores s i := by
  unfold ParticleSystem.addParticle
  have h1 : ∀ t : ParticleSystem, ∀ r l,
      cores { t with root := r, log := l } i = cores t i := fun _ _ _ => rfl
  cases hr : s.root with
  | none =>
    simp only [hr, h1]
    exact cores_modifyP_keep (fun q => core_setNext q _) i
  | some r0 =>
    simp only [hr, h1]
    rw [cores_modifyP_keep (fun q => core_setPrev q _) i]
    exact cores_modifyP_keep (fun q => core_setNext q _) i

theorem dcs_addParticle (h : Nat) (i : Nat) :
    dcs (s.addParticle h) i = dcs s i := by
  unfold ParticleSystem.addParticle
  have h1 : ∀ t : ParticleSystem, ∀ r l,
      dcs { t with root := r, log := l } i = dcs t i := fun _ _ _ => rfl
  cases hr : s.root with
  | none =>
    simp only [hr, h1]
    exact dcs_modifyP_keep (fun q => dc_setNext q _) i
  | some r0 =>
    simp only [hr, h1]
    rw [dcs_modifyP_keep (fun q => dc_setPrev q _) i]
    exact dcs_modifyP_keep (fun q => dc_setNext q _) i

@[simp] theorem length_addParticle (h : Nat) :
    (s.addParticle h).heap.length = s.heap.length := by
  unfold ParticleSystem.addParticle
  cases s.root <;> simp

theorem cores_fromDef (d : ParticleDef) (x y z : ℚ) (i : Nat) :
    cores (Particle.fromDef s d x y z).2 i =
      if i = s.heap.length then some (fromDefParticle s d x y z).1.core
      else cores s i := by
  have := cores_alloc { s with rng := (fromDefParticle s d x y z).2 }
    (fromDefParticle s d x y z).1 i
  simpa [Particle.fromDef, cores] using this

theorem dcs_fromDef (d : ParticleDef) (x y z : ℚ) (i : Nat) :
    dcs (Particle.fromDef s d x y z).2 i =
      if i = s.heap.length then
        some (fromDefParticle s d x y z).1.deathCalled
      else dcs s i := by
  have := dcs_alloc { s with rng := (fromDefParticle s d x y z).2 }
    (fromDefParticle s d x y z).1 i
  simpa [Particle.fromDef, dcs] using this

end CoreViews

section SpawnPreservation

variable (kids : List ParticleDef) (px py pz : ℚ)

@[simp] theorem root_addParticle (s : ParticleSystem) (h : Nat) :
    (s.addParticle h).root = some h := by
  unfold ParticleSystem.addParticle
  cases s.root <;> rfl

@[simp] theorem log_addParticle (s : ParticleSystem) (h : Nat) :
    (s.addParticle h).log = s.log ++ [.added h] := by
  unfold ParticleSystem.addParticle
  cases s.root <;> simp

theorem spawnLoop_length : ∀ (cnt : Nat) (s : ParticleSystem)
    (acc : Option (Nat × Nat)),
    (spawnLoop kids px py pz cnt s acc).1.heap.length =
      s.heap.length + cnt := by
  intro cnt
  induction cnt with
  | zero => intro s acc; rfl
  | succ n ih =>
    intro s acc
    cases acc with
    | none =>
      simp only [spawnLoop, ih]
      simp [Nat.add_comm, Nat.add_assoc, Nat.add_left_comm]
    | some fc =>
      simp only [spawnLoop, ih]
      simp [Nat.add_comm, Nat.add_assoc, Nat.add_left_comm]

theorem spawnLoop_cores : ∀ (cnt : Nat) (s : ParticleSystem)
    (acc : Option (Nat × Nat)) (i : Nat), i < s.heap.length →
    cores (spawnLoop kids px py pz cnt s acc).1 i = cores s i := by
  intro cnt
  induction cnt with
  | zero => intro s acc i _; rfl
  | succ n ih =>
    intro s acc i hi
    have hlen : i <
        (Particle.fromDef { s with rng := (pickDef kids s.rng).2 }
          (pickDef kids s.rng).1 px py pz).2.heap.length := by
      rw [fromDef_length]
      exact Nat.lt_succ_of_lt hi
    have hcfd : cores (Particle.fromDef
        { s with rng := (pickDef kids s.rng).2 }
        (pickDef kids s.rng).1 px py pz).2 i = cores s i := by
      rw [cores_fromDef, if_neg (Nat.ne_of_lt hi)]
      rfl
    cases acc with
    | none =>
      simp only [spawnLoop]
      rw [ih _ _ i hlen, hcfd]
    | some fc =>
      simp only [spawnLoop]
      rw [ih _ _ i (by simpa using hlen)]
      rw [cores_modifyP_keep (fun q => core_setPrev q _) i,
        cores_modifyP_keep (fun q => core_setNext q _) i, hcfd]

theorem spawnLoop_dcs : ∀ (cnt : Nat) (s : ParticleSystem)
    (acc : Option (Nat × Nat)) (i : Nat), i < s.heap.length →
    dcs (spawnLoop kids px py pz cnt s acc).1 i = dcs s i := by
  intro cnt
  induction cnt with
  | zero => intro s acc i _; rfl
  | succ n ih =>
    intro s acc i hi
    have hlen : i <
        (Particle.fromDef { s with rng := (pickDef kids s.rng).2 }
          (pickDef kids s.rng).1 px py pz).2.heap.length := by
      rw [fromDef_length]
      exact Nat.lt_succ_of_lt hi
    have hcfd : dcs (Particle.fromDef
        { s with rng := (pickDef kids s.rng).2 }
        (pickDef kids s.rng).1 px py pz).2 i = dcs s i := by
      rw [dcs_fromDef, if_neg (Nat.ne_of_lt hi)]
      rfl
    cases acc with
    | none =>
      simp only [spawnLoop]
      rw [ih _ _ i hlen, hcfd]
    | some fc =>
      simp only [spawnLoop]
      rw [ih _ _ i (by simpa using hlen)]
      rw [dcs_modifyP_keep (fun q => dc_setPrev q _) i,
        dcs_modifyP_keep (fun q => dc_setNext q _) i, hcfd]

theorem spawnLoop_log : ∀ (cnt : Nat) (s : ParticleSystem)
    (acc : Option (Nat × Nat)),
    ∃ tail, (spawnLoop kids px py pz cnt s acc).1.log = s.log ++ tail ∧
      ∀ k, Ev.death k ∉ tail := by
  intro cnt
  induction cnt with
  | zero => intro s acc; exact ⟨[], by simp [spawnLoop], by simp⟩
  | succ n ih =>
    intro s acc
    cases acc with
    | none =>
      obtain ⟨tail, htail, hnd⟩ := ih (Particle.fromDef
        { s with rng := (pickDef kids s.rng).2 }
        (pickDef kids s.rng).1 px py pz).2 (some ((Particle.fromDef
        { s with rng := (pickDef kids s.rng).2 }
        (pickDef kids s.rng).1 px py pz).1, (Particle.fromDef
        { s with rng := (pickDef kids s.rng).2 }
        (pickDef kids s.rng).1 px py pz).1))
      refine ⟨Ev.spawned s.heap.length px py pz :: tail, ?_, ?_⟩
      · simp only [spawnLoop]
        rw [htail]
        simp [Particle.fromDef]
      · intro k
        simp only [List.mem_cons]
        rintro (h | h)
        · exact Ev.noConfusion h
        · exact hnd k h
    | some fc =>
      obtain ⟨tail, htail, hnd⟩ := ih _ _
      refine ⟨Ev.spawned s.heap.length px py pz :: tail, ?_, ?_⟩
      · simp only [spawnLoop]
        rw [htail]
        simp [Particle.fromDef]
      · intro k
        simp only [List.mem_cons]
        rintro (h | h)
        · exact Ev.noConfusion h
        · exact hnd k h

end SpawnPreservation

section RunPlanPreservation

variable {px py pz : ℚ}

theorem runPlan_cores {s : ParticleSystem}
    {pl : Option (ℚ × List ParticleDef)} {i : Nat}
    (h : i < s.heap.length) :
    cores (runPlan s px py pz pl) i = cores s i := by
  cases pl with
  | none => rfl
  | some nk =>
    rcases hsp : spawnLoop nk.2 px py pz (⌈nk.1⌉ : ℤ).toNat s none
      with ⟨s1, acc⟩
    have hc := spawnLoop_cores nk.2 px py pz (⌈nk.1⌉ : ℤ).toNat s none i h
    rw [hsp] at hc
    simp only [runPlan, hsp]
    cases acc with
    | none => exact hc
    | some fc => rw [cores_addParticle]; exact hc

theorem runPlan_dcs {s : ParticleSystem}
    {pl : Option (ℚ × List ParticleDef)} {i : Nat}
    (h : i < s.heap.length) :
    dcs (runPlan s px py pz pl) i = dcs s i := by
  cases pl with
  | none => rfl
  | some nk =>
    rcases hsp : spawnLoop nk.2 px py pz (⌈nk.1⌉ : ℤ).toNat s none
      with ⟨s1, acc⟩
    have hc := spawnLoop_dcs nk.2 px py pz (⌈nk.1⌉ : ℤ).toNat s none i h
    rw [hsp] at hc
    simp only [runPlan, hsp]
    cases acc with
    | none => exact hc
    | some fc => rw [dcs_addParticle]; exact hc

theorem runPlan_length_ge (s : ParticleSystem)
    (pl : Option (ℚ × List ParticleDef)) :
    s.heap.length ≤ (runPlan s px py pz pl).heap.length := by
  cases pl with
  | none => exact Nat.le_refl _
  | some nk =>
    rcases hsp : spawnLoop nk.2 px py pz (⌈nk.1⌉ : ℤ).toNat s none
      with ⟨s1, acc⟩
    have hl := spawnLoop_length nk.2 px py pz (⌈nk.1⌉ : ℤ).toNat s none
    rw [hsp] at hl
    simp only [runPlan, hsp]
    cases acc with
    | none => simp only [hl]; exact Nat.le_add_right _ _
    | some fc =>
      rw [length_addParticle]
      simp only [hl]
      exact Nat.le_add_right _ _

theorem runPlan_log (s : ParticleSystem)
    (pl : Option (ℚ × List ParticleDef)) :
    ∃ tail, (runPlan s px py pz pl).log = s.log ++ tail ∧
      ∀ k, Ev.death k ∉ tail := by
  cases pl with
  | none => exact ⟨[], by simp [runPlan], by simp⟩
  | some nk =>
    rcases hsp : spawnLoop nk.2 px py pz (⌈nk.1⌉ : ℤ).toNat s none
      with ⟨s1, acc⟩
    obtain ⟨tail, htail, hnd⟩ :=
      spawnLoop_log nk.2 px py pz (⌈nk.1⌉ : ℤ).toNat s none
    rw [hsp] at htail
    simp only [runPlan, hsp]
    cases acc with
    | none => exact ⟨tail, htail, hnd⟩
    | some fc =>
      refine ⟨tail ++ [.added fc.1], ?_, ?_⟩
      · rw [log_addParticle, htail, List.append_assoc]
      · intro k
        simp only [List.mem_append, List.mem_singleton]
        rintro (h | h)
        · exact hnd k h
        · exact Ev.noConfusion h

end RunPlanPreservation

section UnlinkLemmas

variable (s : ParticleSystem) (pv nx : Option Nat) (i : Nat)

theorem cores_unlinkPrev : cores (unlinkPrev s pv nx) i = cores s i := by
  cases pv with
  | none => rfl
  | some pr => exact cores_modifyP_keep (fun q => core_setNext q _) i

theorem cores_unlinkNext : cores (unlinkNext s pv nx) i = cores s i := by
  cases nx with
  | none => rfl
  | some n2 => exact cores_modifyP_keep (fun q => core_setPrev q _) i

theorem dcs_unlinkPrev : dcs (unlinkPrev s pv nx) i = dcs s i := by
  cases pv with
  | none => rfl
  | some pr => exact dcs_modifyP_keep (fun q => dc_setNext q _) i

theorem dcs_unlinkNext : dcs (unlinkNext s pv nx) i = dcs s i := by
  cases nx with
  | none => rfl
  | some n2 => exact dcs_modifyP_keep (fun q => dc_setPrev q _) i

@[simp] theorem log_unlinkPrev : (unlinkPrev s pv nx).log = s.log := by
  cases pv <;> simp [unlinkPrev]

@[simp] theorem log_unlinkNext : (unlinkNext s pv nx).log = s.log := by
  cases nx <;> simp [unlinkNext]

@[simp] theorem length_unlinkPrev :
    (unlinkPrev s pv nx).heap.length = s.heap.length := by
  cases pv <;> simp [unlinkPrev]

@[simp] theorem length_unlinkNext :
    (unlinkNext s pv nx).heap.length = s.heap.length := by
  cases nx <;> simp [unlinkNext]

@[simp] theorem root_unlinkPrev : (unlinkPrev s pv nx).root = s.root := by
  cases pv <;> simp [unlinkPrev]

@[simp] theorem root_unlinkNext : (unlinkNext s pv nx).root = s.root := by
  cases nx <;> simp [unlinkNext]

end UnlinkLemmas

section SimulateStep

theorem dcs_modifyP_setDC {s : ParticleSystem} {j : Nat} {p0 : Particle}
    (h : s.getP j = some p0) :
    dcs (s.modifyP j fun q => { q with deathCalled := true }) j =
      some true := by
  rw [modifyP_of_some _ h, dcs_setP_self _ _ _ (getP_lt_length h)]

theorem getP_isSome_of_cores {s : ParticleSystem} {i : Nat} {q : Particle}
    (h : cores s i = some q) : ∃ w, s.getP i = some w := by
  rw [cores] at h
  cases hg : s.getP i with
  | none => rw [hg] at h; exact Option.noConfusion h
  | some w => exact ⟨w, rfl⟩

/-- The behaviour of one `Particle.simulate` call on the subject particle's
non-pointer state, its alive flag, its one-shot flag, the heap size and the
log. -/
theorem Particle.simulate_spec {s : ParticleSystem} {i : Nat} {p : Particle}
    (δ : ℚ) (hp : s.getP i = some p) :
    ((Particle.simulate s i δ).2 = false ↔
      (p.lifespan ≠ 0 ∧ p.lifespan ≤ p.age + δ)) ∧
    cores (Particle.simulate s i δ).1 i = some ((p.aged δ).core) ∧
    dcs (Particle.simulate s i δ).1 i =
      some (p.deathCalled ||
        decide (p.lifespan ≠ 0 ∧ p.lifespan ≤ p.age + δ)) ∧
    s.heap.length ≤ (Particle.simulate s i δ).1.heap.length ∧
    ∃ tail, (Particle.simulate s i δ).1.log =
        s.log ++ Ev.simulated i :: tail ∧
      tail.count (Ev.death i) =
        if p.deathCalled = false ∧ p.lifespan ≠ 0 ∧ p.lifespan ≤ p.age + δ
        then 1 else 0 := by
  have hlen : i < s.heap.length := getP_lt_length hp
  simp only [Particle.simulate, hp]
  simp only [aged_lifespan, aged_age, aged_deathCalled]
  by_cases hdied : p.lifespan ≠ 0 ∧ p.lifespan ≤ p.age + δ
  · rw [if_pos hdied]
    set s3 := unlinkNext
        (unlinkPrev ((s.setP i (p.aged δ)).logEv (.simulated i))
          (p.aged δ).prev (p.aged δ).next)
        (p.aged δ).prev (p.aged δ).next with hs3
    have hc3 : cores s3 i = some ((p.aged δ).core) := by
      rw [hs3, cores_unlinkNext, cores_unlinkPrev, cores_logEv,
        cores_setP_self _ _ _ hlen]
    have hd3 : dcs s3 i = some p.deathCalled := by
      rw [hs3, dcs_unlinkNext, dcs_unlinkPrev, dcs_logEv,
        dcs_setP_self _ _ _ hlen, aged_deathCalled]
    have hl3 : s3.heap.length = s.heap.length := by simp [hs3]
    have hlog3 : s3.log = s.log ++ [Ev.simulated i] := by simp [hs3]
    by_cases hdc : p.deathCalled
    · rw [if_pos hdc]
      dsimp only
      refine ⟨by simp [hdied], hc3, ?_, by rw [hl3], [], by simpa using hlog3,
        by simp [hdc]⟩
      rw [hd3, hdc]
      simp
    · rw [if_neg hdc]
      dsimp only
      set s3a := (s3.modifyP i
        (fun q => { q with deathCalled := true })).logEv (.death i) with hs3a
      obtain ⟨w, hw⟩ := getP_isSome_of_cores hc3
      have hca : ∀ j, cores s3a j = cores s3 j := by
        intro j
        rw [hs3a, cores_logEv]
        exact cores_modifyP_keep (fun q => core_setDC q) j
      have hda : dcs s3a i = some true := by
        rw [hs3a, dcs_logEv]
        exact dcs_modifyP_setDC hw
      have hlena : s3a.heap.length = s.heap.length := by
        rw [hs3a, heap_logEv, length_modifyP, hl3]
      have hloga : s3a.log = s.log ++ [Ev.simulated i, Ev.death i] := by
        rw [hs3a, log_logEv, log_modifyP, hlog3, List.append_assoc]
        rfl
      have hia : i < s3a.heap.length := by rw [hlena]; exact hlen
      refine ⟨by simp [hdied], ?_, ?_, ?_, ?_⟩
      · rw [runPlan_cores hia, hca, hc3]
      · rw [runPlan_dcs hia, hda]
        simp [hdc, hdied]
      · calc s.heap.length = s3a.heap.length := hlena.symm
          _ ≤ _ := runPlan_length_ge _ _
      · obtain ⟨tail, htail, hnd⟩ := runPlan_log s3a (p.aged δ).plan
        refine ⟨Ev.death i :: tail, ?_, ?_⟩
        · rw [htail, hloga]
          simp
        · rw [List.count_cons, List.count_eq_zero.mpr (hnd i)]
          simp [Bool.eq_false_iff.mpr hdc, hdied]
  · rw [if_neg hdied]
    dsimp only
    refine ⟨by simp [hdied], ?_, ?_, by simp, [], by simp, by simp [hdied]⟩
    · rw [cores_logEv, cores_setP_self _ _ _ hlen]
    · rw [dcs_logEv, dcs_setP_self _ _ _ hlen, aged_deathCalled]
      simp [hdied]

end SimulateStep

section SeqLemmas

@[simp] theorem sumTo_zero (ds : List ℚ) : sumTo ds 0 = 0 := rfl

@[simp] theorem sumTo_nil (t : Nat) : sumTo [] t = 0 := by
  simp [sumTo]

theorem sumTo_cons (d : ℚ) (ds : List ℚ) (t : Nat) :
    sumTo (d :: ds) (t + 1) = d + sumTo ds t := by
  simp [sumTo]

theorem eq_bnot_decide {b : Bool} {c : Prop} [Decidable c]
    (h : (b = false) ↔ c) : b = !(decide c) := by
  by_cases hc : c
  · rw [h.mpr hc, decide_eq_true hc]
    rfl
  · cases hb : b
    · exact absurd (h.mp hb) hc
    · rw [decide_eq_false hc]
      rfl

theorem getP_of_cores {s : ParticleSystem} {i : Nat} {q : Particle}
    (h : cores s i = some q) :
    ∃ w, s.getP i = some w ∧ w.core = q := by
  rw [cores] at h
  cases hg : s.getP i with
  | none => rw [hg] at h; exact Option.noConfusion h
  | some w =>
    rw [hg] at h
    exact ⟨w, rfl, Option.some.injEq _ _ ▸ h⟩

theorem dc_of_dcs {s : ParticleSystem} {i : Nat} {w : Particle} {b : Bool}
    (hg : s.getP i = some w) (h : dcs s i = some b) : w.deathCalled = b := by
  rw [dcs, hg] at h
  simpa using h

theorem exists_died_shift (L a d : ℚ) (ds : List ℚ) :
    (∃ t, t < ds.length + 1 ∧ L ≠ 0 ∧ L ≤ a + sumTo (d :: ds) (t + 1)) ↔
      ((L ≠ 0 ∧ L ≤ a + d) ∨
        ∃ t, t < ds.length ∧ L ≠ 0 ∧ L ≤ a + d + sumTo ds (t + 1)) := by
  constructor
  · rintro ⟨t, ht, h0, hle⟩
    cases t with
    | zero =>
      left
      refine ⟨h0, ?_⟩
      rw [sumTo_cons] at hle
      simpa using hle
    | succ t =>
      right
      refine ⟨t, Nat.lt_of_succ_lt_succ ht, h0, ?_⟩
      rw [sumTo_cons] at hle
      linarith
  · rintro (⟨h0, hle⟩ | ⟨t, ht, h0, hle⟩)
    · refine ⟨0, Nat.succ_pos _, h0, ?_⟩
      rw [sumTo_cons]
      simpa using hle
    · refine ⟨t + 1, Nat.succ_lt_succ ht, h0, ?_⟩
      rw [sumTo_cons]
      linarith

/-- Behaviour of a sequence of direct `Particle.simulate` calls on one
particle: the alive flags follow the cumulative-age formula, the particle's
age accumulates every delta, its lifespan never changes, the one-shot flag
is set exactly when some prefix met the death condition, and the death
callback fires at most once in total (exactly once when the flag was clear
and some prefix died). -/
theorem simSeq_spec : ∀ (ds : List ℚ) (s : ParticleSystem) (i : Nat)
    (p : Particle), s.getP i = some p →
    (∀ t, t < ds.length → (simSeq s i ds).2.get? t =
      some (!(decide (p.lifespan ≠ 0 ∧
        p.lifespan ≤ p.age + sumTo ds (t + 1))))) ∧
    (∃ q, (simSeq s i ds).1.getP i = some q ∧
      q.age = p.age + sumTo ds ds.length ∧
      q.lifespan = p.lifespan ∧
      q.deathCalled = (p.deathCalled ||
        decide (∃ t, t < ds.length ∧ p.lifespan ≠ 0 ∧
          p.lifespan ≤ p.age + sumTo ds (t + 1)))) ∧
    (simSeq s i ds).1.log.count (Ev.death i) =
      s.log.count (Ev.death i) +
        (if p.deathCalled = false ∧ (∃ t, t < ds.length ∧ p.lifespan ≠ 0 ∧
            p.lifespan ≤ p.age + sumTo ds (t + 1)) then 1 else 0) := by
  intro ds
  induction ds with
  | nil =>
    intro s i p hp
    refine ⟨fun t ht => absurd ht (Nat.not_lt_zero t), ⟨p, hp, by simp, rfl,
      by simp⟩, by simp [simSeq]⟩
  | cons d ds ih =>
    intro s i p hp
    obtain ⟨hflag, hcore, hdcs, hlen, tail, hlog, hcount⟩ :=
      Particle.simulate_spec d hp
    obtain ⟨q, hq, hqcore⟩ := getP_of_cores hcore
    have hqage : q.age = p.age + d := by
      have := congrArg Particle.age hqcore
      simpa using this
    have hqlife : q.lifespan = p.lifespan := by
      have := congrArg Particle.lifespan hqcore
      simpa using this
    have hqdc : q.deathCalled =
        (p.deathCalled ||
          decide (p.lifespan ≠ 0 ∧ p.lifespan ≤ p.age + d)) :=
      dc_of_dcs hq hdcs
    obtain ⟨hres, ⟨q2, hq2, hq2age, hq2life, hq2dc⟩, hcnt⟩ :=
      ih (Particle.simulate s i d).1 i q hq
    have hshift := exists_died_shift p.lifespan p.age d ds
    have hstep : (Particle.simulate s i d).1.log.count (Ev.death i) =
        s.log.count (Ev.death i) +
          (if p.deathCalled = false ∧ p.lifespan ≠ 0 ∧
              p.lifespan ≤ p.age + d then 1 else 0) := by
      rw [hlog, List.count_append, List.count_cons, hcount]
      simp
    refine ⟨?_, ⟨q2, ?_, ?_, ?_, ?_⟩, ?_⟩
    · intro t ht
      cases t with
      | zero =>
        show some (Particle.simulate s i d).2 = _
        rw [eq_bnot_decide hflag, sumTo_cons, sumTo_zero, add_zero]
      | succ t =>
        show (simSeq (Particle.simulate s i d).1 i ds).2.get? t = _
        rw [hres t (Nat.lt_of_succ_lt_succ ht), hqlife, hqage, sumTo_cons,
          ← add_assoc]
    · show (simSeq (Particle.simulate s i d).1 i ds).1.getP i = some q2
      exact hq2
    · show q2.age = p.age + sumTo (d :: ds) (d :: ds).length
      rw [hq2age, hqage, List.length_cons, sumTo_cons, add_assoc]
    · rw [hq2life, hqlife]
    · show q2.deathCalled = _
      rw [hq2dc, hqlife, hqage, hqdc, List.length_cons]
      by_cases h0 : p.lifespan ≠ 0 ∧ p.lifespan ≤ p.age + d
      · have hE : ∃ t, t < ds.length + 1 ∧ p.lifespan ≠ 0 ∧
            p.lifespan ≤ p.age + sumTo (d :: ds) (t + 1) :=
          hshift.mpr (Or.inl h0)
        simp [decide_eq_true h0, decide_eq_true hE]
      · have hiff : (∃ t, t < ds.length ∧ p.lifespan ≠ 0 ∧
            p.lifespan ≤ p.age + d + sumTo ds (t + 1)) ↔
            (∃ t, t < ds.length + 1 ∧ p.lifespan ≠ 0 ∧
              p.lifespan ≤ p.age + sumTo (d :: ds) (t + 1)) := by
          rw [hshift]
          exact (or_iff_right h0).symm
        rw [decide_eq_false h0, Bool.or_false, decide_eq_decide.mpr hiff]
    · show (simSeq (Particle.simulate s i d).1 i ds).1.log.count
          (Ev.death i) = _
      rw [hcnt, hstep, hqdc, hqlife, hqage, List.length_cons]
      cases hpc : p.deathCalled with
      | true => simp
      | false =>
        by_cases h0 : p.lifespan ≠ 0 ∧ p.lifespan ≤ p.age + d
        · have hE1 : ∃ t, t < ds.length + 1 ∧ p.lifespan ≠ 0 ∧
              p.lifespan ≤ p.age + sumTo (d :: ds) (t + 1) :=
            hshift.mpr (Or.inl h0)
          have c2 : ¬((false ||
              decide (p.lifespan ≠ 0 ∧ p.lifespan ≤ p.age + d)) = false ∧
              ∃ t, t < ds.length ∧ p.lifespan ≠ 0 ∧
                p.lifespan ≤ p.age + d + sumTo ds (t + 1)) := by
            rw [decide_eq_true h0]
            simp
          rw [if_pos (show (false = false) ∧ _ from ⟨rfl, h0⟩), if_neg c2,
            if_pos (show (false = false) ∧ _ from ⟨rfl, hE1⟩)]
        · have hiff2 : (∃ t, t < ds.length ∧ p.lifespan ≠ 0 ∧
              p.lifespan ≤ p.age + d + sumTo ds (t + 1)) ↔
              (∃ t, t < ds.length + 1 ∧ p.lifespan ≠ 0 ∧
                p.lifespan ≤ p.age + sumTo (d :: ds) (t + 1)) := by
            rw [hshift]
            exact (or_iff_right h0).symm
          rw [decide_eq_false h0]
          simp only [Bool.or_false]
          rw [if_neg (fun hh => h0 hh.2)]
          rw [if_congr (and_congr_right fun _ => hiff2) rfl rfl]
          omega

end SeqLemmas

section SpawnStructure

variable (s : ParticleSystem) (d : ParticleDef) (x y z : ℚ)

theorem nexts_fromDef (i : Nat) :
    nexts (Particle.fromDef s d x y z).2 i =
      if i = s.heap.length then some none else nexts s i := by
  have := nexts_alloc { s with rng := (fromDefParticle s d x y z).2 }
    (fromDefParticle s d x y z).1 i
  rw [fromDefParticle_next] at this
  simpa [Particle.fromDef, nexts] using this

theorem prevs_fromDef (i : Nat) :
    prevs (Particle.fromDef s d x y z).2 i =
      if i = s.heap.length then some none else prevs s i := by
  have := prevs_alloc { s with rng := (fromDefParticle s d x y z).2 }
    (fromDefParticle s d x y z).1 i
  rw [fromDefParticle_prev] at this
  simpa [Particle.fromDef, prevs] using this

theorem nextOf_eq_of_nexts {s : ParticleSystem} {i : Nat} {v : Option Nat}
    (h : nexts s i = some v) : nextOf s i = v := by
  rw [nextOf]
  rw [nexts] at h
  cases hg : s.getP i with
  | none => rw [hg] at h; exact Option.noConfusion h
  | some p =>
    rw [hg] at h
    simpa using h

theorem prevOf_eq_of_prevs {s : ParticleSystem} {i : Nat} {v : Option Nat}
    (h : prevs s i = some v) : prevOf s i = v := by
  rw [prevOf]
  rw [prevs] at h
  cases hg : s.getP i with
  | none => rw [hg] at h; exact Option.noConfusion h
  | some p =>
    rw [hg] at h
    simpa using h

/-- `findLast` on a contiguous chain `a, a+1, …, a+m-1` whose last node has
no successor returns the last node. -/
theorem findLast_chain : ∀ (m : Nat) (s : ParticleSystem) (a fuel : Nat),
    (∀ k, k + 1 < m → nexts s (a + k) = some (some (a + k + 1))) →
    nexts s (a + m - 1) = some none →
    1 ≤ m → m ≤ fuel →
    findLast s fuel a = a + m - 1 := by
  intro m
  induction m with
  | zero => intro _ _ _ _ _ h1 _; exact absurd h1 (by omega)
  | succ m ih =>
    intro s a fuel hmid hlast h1 hfuel
    obtain ⟨fuel2, rfl⟩ : ∃ f2, fuel = f2 + 1 :=
      ⟨fuel - 1, by omega⟩
    by_cases hm : m = 0
    · subst hm
      have : nextOf s a = none := nextOf_eq_of_nexts (by simpa using hlast)
      simp [findLast, this]
    · have hstep : nexts s a = some (some (a + 1)) := by
        have := hmid 0 (by omega)
        simpa using this
      have : nextOf s a = some (a + 1) := nextOf_eq_of_nexts hstep
      simp only [findLast, this]
      have hrec := ih s (a + 1) fuel2
        (fun k hk => by
          have := hmid (k + 1) (by omega)
          simpa [Nat.add_assoc, Nat.add_comm, Nat.add_left_comm] using this)
        (by
          have : a + 1 + m - 1 = a + (m + 1) - 1 := by omega
          rw [this]
          exact hlast)
        (by omega) (by omega)
      rw [hrec]
      omega

theorem getP_of_lt {s : ParticleSystem} {i : Nat} (h : i < s.heap.length) :
    ∃ p, s.getP i = some p := by
  rw [ParticleSystem.getP]
  exact ⟨s.heap[i], List.getElem?_eq_getElem h⟩

theorem range_map_spawned (a cnt : Nat) (px py pz : ℚ) :
    (List.range (cnt + 1)).map
        (fun k => Ev.spawned (a + k) px py pz) =
      Ev.spawned a px py pz ::
        (List.range cnt).map (fun k => Ev.spawned (a + 1 + k) px py pz) := by
  rw [List.range_succ_eq_map, List.map_cons, List.map_map]
  rw [Nat.add_zero]
  congr 1
  apply List.map_congr_left
  intro k _
  simp only [Function.comp_apply]
  congr 1
  omega

theorem spawnLoop_go_spec (kids : List ParticleDef) (px py pz : ℚ) :
    ∀ (cnt : Nat) (s : ParticleSystem) (f cur : Nat),
    cur < s.heap.length →
    SpawnOut s px py pz cnt f cur
      (spawnLoop kids px py pz cnt s (some (f, cur))) := by
  intro cnt
  induction cnt with
  | zero =>
    intro s f cur hcur
    exact {
      accEq := by simp [spawnLoop]
      len := by simp [spawnLoop]
      rootEq := by simp [spawnLoop]
      configEq := by simp [spawnLoop]
      nextsOld := fun j _ _ => by simp [spawnLoop]
      prevsOld := fun j _ => by simp [spawnLoop]
      nextsCur := fun h => absurd h (by omega)
      zeroEq := fun _ => by simp [spawnLoop]
      nextsMid := fun k hk => absurd hk (by omega)
      nextsLast := fun h => absurd h (by omega)
      prevsNew := fun k hk => absurd hk (by omega)
      logEq := by simp [spawnLoop] }
  | succ cnt ih =>
    intro s f cur hcur
    -- one unrolled iteration
    have hloop : spawnLoop kids px py pz (cnt + 1) s (some (f, cur)) =
        spawnLoop kids px py pz cnt
          (((Particle.fromDef { s with rng := (pickDef kids s.rng).2 }
              (pickDef kids s.rng).1 px py pz).2.modifyP cur
              (fun p => { p with next := some (Particle.fromDef
                { s with rng := (pickDef kids s.rng).2 }
                (pickDef kids s.rng).1 px py pz).1 })).modifyP
            (Particle.fromDef { s with rng := (pickDef kids s.rng).2 }
              (pickDef kids s.rng).1 px py pz).1
            (fun p => { p with prev := some cur }))
          (some (f, (Particle.fromDef { s with rng := (pickDef kids s.rng).2 }
            (pickDef kids s.rng).1 px py pz).1)) := rfl
    set sd := (Particle.fromDef { s with rng := (pickDef kids s.rng).2 }
      (pickDef kids s.rng).1 px py pz).2 with hsd
    have hc : (Particle.fromDef { s with rng := (pickDef kids s.rng).2 }
        (pickDef kids s.rng).1 px py pz).1 = s.heap.length := rfl
    rw [hc] at hloop
    set s3 := (sd.modifyP cur
        (fun p => { p with next := some s.heap.length })).modifyP
        s.heap.length (fun p => { p with prev := some cur }) with hs3
    -- facts about sd
    have hsdlen : sd.heap.length = s.heap.length + 1 := by
      rw [hsd]; exact fromDef_length _ _ _ _ _
    have hsdnext : ∀ i, nexts sd i =
        if i = s.heap.length then some none else nexts s i := by
      intro i
      rw [hsd, nexts_fromDef]
      rfl
    have hsdprev : ∀ i, prevs sd i =
        if i = s.heap.length then some none else prevs s i := by
      intro i
      rw [hsd, prevs_fromDef]
      rfl
    -- getP facts
    obtain ⟨pc, hpc⟩ := getP_of_lt (show cur < sd.heap.length by omega)
    obtain ⟨pn, hpn⟩ := getP_of_lt (show s.heap.length <
      (sd.modifyP cur (fun p => { p with next := some s.heap.length
        })).heap.length by rw [length_modifyP]; omega)
    -- facts about s3
    have hs3len : s3.heap.length = s.heap.length + 1 := by
      rw [hs3, length_modifyP, length_modifyP, hsdlen]
    have hs3next : ∀ i, i ≠ cur → nexts s3 i =
        if i = s.heap.length then some none else nexts s i := by
      intro i hi
      rw [hs3, nexts_modifyP_prevSet _ _ _ i,
        nexts_modifyP_setNext _ hpc i, if_neg (fun hh => hi hh.symm),
        hsdnext]
    have hs3nextcur : nexts s3 cur = some (some s.heap.length) := by
      rw [hs3, nexts_modifyP_prevSet _ _ _ cur,
        nexts_modifyP_setNext _ hpc cur, if_pos rfl]
    have hs3prev : ∀ i, i ≠ s.heap.length → prevs s3 i = prevs s i := by
      intro i hi
      rw [hs3, prevs_modifyP_setPrev _ hpn i, if_neg (fun hh => hi hh.symm),
        prevs_modifyP_nextSet _ _ _ i, hsdprev, if_neg hi]
    have hs3prevnew : prevs s3 s.heap.length = some (some cur) := by
      rw [hs3, prevs_modifyP_setPrev _ hpn s.heap.length, if_pos rfl]
    have hs3root : s3.root = s.root := by
      rw [hs3]
      simp [hsd]
    have hs3config : s3.config = s.config := by
      rw [hs3]
      simp [hsd]
    have hs3log : s3.log = s.log ++ [Ev.spawned s.heap.length px py pz] := by
      rw [hs3]
      simp [hsd]
    have hcur3 : s.heap.length < s3.heap.length := by omega
    have ihs := ih s3 f s.heap.length hcur3
    rw [hloop]
    refine {
      accEq := ?_, len := ?_, rootEq := ?_, configEq := ?_,
      nextsOld := ?_, prevsOld := ?_, nextsCur := ?_, zeroEq := ?_,
      nextsMid := ?_, nextsLast := ?_, prevsNew := ?_, logEq := ?_ }
    · rw [ihs.accEq, hs3len]
      by_cases h0 : cnt = 0
      · subst h0
        simp
      · rw [if_neg h0, if_neg (by omega : ¬cnt + 1 = 0)]
        congr 2
        omega
    · rw [ihs.len, hs3len]
      omega
    · rw [ihs.rootEq, hs3root]
    · rw [ihs.configEq, hs3config]
    · intro j hj hjcur
      rw [ihs.nextsOld j (by omega) (by omega), hs3next j hjcur,
        if_neg (by omega)]
    · intro j hj
      rw [ihs.prevsOld j (by omega), hs3prev j (by omega)]
    · intro _
      rw [ihs.nextsOld cur (by omega) (by omega), hs3nextcur]
    · intro h
      exact absurd h (by omega)
    · intro k hk
      cases k with
      | zero =>
        have h1 : 1 ≤ cnt := by omega
        have hcur2 := ihs.nextsCur h1
        rw [hs3len] at hcur2
        simpa using hcur2
      | succ k2 =>
        have hgoal := ihs.nextsMid k2 (by omega)
        rw [hs3len] at hgoal
        have e1 : s.heap.length + 1 + k2 = s.heap.length + (k2 + 1) := by
          omega
        rw [e1] at hgoal
        exact hgoal
    · intro _
      by_cases h0 : cnt = 0
      · subst h0
        have := ihs.zeroEq rfl
        rw [this]
        have : s.heap.length + 1 - 1 = s.heap.length := by omega
        rw [this]
        rw [hs3next s.heap.length (by omega), if_pos rfl]
      · have := ihs.nextsLast (by omega)
        rw [hs3len] at this
        have harr : s.heap.length + 1 + cnt - 1 = s.heap.length +
            (cnt + 1) - 1 := by omega
        rw [harr] at this
        exact this
    · intro k hk
      cases k with
      | zero =>
        simp only [Nat.add_zero]
        have hgoal := ihs.prevsOld s.heap.length (by omega)
        rw [hgoal, hs3prevnew]
        simp
      | succ k2 =>
        have hgoal := ihs.prevsNew k2 (by omega)
        rw [hs3len] at hgoal
        have e1 : s.heap.length + 1 + k2 = s.heap.length + (k2 + 1) := by
          omega
        rw [e1] at hgoal
        rw [hgoal, if_neg (by omega : ¬k2 + 1 = 0)]
        by_cases h2 : k2 = 0
        · subst h2
          rw [if_pos rfl]
          simp
        · rw [if_neg h2]
    · rw [ihs.logEq, hs3log, hs3len, range_map_spawned]
      simp

/-- When the cached count is not positive, the `for` loop of the death
callback runs no iterations and nothing is inserted. -/
theorem runPlan_zero {n : ℚ} (kids : List ParticleDef) (px py pz : ℚ)
    (s : ParticleSystem) (h : (⌈n⌉ : ℤ).toNat = 0) :
    runPlan s px py pz (some (n, kids)) = s := by
  simp only [runPlan, h, spawnLoop]

/-- Combined description of `spawnLoop` started with an empty accumulator
and a positive count. -/
theorem spawnLoop_none_spec (kids : List ParticleDef) (px py pz : ℚ)
    (s : ParticleSystem) (cnt : Nat) (hcnt : 1 ≤ cnt) :
    (spawnLoop kids px py pz cnt s none).2 =
        some (s.heap.length, s.heap.length + cnt - 1) ∧
    (spawnLoop kids px py pz cnt s none).1.heap.length =
        s.heap.length + cnt ∧
    (spawnLoop kids px py pz cnt s none).1.root = s.root ∧
    (spawnLoop kids px py pz cnt s none).1.config = s.config ∧
    (∀ j, j < s.heap.length →
      nexts (spawnLoop kids px py pz cnt s none).1 j = nexts s j) ∧
    (∀ j, j < s.heap.length →
      prevs (spawnLoop kids px py pz cnt s none).1 j = prevs s j) ∧
    (∀ k, k + 1 < cnt →
      nexts (spawnLoop kids px py pz cnt s none).1 (s.heap.length + k) =
        some (some (s.heap.length + k + 1))) ∧
    nexts (spawnLoop kids px py pz cnt s none).1
        (s.heap.length + cnt - 1) = some none ∧
    (∀ k, k < cnt → 1 ≤ k →
      prevs (spawnLoop kids px py pz cnt s none).1 (s.heap.length + k) =
        some (some (s.heap.length + k - 1))) ∧
    prevs (spawnLoop kids px py pz cnt s none).1 s.heap.length =
        some none ∧
    (spawnLoop kids px py pz cnt s none).1.log = s.log ++
      (List.range cnt).map
        (fun k => Ev.spawned (s.heap.length + k) px py pz) := by
  obtain ⟨cnt2, rfl⟩ : ∃ c2, cnt = c2 + 1 := ⟨cnt - 1, by omega⟩
  have hloop : spawnLoop kids px py pz (cnt2 + 1) s none =
      spawnLoop kids px py pz cnt2
        (Particle.fromDef { s with rng := (pickDef kids s.rng).2 }
          (pickDef kids s.rng).1 px py pz).2
        (some ((Particle.fromDef { s with rng := (pickDef kids s.rng).2 }
          (pickDef kids s.rng).1 px py pz).1,
          (Particle.fromDef { s with rng := (pickDef kids s.rng).2 }
          (pickDef kids s.rng).1 px py pz).1)) := rfl
  set sd := (Particle.fromDef { s with rng := (pickDef kids s.rng).2 }
    (pickDef kids s.rng).1 px py pz).2 with hsd
  have hc : (Particle.fromDef { s with rng := (pickDef kids s.rng).2 }
      (pickDef kids s.rng).1 px py pz).1 = s.heap.length := rfl
  rw [hc] at hloop
  have hsdlen : sd.heap.length = s.heap.length + 1 := by
    rw [hsd]; exact fromDef_length _ _ _ _ _
  have hsdnext : ∀ i, nexts sd i =
      if i = s.heap.length then some none else nexts s i := by
    intro i
    rw [hsd, nexts_fromDef]
    rfl
  have hsdprev : ∀ i, prevs sd i =
      if i = s.heap.length then some none else prevs s i := by
    intro i
    rw [hsd, prevs_fromDef]
    rfl
  have hsdroot : sd.root = s.root := by rw [hsd]; rfl
  have hsdconfig : sd.config = s.config := by rw [hsd]; rfl
  have hsdlog : sd.log = s.log ++ [Ev.spawned s.heap.length px py pz] := by
    rw [hsd]
    exact fromDef_log _ _ _ _ _
  have hgo := spawnLoop_go_spec kids px py pz cnt2 sd s.heap.length
    s.heap.length (by omega)
  rw [hloop]
  refine ⟨?_, ?_, ?_, ?_, ?_, ?_, ?_, ?_, ?_, ?_, ?_⟩
  · rw [hgo.accEq]
    by_cases h0 : cnt2 = 0
    · subst h0
      simp
    · rw [if_neg h0, hsdlen]
      have e : s.heap.length + 1 + cnt2 - 1 =
          s.heap.length + (cnt2 + 1) - 1 := by omega
      rw [e]
  · rw [hgo.len, hsdlen]
    omega
  · rw [hgo.rootEq, hsdroot]
  · rw [hgo.configEq, hsdconfig]
  · intro j hj
    rw [hgo.nextsOld j (by omega) (by omega), hsdnext, if_neg (by omega)]
  · intro j hj
    rw [hgo.prevsOld j (by omega), hsdprev, if_neg (by omega)]
  · intro k hk
    cases k with
    | zero =>
      have h1 : 1 ≤ cnt2 := by omega
      have hcur2 := hgo.nextsCur h1
      rw [hsdlen] at hcur2
      simpa using hcur2
    | succ k2 =>
      have hgoal := hgo.nextsMid k2 (by omega)
      rw [hsdlen] at hgoal
      have e1 : s.heap.length + 1 + k2 = s.heap.length + (k2 + 1) := by
        omega
      rw [e1] at hgoal
      exact hgoal
  · by_cases h0 : cnt2 = 0
    · subst h0
      have hz := hgo.zeroEq rfl
      rw [hz]
      have e1 : s.heap.length + (0 + 1) - 1 = s.heap.length := by omega
      rw [e1, hsdnext]
      simp
    · have hgoal := hgo.nextsLast (by omega)
      rw [hsdlen] at hgoal
      have e1 : s.heap.length + 1 + cnt2 - 1 =
          s.heap.length + (cnt2 + 1) - 1 := by omega
      rw [e1] at hgoal
      exact hgoal
  · intro k hk h1
    obtain ⟨k2, rfl⟩ : ∃ k2, k = k2 + 1 := ⟨k - 1, by omega⟩
    have hgoal := hgo.prevsNew k2 (by omega)
    rw [hsdlen] at hgoal
    have e1 : s.heap.length + 1 + k2 = s.heap.length + (k2 + 1) := by omega
    rw [e1] at hgoal
    rw [hgoal]
    by_cases h2 : k2 = 0
    · subst h2
      simp
    · rw [if_neg h2]
  · have hgoal := hgo.prevsOld s.heap.length (by omega)
    rw [hgoal, hsdprev]
    simp
  · rw [hgo.logEq, hsdlog, hsdlen, range_map_spawned]
    simp

theorem config_addParticle (s : ParticleSystem) (h : Nat) :
    (s.addParticle h).config = s.config := by
  unfold ParticleSystem.addParticle
  cases s.root <;> simp

/-- `next` pointers after `addParticle`: only the walked-to tail of the
inserted chain is re-pointed, at the old head. -/
theorem nexts_addParticle {s : ParticleSystem} {h : Nat}
    (hlast : findLast s s.heap.length h < s.heap.length) (i : Nat) :
    nexts (s.addParticle h) i =
      if findLast s s.heap.length h = i then some s.root
      else nexts s i := by
  obtain ⟨p0, hp0⟩ := getP_of_lt hlast
  unfold ParticleSystem.addParticle
  have h1 : ∀ t : ParticleSystem, ∀ r l,
      nexts { t with root := r, log := l } i = nexts t i := fun _ _ _ => rfl
  cases hr : s.root with
  | none =>
    simp only [hr, h1]
    exact nexts_modifyP_setNext none hp0 i
  | some r0 =>
    simp only [hr, h1]
    rw [nexts_modifyP_prevSet]
    exact nexts_modifyP_setNext (some r0) hp0 i

/-- `prev` pointers after `addParticle` when the system had no head: none
change. -/
theorem prevs_addParticle_rootNone {s : ParticleSystem} {h : Nat}
    (hr : s.root = none) (i : Nat) :
    prevs (s.addParticle h) i = prevs s i := by
  unfold ParticleSystem.addParticle
  have h1 : ∀ t : ParticleSystem, ∀ r l,
      prevs { t with root := r, log := l } i = prevs t i := fun _ _ _ => rfl
  simp only [hr, h1]
  exact prevs_modifyP_nextSet s _ none i

/-- `prev` pointers after `addParticle` when the system had head `r0`: only
`r0`'s back-pointer changes, to the inserted chain's tail. -/
theorem prevs_addParticle_rootSome {s : ParticleSystem} {h r0 : Nat}
    (hr : s.root = some r0) (hrlt : r0 < s.heap.length) (i : Nat) :
    prevs (s.addParticle h) i =
      if r0 = i then some (some (findLast s s.heap.length h))
      else prevs s i := by
  unfold ParticleSystem.addParticle
  have h1 : ∀ t : ParticleSystem, ∀ r l,
      prevs { t with root := r, log := l } i = prevs t i := fun _ _ _ => rfl
  simp only [hr, h1]
  have hr0 : r0 < (s.modifyP (findLast s s.heap.length h)
      (fun p => { p with next := some r0 })).heap.length := by
    simpa using hrlt
  obtain ⟨p0, hp0⟩ := getP_of_lt hr0
  rw [prevs_modifyP_setPrev (some (findLast s s.heap.length h)) hp0 i]
  by_cases hri : r0 = i
  · rw [if_pos hri, if_pos hri]
  · rw [if_neg hri, if_neg hri, prevs_modifyP_nextSet]

/-- The full effect of a death callback whose cached count resolves to a
positive number of children. -/
theorem runPlan_spec (n : ℚ) (kids : List ParticleDef) (px py pz : ℚ)
    (s : ParticleSystem) (hcnt : 1 ≤ (⌈n⌉ : ℤ).toNat)
    (hroot : ∀ rr, s.root = some rr → rr < s.heap.length) :
    RunPlanOut s px py pz (⌈n⌉ : ℤ).toNat
      (runPlan s px py pz (some (n, kids))) := by
  set cnt := (⌈n⌉ : ℤ).toNat with hcntdef
  obtain ⟨hacc, hlen, hrt, hcfg, hnextsOld, hprevsOld, hnextsMid, hnextsLast,
      hprevsNew, hprevsHead, hlogEq⟩ :=
    spawnLoop_none_spec kids px py pz s cnt hcnt
  rcases hsp : spawnLoop kids px py pz cnt s none with ⟨s1, acc⟩
  rw [hsp] at hacc hlen hrt hcfg hnextsOld hprevsOld
  rw [hsp] at hnextsMid hnextsLast hprevsNew hprevsHead hlogEq
  dsimp only at hacc hlen hrt hcfg hnextsOld hprevsOld
  dsimp only at hnextsMid hnextsLast hprevsNew hprevsHead hlogEq
  have hrp : runPlan s px py pz (some (n, kids)) =
      s1.addParticle s.heap.length := by
    simp only [runPlan, ← hcntdef, hsp, hacc]
  rw [hrp]
  have hfl : findLast s1 s1.heap.length s.heap.length =
      s.heap.length + cnt - 1 :=
    findLast_chain cnt s1 s.heap.length s1.heap.length hnextsMid hnextsLast
      hcnt (by omega)
  have hlastlt : findLast s1 s1.heap.length s.heap.length <
      s1.heap.length := by
    rw [hfl, hlen]; omega
  refine ⟨?_, ?_, ?_, ?_, ?_, ?_, ?_, ?_, ?_, ?_, ?_⟩
  · rw [length_addParticle, hlen]
  · rw [root_addParticle]
  · rw [config_addParticle, hcfg]
  · intro j hj
    rw [nexts_addParticle hlastlt j, hfl, if_neg (by omega)]
    exact hnextsOld j hj
  · intro j hj hne
    cases hr : s.root with
    | none =>
      rw [prevs_addParticle_rootNone (by rw [hrt, hr]) j]
      exact hprevsOld j hj
    | some r0 =>
      have hne0 : r0 ≠ j := by
        intro he
        exact hne (by rw [hr, he])
      have hr0lt := hroot r0 hr
      rw [prevs_addParticle_rootSome (show s1.root = some r0 by
          rw [hrt, hr]) (by omega) j, if_neg hne0]
      exact hprevsOld j hj
  · intro rr hrr hlt
    rw [prevs_addParticle_rootSome (show s1.root = some rr by
        rw [hrt, hrr]) (by omega) rr]
    simp [hfl]
  · intro k hk
    rw [nexts_addParticle hlastlt (s.heap.length + k), hfl,
      if_neg (by omega)]
    exact hnextsMid k hk
  · rw [nexts_addParticle hlastlt (s.heap.length + cnt - 1), hfl]
    simp [hrt]
  · intro k hk h1
    cases hr : s.root with
    | none =>
      rw [prevs_addParticle_rootNone (by rw [hrt, hr]) (s.heap.length + k)]
      exact hprevsNew k hk h1
    | some r0 =>
      have hr0lt := hroot r0 hr
      rw [prevs_addParticle_rootSome (show s1.root = some r0 by
          rw [hrt, hr]) (by omega) (s.heap.length + k),
        if_neg (by omega)]
      exact hprevsNew k hk h1
  · cases hr : s.root with
    | none =>
      rw [prevs_addParticle_rootNone (by rw [hrt, hr]) s.heap.length]
      exact hprevsHead
    | some r0 =>
      have hr0lt := hroot r0 hr
      rw [prevs_addParticle_rootSome (show s1.root = some r0 by
          rw [hrt, hr]) (by omega) s.heap.length,
        if_neg (by omega)]
      exact hprevsHead
  · rw [log_addParticle, hlogEq, List.append_assoc]

end SpawnStructure


/-- C8, single-`Range` half: the vector sampler performs exactly one
`computeRange` draw and copies that one result to all three components. -/
theorem computeVecRange_single_eq (r : Range) (g : Rng) :
    computeVecRange (.single r) g =
      (((computeRange r false g).1, (computeRange r false g).1,
        (computeRange r false g).1), (computeRange r false g).2) := by
  simp [computeVecRange]

/-- A triple samples each component by its own `computeRange` call, the
random stream threaded left to right (independent draws). -/
theorem computeVecRange_triple_eq (a b c : Range) (g : Rng) :
    computeVecRange (.triple a b c) g =
      (((computeRange a false g).1,
        (computeRange b false (computeRange a false g).2).1,
        (computeRange c false
          (computeRange b false (computeRange a false g).2).2).1),
       (computeRange c false
          (computeRange b false (computeRange a false g).2).2).2) := by
  simp [computeVecRange]


section ClaimHelpers

theorem sumTo_le_succ (ds : List ℚ) (hpos : ∀ d ∈ ds, 0 ≤ d) (a : Nat) :
    sumTo ds a ≤ sumTo ds (a + 1) := by
  rw [sumTo, sumTo, List.take_succ, List.sum_append]
  have h0 : 0 ≤ (ds[a]?.toList).sum := by
    cases hga : ds[a]? with
    | none => simp
    | some v =>
      have hv : v ∈ ds := List.getElem?_mem hga
      simpa using hpos v hv
  linarith

theorem sumTo_mono (ds : List ℚ) (hpos : ∀ d ∈ ds, 0 ≤ d) {a b : Nat}
    (hab : a ≤ b) : sumTo ds a ≤ sumTo ds b := by
  induction hab with
  | refl => exact le_refl _
  | step h2 ih => exact le_trans ih (sumTo_le_succ ds hpos _)

end ClaimHelpers

/-- C6: a particle whose lifespan is exactly 0 always reports alive and its
death callback never fires, over any sequence of `Particle.simulate` calls,
however large its age grows. -/
theorem c6_zero_lifespan_immortal (ds : List ℚ) (s : ParticleSystem)
    (i : Nat) (p : Particle) (hp : s.getP i = some p)
    (h0 : p.lifespan = 0) :
    (∀ t, t < ds.length → (simSeq s i ds).2.get? t = some true) ∧
    (simSeq s i ds).1.log.count (Ev.death i) = s.log.count (Ev.death i) := by
  obtain ⟨hflag, -, hcnt⟩ := simSeq_spec ds s i p hp
  constructor
  · intro t ht
    rw [hflag t ht]
    simp [h0]
  · have hnot : ¬(p.deathCalled = false ∧ ∃ t, t < ds.length ∧
        p.lifespan ≠ 0 ∧ p.lifespan ≤ p.age + sumTo ds (t + 1)) := by
      rintro ⟨-, t, -, hne, -⟩
      exact hne h0
    rw [hcnt, if_neg hnot, Nat.add_zero]

/-- C6 witness: the theorem at a concrete zero-lifespan particle over three
one-second ticks. -/
theorem c6_zero_lifespan_immortal_witness :
    (∀ t, t < [(1 : ℚ), 2, 3].length →
      (simSeq (wSys [wP 0 none none] (some 0)) 0 [(1 : ℚ), 2, 3]).2.get? t =
        some true) ∧
    (simSeq (wSys [wP 0 none none] (some 0)) 0
        [(1 : ℚ), 2, 3]).1.log.count (Ev.death 0) =
      (wSys [wP 0 none none] (some 0)).log.count (Ev.death 0) :=
  c6_zero_lifespan_immortal [(1 : ℚ), 2, 3] (wSys [wP 0 none none] (some 0))
    0 (wP 0 none none) rfl rfl

/-- C10: once a nonzero-lifespan particle has reported not-alive, every
later call of a nonnegative-delta sequence also reports not-alive: the age
is nondecreasing, so the death condition stays true. -/
theorem c10_dead_stays_dead (ds : List ℚ) (s : ParticleSystem) (i : Nat)
    (p : Particle) (hp : s.getP i = some p) (hpos : ∀ d ∈ ds, 0 ≤ d)
    (t t2 : Nat) (ht : t < t2) (ht2 : t2 < ds.length)
    (hdead : (simSeq s i ds).2.get? t = some false) :
    (simSeq s i ds).2.get? t2 = some false := by
  obtain ⟨hflag, -, -⟩ := simSeq_spec ds s i p hp
  rw [hflag t (lt_trans ht ht2)] at hdead
  rw [hflag t2 ht2]
  have hcond : p.lifespan ≠ 0 ∧ p.lifespan ≤ p.age + sumTo ds (t + 1) := by
    by_contra hc
    rw [decide_eq_false hc] at hdead
    simp at hdead
  have hmono := sumTo_mono ds hpos (Nat.succ_le_succ (le_of_lt ht))
  have hc2 : p.lifespan ≠ 0 ∧ p.lifespan ≤ p.age + sumTo ds (t2 + 1) :=
    ⟨hcond.1, le_trans hcond.2 (by linarith)⟩
  rw [decide_eq_true hc2]
  rfl

/-- C10 witness: a particle of lifespan 1 dies on the first one-second tick
and still reports not-alive on the second. -/
theorem c10_dead_stays_dead_witness :
    (simSeq (wSys [wP 1 none none] (some 0)) 0 [(1 : ℚ), 1, 1]).2.get? 1 =
      some false :=
  c10_dead_stays_dead [(1 : ℚ), 1, 1] (wSys [wP 1 none none] (some 0)) 0
    (wP 1 none none) rfl (by norm_num) 0 1 (by norm_num) (by norm_num)
    (by norm_num [simSeq, Particle.simulate, ParticleSystem.getP, wSys,
      wSysR, wP, Particle.aged, Particle.simulateSpatial,
      ParticleSystem.setP, ParticleSystem.logEv, unlinkPrev, unlinkNext,
      runPlan, ParticleSystem.modifyP])

/-- C8: `computeVecRange` on a single `Range` draws from it exactly once
and returns a vector whose three components all equal that one draw (the
stream advances as that one draw does); on a 3-tuple of `Range`s each
component is sampled by its own draw, the stream threaded left to right. -/
theorem c8_sample_vector_broadcast (r a b c : Range) (g : Rng) :
    (computeVecRange (.single r) g).1.1 = (computeRange r false g).1 ∧
    (computeVecRange (.single r) g).1.2.1 =
      (computeVecRange (.single r) g).1.1 ∧
    (computeVecRange (.single r) g).1.2.2 =
      (computeVecRange (.single r) g).1.1 ∧
    (computeVecRange (.single r) g).2 = (computeRange r false g).2 ∧
    computeVecRange (.triple a b c) g =
      (((computeRange a false g).1,
        (computeRange b false (computeRange a false g).2).1,
        (computeRange c false
          (computeRange b false (computeRange a false g).2).2).1),
       (computeRange c false
          (computeRange b false (computeRange a false g).2).2).2) := by
  refine ⟨?_, ?_, ?_, ?_, ?_⟩ <;> simp [computeVecRange]

set_option maxHeartbeats 4000000 in
/-- C1 (the code bug exhibited): in the concrete two-particle system
`c1Sys` the head particle dies during the 1-second tick and its callback
spawns one child.  After the call the system's head is the child (index 2),
but the child's `next` is the dead former head (index 0), whose `next` is
the former second particle (index 1) — the full traversal from the head
still visits the dead, death-flagged node instead of exactly the live
particles, because `addParticle` pointed the spawned chain's tail at the
old root while the dying head was still the root, and the head-advance
check then failed. -/
theorem c1_head_death_respliced :
    (ParticleSystem.simulate c1Sys 1).root = some 2 ∧
    nextOf (ParticleSystem.simulate c1Sys 1) 2 = some 0 ∧
    nextOf (ParticleSystem.simulate c1Sys 1) 0 = some 1 ∧
    dcs (ParticleSystem.simulate c1Sys 1) 0 = some true := by
  norm_num [ParticleSystem.simulate, simLoop, Particle.simulate,
    ParticleSystem.getP, c1Sys, c1Child, wSys, wSysR, Particle.aged,
    Particle.simulateSpatial, ParticleSystem.setP, ParticleSystem.logEv,
    unlinkPrev, unlinkNext, runPlan, spawnLoop, pickDef, Particle.fromDef,
    fromDefParticle, colorStep, velocityStep, lifespanStep, gravityStep,
    sizeStep, preSimStep, planStep, computeRange, computeVecRange,
    ParticleSystem.modifyP, ParticleSystem.alloc, nextOf, findLast,
    ParticleSystem.addParticle, wRng, Rng.next, rangeTruthy, dummyDef,
    ParticleDef.numChildren, ParticleDef.children, ParticleDef.base, dcs]


section FieldHelpers

variable (d : ParticleDef) (cfg : Config) (p q : Particle) (g : Rng)
  (parent : Option Particle)

theorem planStep_x : (planStep d p g).1.x = p.x := by
  simp only [planStep]; repeat' split
  all_goals rfl

theorem planStep_y : (planStep d p g).1.y = p.y := by
  simp only [planStep]; repeat' split
  all_goals rfl

theorem planStep_z : (planStep d p g).1.z = p.z := by
  simp only [planStep]; repeat' split
  all_goals rfl

theorem planStep_vx : (planStep d p g).1.vx = p.vx := by
  simp only [planStep]; repeat' split
  all_goals rfl

theorem planStep_vy : (planStep d p g).1.vy = p.vy := by
  simp only [planStep]; repeat' split
  all_goals rfl

theorem planStep_vz : (planStep d p g).1.vz = p.vz := by
  simp only [planStep]; repeat' split
  all_goals rfl

theorem planStep_size : (planStep d p g).1.size = p.size := by
  simp only [planStep]; repeat' split
  all_goals rfl

theorem planStep_r : (planStep d p g).1.r = p.r := by
  simp only [planStep]; repeat' split
  all_goals rfl

theorem planStep_g : (planStep d p g).1.g = p.g := by
  simp only [planStep]; repeat' split
  all_goals rfl

theorem planStep_b : (planStep d p g).1.b = p.b := by
  simp only [planStep]; repeat' split
  all_goals rfl

theorem planStep_lifespan : (planStep d p g).1.lifespan = p.lifespan := by
  simp only [planStep]; repeat' split
  all_goals rfl

theorem planStep_gravity : (planStep d p g).1.gravity = p.gravity := by
  simp only [planStep]; repeat' split
  all_goals rfl

theorem planStep_snd_congr : (planStep d p g).2 = (planStep d q g).2 := by
  simp only [planStep]; repeat' split
  all_goals rfl

theorem planStep_plan_congr (hpq : p.plan = q.plan) :
    (planStep d p g).1.plan = (planStep d q g).1.plan := by
  simp only [planStep]; repeat' split
  all_goals simp only []
  all_goals exact hpq

theorem preSimStep_vx : (preSimStep cfg d p).vx = p.vx := by
  simp only [preSimStep, Particle.simulateSpatial]; repeat' split
  all_goals rfl

theorem preSimStep_vy : (preSimStep cfg d p).vy = p.vy := by
  simp only [preSimStep, Particle.simulateSpatial]; repeat' split
  all_goals rfl

theorem preSimStep_plan : (preSimStep cfg d p).plan = p.plan := by
  simp only [preSimStep, Particle.simulateSpatial]; repeat' split
  all_goals rfl

theorem preSimStep_vz_add (hg : p.gravity = q.gravity) (cc : ℚ)
    (hvz : p.vz = q.vz + cc) :
    (preSimStep cfg d p).vz = (preSimStep cfg d q).vz + cc := by
  simp only [preSimStep, Particle.simulateSpatial]
  repeat' split
  all_goals try dsimp only
  all_goals try exact hvz
  all_goals rw [hvz, hg]; ring

theorem inheritStep_gravity :
    (inheritStep d parent p).gravity = p.gravity := by
  simp only [inheritStep]; repeat' split
  all_goals rfl

theorem inheritStep_vx_some (par : Particle)
    (hinh : d.base.inheritVelocity = true) :
    (inheritStep d (some par) p).vx = p.vx + par.vx := by
  simp [inheritStep, hinh]

theorem inheritStep_vy_some (par : Particle)
    (hinh : d.base.inheritVelocity = true) :
    (inheritStep d (some par) p).vy = p.vy + par.vy := by
  simp [inheritStep, hinh]

theorem inheritStep_vz_some (par : Particle)
    (hinh : d.base.inheritVelocity = true) :
    (inheritStep d (some par) p).vz = p.vz + par.vz := by
  simp [inheritStep, hinh]

end FieldHelpers

/-- C7 (amended): with a pre-simulation duration `td ≠ 0`, instantiation
advances the constructed particle's position by ONE Euler integration step
of duration `(update_rate / 1000) * td` — not by `td` seconds of simulated
time — adding `gravity` times that duration to the vertical velocity,
leaving the age at 0, the random stream as without pre-simulation, and
every other constructed field (color, size, lifespan, gravity, plan) equal
to the same construction without pre-simulation. -/
theorem c7_presimulate_spec (s : ParticleSystem) (b : ParticleDefBase)
    (n : Option Range) (c : List ParticleDef) (x y z td : ℚ)
    (dn : ParticleDef)
    (hdn : dn = .mk { b with preSimulate := none } n c)
    (hps : b.preSimulate = some td) (htd : td ≠ 0) :
    (fromDefParticle s (.mk b n c) x y z).2 =
      (fromDefParticle s dn x y z).2 ∧
    (fromDefParticle s (.mk b n c) x y z).1.x =
      (fromDefParticle s dn x y z).1.x +
        (fromDefParticle s dn x y z).1.vx *
          (s.config.update_rate / 1000 * td) ∧
    (fromDefParticle s (.mk b n c) x y z).1.y =
      (fromDefParticle s dn x y z).1.y +
        (fromDefParticle s dn x y z).1.vy *
          (s.config.update_rate / 1000 * td) ∧
    (fromDefParticle s (.mk b n c) x y z).1.z =
      (fromDefParticle s dn x y z).1.z +
        (fromDefParticle s dn x y z).1.vz *
          (s.config.update_rate / 1000 * td) ∧
    (fromDefParticle s (.mk b n c) x y z).1.vz =
      (fromDefParticle s dn x y z).1.vz +
        (fromDefParticle s dn x y z).1.gravity *
          (s.config.update_rate / 1000 * td) ∧
    (fromDefParticle s (.mk b n c) x y z).1.vx =
      (fromDefParticle s dn x y z).1.vx ∧
    (fromDefParticle s (.mk b n c) x y z).1.vy =
      (fromDefParticle s dn x y z).1.vy ∧
    (fromDefParticle s (.mk b n c) x y z).1.size =
      (fromDefParticle s dn x y z).1.size ∧
    (fromDefParticle s (.mk b n c) x y z).1.r =
      (fromDefParticle s dn x y z).1.r ∧
    (fromDefParticle s (.mk b n c) x y z).1.g =
      (fromDefParticle s dn x y z).1.g ∧
    (fromDefParticle s (.mk b n c) x y z).1.b =
      (fromDefParticle s dn x y z).1.b ∧
    (fromDefParticle s (.mk b n c) x y z).1.lifespan =
      (fromDefParticle s dn x y z).1.lifespan ∧
    (fromDefParticle s (.mk b n c) x y z).1.gravity =
      (fromDefParticle s dn x y z).1.gravity ∧
    (fromDefParticle s (.mk b n c) x y z).1.plan =
      (fromDefParticle s dn x y z).1.plan ∧
    (fromDefParticle s (.mk b n c) x y z).1.age = 0 := by
  subst hdn
  have e1 : colorStep (ParticleDef.mk { b with preSimulate := none } n c) =
      colorStep (.mk b n c) := rfl
  have e2 : velocityStep s.math
        (ParticleDef.mk { b with preSimulate := none } n c) =
      velocityStep s.math (.mk b n c) := rfl
  have e3 : lifespanStep (ParticleDef.mk { b with preSimulate := none } n c) =
      lifespanStep (.mk b n c) := rfl
  have e4 : gravityStep (ParticleDef.mk { b with preSimulate := none } n c) =
      gravityStep (.mk b n c) := rfl
  have e5 : sizeStep (ParticleDef.mk { b with preSimulate := none } n c) =
      sizeStep (.mk b n c) := rfl
  have e6 : ∀ p0, preSimStep s.config
        (ParticleDef.mk { b with preSimulate := none } n c) p0 = p0 :=
    fun _ => rfl
  have e7 : planStep (ParticleDef.mk { b with preSimulate := none } n c) =
      planStep (.mk b n c) := rfl
  simp only [fromDefParticle, e1, e2, e3, e4, e5, e6, e7]
  have hp4 : ∀ p0, preSimStep s.config (ParticleDef.mk b n c) p0 =
      p0.simulateSpatial (s.config.update_rate / 1000 * td) := by
    intro p0
    simp only [preSimStep, ParticleDef.base_mk, hps]
    rw [if_neg htd]
  simp only [hp4]
  refine ⟨planStep_snd_congr _ _ _ _, ?_, ?_, ?_, ?_, ?_, ?_, ?_, ?_, ?_,
    ?_, ?_, ?_, planStep_plan_congr _ _ _ _ rfl, ?_⟩
  · rw [planStep_x, planStep_x, planStep_vx]
    rfl
  · rw [planStep_y, planStep_y, planStep_vy]
    rfl
  · rw [planStep_z, planStep_z, planStep_vz]
    rfl
  · rw [planStep_vz, planStep_vz, planStep_gravity]
    rfl
  · rw [planStep_vx, planStep_vx]
    rfl
  · rw [planStep_vy, planStep_vy]
    rfl
  · rw [planStep_size, planStep_size]
    rfl
  · rw [planStep_r, planStep_r]
    rfl
  · rw [planStep_g, planStep_g]
    rfl
  · rw [planStep_b, planStep_b]
    rfl
  · rw [planStep_lifespan, planStep_lifespan]
    rfl
  · rw [planStep_gravity, planStep_gravity]
    rfl
  · rw [planStep_age]
    have := fromDefParticle_age s (.mk b n c) x y z
    simp only [fromDefParticle, hp4] at this
    rw [planStep_age] at this
    exact this

/-- C7 witness: the amended theorem at a concrete 500 ms update rate and a
1-second pre-simulation. -/
theorem c7_presimulate_spec_witness :
    (fromDefParticle (wSysR 500 [] none) c7Def 0 0 0).1.x =
      (fromDefParticle (wSysR 500 [] none) c7DefNoPre 0 0 0).1.x +
        (fromDefParticle (wSysR 500 [] none) c7DefNoPre 0 0 0).1.vx *
          ((wSysR 500 [] none).config.update_rate / 1000 * 1) :=
  (c7_presimulate_spec (wSysR 500 [] none) c7Base none [] 0 0 0 1
    c7DefNoPre rfl rfl (by norm_num)).2.1

/-- C7 counterexample to the spec's sentence: at update rate 500 ms and
`preSimulate` of 1 second, a unit-x-velocity particle's position advances
by half a unit during instantiation, not the one unit that "advance the
particle's spatial state by that many seconds" demands. -/
theorem c7_presimulate_counterexample :
    (fromDefParticle (wSysR 500 [] none) c7Def 0 0 0).1.x = 1 / 2 ∧
    (1 / 2 : ℚ) ≠ 0 + 1 * 1 := by
  constructor
  · norm_num [fromDefParticle, colorStep, velocityStep, lifespanStep,
      gravityStep, sizeStep, preSimStep, planStep, computeRange,
      computeVecRange, Particle.simulateSpatial, c7Def, c7Base, wSysR,
      rangeTruthy, ParticleDef.base, ParticleDef.numChildren,
      ParticleDef.children, wRng, wMath, Rng.next]
  · norm_num

/-- C4 (spec-modelled; see `inheritStep`): with `inheritVelocity` set and a
parent supplied, the constructed particle's velocity equals the parentless
construction's velocity plus the parent's current velocity component-wise,
the random stream is the same (inheritance draws nothing), and the
parentless construction coincides with the source `fromDef`. -/
theorem c4_inherit_velocity (s : ParticleSystem) (d : ParticleDef)
    (x y z : ℚ) (par : Particle) (hinh : d.base.inheritVelocity = true) :
    fromDefParticleP s d x y z none = fromDefParticle s d x y z ∧
    (fromDefParticleP s d x y z (some par)).1.vx =
      (fromDefParticle s d x y z).1.vx + par.vx ∧
    (fromDefParticleP s d x y z (some par)).1.vy =
      (fromDefParticle s d x y z).1.vy + par.vy ∧
    (fromDefParticleP s d x y z (some par)).1.vz =
      (fromDefParticle s d x y z).1.vz + par.vz ∧
    (fromDefParticleP s d x y z (some par)).2 =
      (fromDefParticle s d x y z).2 := by
  refine ⟨rfl, ?_, ?_, ?_, ?_⟩
  all_goals simp only [fromDefParticleP, fromDefParticle]
  · rw [planStep_vx, planStep_vx, preSimStep_vx, preSimStep_vx,
      inheritStep_vx_some _ _ _ hinh]
  · rw [planStep_vy, planStep_vy, preSimStep_vy, preSimStep_vy,
      inheritStep_vy_some _ _ _ hinh]
  · rw [planStep_vz, planStep_vz]
    exact preSimStep_vz_add _ _ _ _ (inheritStep_gravity _ _ _) par.vz
      (inheritStep_vz_some _ _ _ hinh)
  · exact planStep_snd_congr _ _ _ _

/-- C4 witness: the inheritance theorem at a concrete definition and
parent. -/
theorem c4_inherit_velocity_witness :
    (fromDefParticleP (wSys [] none) c4Def 0 0 0
        (some (wP 1 none none))).1.vx =
      (fromDefParticle (wSys [] none) c4Def 0 0 0).1.vx +
        (wP 1 none none).vx :=
  (c4_inherit_velocity (wSys [] none) c4Def 0 0 0 (wP 1 none none) rfl).2.1


section C3Helpers

theorem sumTo_take (ds : List ℚ) {t T : Nat} (h : t ≤ T) :
    sumTo (ds.take T) t = sumTo ds t := by
  rw [sumTo, sumTo, List.take_take, min_eq_left h]

theorem sumTo_succ_get (ds : List ℚ) (T : Nat) (hT : T < ds.length) :
    sumTo ds (T + 1) = sumTo ds T + ds.get ⟨T, hT⟩ := by
  rw [sumTo, sumTo, List.take_succ, List.sum_append]
  congr 1
  rw [List.getElem?_eq_getElem hT]
  simp

theorem simSeq_append (ds1 ds2 : List ℚ) :
    ∀ (s : ParticleSystem) (i : Nat),
    (simSeq s i (ds1 ++ ds2)).1 = (simSeq (simSeq s i ds1).1 i ds2).1 := by
  induction ds1 with
  | nil => intro s i; rfl
  | cons d ds ih =>
    intro s i
    simp only [List.cons_append, simSeq]
    exact ih _ _

theorem simulate_alive_eq {s : ParticleSystem} {i : Nat} {p : Particle}
    (δ : ℚ) (hp : s.getP i = some p)
    (halive : ¬(p.lifespan ≠ 0 ∧ p.lifespan ≤ p.age + δ)) :
    Particle.simulate s i δ =
      ((s.setP i (p.aged δ)).logEv (.simulated i), true) := by
  simp only [Particle.simulate, hp, aged_lifespan, aged_age]
  rw [if_neg halive]

/-- An all-alive run of direct calls changes only the subject particle, and
only its spatial and age fields. -/
theorem simSeq_alive_shape :
    ∀ (ds : List ℚ) (s : ParticleSystem) (i : Nat) (p : Particle),
    s.getP i = some p →
    (∀ t, t < ds.length →
      ¬(p.lifespan ≠ 0 ∧ p.lifespan ≤ p.age + sumTo ds (t + 1))) →
    (simSeq s i ds).1.root = s.root ∧
    (simSeq s i ds).1.heap.length = s.heap.length ∧
    (∀ j, j ≠ i → (simSeq s i ds).1.getP j = s.getP j) ∧
    ∃ pN, (simSeq s i ds).1.getP i = some pN ∧
      pN.prev = p.prev ∧ pN.next = p.next ∧ pN.plan = p.plan ∧
      pN.lifespan = p.lifespan ∧ pN.deathCalled = p.deathCalled ∧
      pN.age = p.age + sumTo ds ds.length := by
  intro ds
  induction ds with
  | nil =>
    intro s i p hp halive
    exact ⟨rfl, rfl, fun j _ => rfl, p, hp, rfl, rfl, rfl, rfl, rfl,
      by simp⟩
  | cons d ds ih =>
    intro s i p hp halive
    have h0 : ¬(p.lifespan ≠ 0 ∧ p.lifespan ≤ p.age + d) := by
      have := halive 0 (Nat.succ_pos _)
      rwa [sumTo_cons, sumTo_zero, add_zero] at this
    have hstep := simulate_alive_eq d hp h0
    have hilen : i < s.heap.length := getP_lt_length hp
    have hs2p : (Particle.simulate s i d).1.getP i = some (p.aged d) := by
      simp only [hstep, getP_logEv]
      exact getP_setP_self _ _ _ hilen
    have hnext : ∀ t, t < ds.length →
        ¬((p.aged d).lifespan ≠ 0 ∧
          (p.aged d).lifespan ≤ (p.aged d).age + sumTo ds (t + 1)) := by
      intro t ht
      rw [aged_lifespan, aged_age]
      have := halive (t + 1) (Nat.succ_lt_succ ht)
      rwa [sumTo_cons, ← add_assoc] at this
    obtain ⟨hroot2, hlen2, hother2, pN, hpN, e1, e2, e3, e4, e5, e6⟩ :=
      ih (Particle.simulate s i d).1 i (p.aged d) hs2p hnext
    refine ⟨?_, ?_, ?_, pN, ?_, ?_, ?_, ?_, ?_, ?_, ?_⟩
    · show (simSeq (Particle.simulate s i d).1 i ds).1.root = s.root
      rw [hroot2, hstep]
      rfl
    · show (simSeq (Particle.simulate s i d).1 i ds).1.heap.length =
        s.heap.length
      rw [hlen2, hstep]
      simp
    · intro j hji
      show (simSeq (Particle.simulate s i d).1 i ds).1.getP j = s.getP j
      rw [hother2 j hji]
      simp only [hstep, getP_logEv]
      exact getP_setP_ne _ _ _ _ (fun he => hji he.symm)
    · exact hpN
    · rw [e1, aged_prev]
    · rw [e2, aged_next]
    · rw [e3, aged_plan]
    · rw [e4, aged_lifespan]
    · rw [e5, aged_deathCalled]
    · rw [e6, aged_age, List.length_cons, sumTo_cons, add_assoc]

theorem runPlan_nexts_old {s : ParticleSystem} (px py pz : ℚ)
    (pl : Option (ℚ × List ParticleDef)) (j : Nat)
    (hj : j < s.heap.length)
    (hroot : ∀ rr, s.root = some rr → rr < s.heap.length) :
    nexts (runPlan s px py pz pl) j = nexts s j := by
  rcases pl with - | ⟨n1, k1⟩
  · rfl
  · by_cases h0 : (⌈n1⌉ : ℤ).toNat = 0
    · rw [runPlan_zero k1 px py pz s h0]
    · exact (runPlan_spec n1 k1 px py pz s (by omega) hroot).nextsOld j hj

theorem runPlan_prevs_old {s : ParticleSystem} (px py pz : ℚ)
    (pl : Option (ℚ × List ParticleDef)) (j : Nat)
    (hj : j < s.heap.length) (hnr : s.root ≠ some j)
    (hroot : ∀ rr, s.root = some rr → rr < s.heap.length) :
    prevs (runPlan s px py pz pl) j = prevs s j := by
  rcases pl with - | ⟨n1, k1⟩
  · rfl
  · by_cases h0 : (⌈n1⌉ : ℤ).toNat = 0
    · rw [runPlan_zero k1 px py pz s h0]
    · exact (runPlan_spec n1 k1 px py pz s (by omega)
        hroot).prevsOld j hj hnr

/-- The death step of `Particle.simulate` links the dying particle's two
recorded neighbours to each other. -/
theorem simulate_unlink_spec {s : ParticleSystem} {i : Nat} {p : Particle}
    (δ : ℚ) (hp : s.getP i = some p)
    {q b : Nat} (hq : p.prev = some q) (hb : p.next = some b)
    (hql : q < s.heap.length) (hbl : b < s.heap.length)
    (hdie : p.lifespan ≠ 0 ∧ p.lifespan ≤ p.age + δ)
    (hrb : s.root ≠ some b)
    (hroot : ∀ rr, s.root = some rr → rr < s.heap.length) :
    nexts (Particle.simulate s i δ).1 q = some (some b) ∧
    prevs (Particle.simulate s i δ).1 b = some (some q) := by
  simp only [Particle.simulate, hp, aged_lifespan, aged_age, aged_prev,
    aged_next, aged_plan, aged_deathCalled, hq, hb, unlinkPrev, unlinkNext]
  rw [if_pos hdie]
  have hq1 : q < ((s.setP i (p.aged δ)).logEv (.simulated i)).heap.length :=
    by simpa using hql
  obtain ⟨pq, hpq⟩ := getP_of_lt hq1
  have hb1 : b < (((s.setP i (p.aged δ)).logEv (.simulated i)).modifyP q
      (fun qq => { qq with next := some b })).heap.length := by
    simpa using hbl
  obtain ⟨pb, hpb⟩ := getP_of_lt hb1
  have hnB : ∀ j, nexts ((((s.setP i (p.aged δ)).logEv
        (.simulated i)).modifyP q
        (fun qq => { qq with next := some b })).modifyP b
        (fun qq => { qq with prev := some q })) j =
      if q = j then some (some b)
      else nexts ((s.setP i (p.aged δ)).logEv (.simulated i)) j := by
    intro j
    rw [nexts_modifyP_prevSet, nexts_modifyP_setNext (some b) hpq j]
  have hpB : prevs ((((s.setP i (p.aged δ)).logEv
        (.simulated i)).modifyP q
        (fun qq => { qq with next := some b })).modifyP b
        (fun qq => { qq with prev := some q })) b = some (some q) := by
    rw [prevs_modifyP_setPrev (some q) hpb b, if_pos rfl]
  by_cases hdc : p.deathCalled = true
  · rw [if_pos hdc]
    dsimp only
    refine ⟨?_, hpB⟩
    rw [hnB q, if_pos rfl]
  · rw [if_neg hdc]
    dsimp only
    have key : ∀ s0 : ParticleSystem,
        s0.heap.length = s.heap.length → s0.root = s.root →
        nexts s0 q = some (some b) → prevs s0 b = some (some q) →
        ∀ px py pz pl,
          nexts (runPlan s0 px py pz pl) q = some (some b) ∧
          prevs (runPlan s0 px py pz pl) b = some (some q) := by
      intro s0 hl0 hr0 hn0 hp0 px py pz pl
      have hroot0 : ∀ rr, s0.root = some rr → rr < s0.heap.length := by
        intro rr h
        rw [hl0]
        exact hroot rr (hr0 ▸ h)
      constructor
      · rw [runPlan_nexts_old px py pz pl q (by rw [hl0]; exact hql)
          hroot0]
        exact hn0
      · rw [runPlan_prevs_old px py pz pl b (by rw [hl0]; exact hbl)
          (by rw [hr0]; exact hrb) hroot0]
        exact hp0
    refine ⟨?_, ?_⟩
    · exact (key _ (by simp) (by simp)
        (by simp [nexts_modifyP_dcSet, hnB q])
        (by rw [prevs_logEv, prevs_modifyP_dcSet]; exact hpB)
        _ _ _ _).1
    · exact (key _ (by simp) (by simp)
        (by simp [nexts_modifyP_dcSet, hnB q])
        (by rw [prevs_logEv, prevs_modifyP_dcSet]; exact hpB)
        _ _ _ _).2

end C3Helpers

/-- C3: over any nonnegative-delta sequence of direct calls, a particle
with nonzero lifespan and clear one-shot flag reports not-alive exactly
from the first call at which its cumulative age reaches the lifespan; at
that first death tick its recorded neighbours are linked to each other
(the particle is unlinked); and the death callback fires exactly once in
total, even if `simulate` is called on it again afterward. -/
theorem c3_lifecycle (ds : List ℚ) (s : ParticleSystem) (i : Nat)
    (p : Particle) (q b : Nat) (hp : s.getP i = some p)
    (hL : p.lifespan ≠ 0) (hdc0 : p.deathCalled = false)
    (hpos : ∀ d ∈ ds, 0 ≤ d)
    (hq : p.prev = some q) (hb : p.next = some b)
    (hql : q < s.heap.length) (hbl : b < s.heap.length)
    (hrb : s.root ≠ some b)
    (hroot : ∀ rr, s.root = some rr → rr < s.heap.length) :
    (∀ t, t < ds.length →
      ((simSeq s i ds).2.get? t = some false ↔
        p.lifespan ≤ p.age + sumTo ds (t + 1))) ∧
    ((∃ t, t < ds.length ∧ p.lifespan ≤ p.age + sumTo ds (t + 1)) →
      (simSeq s i ds).1.log.count (Ev.death i) =
        s.log.count (Ev.death i) + 1) ∧
    (∀ T, T < ds.length →
      (∀ t, t < T → ¬ p.lifespan ≤ p.age + sumTo ds (t + 1)) →
      p.lifespan ≤ p.age + sumTo ds (T + 1) →
      nexts (simSeq s i (ds.take (T + 1))).1 q = some (some b) ∧
      prevs (simSeq s i (ds.take (T + 1))).1 b = some (some q)) := by
  obtain ⟨hflag, -, hcnt⟩ := simSeq_spec ds s i p hp
  refine ⟨?_, ?_, ?_⟩
  · intro t ht
    rw [hflag t ht]
    constructor
    · intro h
      have h2 : (!decide (p.lifespan ≠ 0 ∧
          p.lifespan ≤ p.age + sumTo ds (t + 1))) = false :=
        Option.some.inj h
      have h3 : decide (p.lifespan ≠ 0 ∧
          p.lifespan ≤ p.age + sumTo ds (t + 1)) = true := by
        simpa using h2
      exact (of_decide_eq_true h3).2
    · intro h
      rw [decide_eq_true ⟨hL, h⟩]
      rfl
  · rintro ⟨t, ht, hle⟩
    rw [hcnt, if_pos ⟨hdc0, t, ht, hL, hle⟩]
  · intro T hT hbefore hTdie
    have htake : ds.take (T + 1) = ds.take T ++ [ds.get ⟨T, hT⟩] := by
      rw [List.take_succ]
      congr 1
      rw [List.getElem?_eq_getElem hT]
      rfl
    have hTlen : (ds.take T).length = T := by
      rw [List.length_take]
      omega
    have halive : ∀ t, t < (ds.take T).length →
        ¬(p.lifespan ≠ 0 ∧
          p.lifespan ≤ p.age + sumTo (ds.take T) (t + 1)) := by
      intro t ht2
      have htT : t < T := by omega
      rw [sumTo_take ds (by omega : t + 1 ≤ T)]
      intro hcon
      exact hbefore t htT hcon.2
    obtain ⟨hroot1, hlen1, -, pT, hpT, e1, e2, -, e4, -, e6⟩ :=
      simSeq_alive_shape (ds.take T) s i p hp halive
    have hdieT : pT.lifespan ≠ 0 ∧
        pT.lifespan ≤ pT.age + ds.get ⟨T, hT⟩ := by
      rw [e4, e6, hTlen, sumTo_take ds (le_refl T)]
      refine ⟨hL, ?_⟩
      rw [add_assoc, ← sumTo_succ_get ds T hT]
      exact hTdie
    have hrootT : ∀ rr, (simSeq s i (ds.take T)).1.root = some rr →
        rr < (simSeq s i (ds.take T)).1.heap.length := by
      intro rr h
      rw [hlen1]
      exact hroot rr (by rwa [hroot1] at h)
    have hstep := simulate_unlink_spec (ds.get ⟨T, hT⟩) hpT
      (q := q) (b := b) (by rw [e1, hq]) (by rw [e2, hb])
      (by rw [hlen1]; exact hql) (by rw [hlen1]; exact hbl) hdieT
      (by rw [hroot1]; exact hrb) hrootT
    rw [htake, simSeq_append]
    exact hstep

/-- C3 witness: the lifecycle theorem at a concrete three-particle chain
whose middle particle has lifespan 1, over one 1-second tick. -/
theorem c3_lifecycle_witness :
    (simSeq (wSys [wP 0 none (some 1), wP 1 (some 0) (some 2),
        wP 0 (some 1) none] (some 0)) 1 [(1 : ℚ)]).2.get? 0 = some false :=
  ((c3_lifecycle [(1 : ℚ)]
      (wSys [wP 0 none (some 1), wP 1 (some 0) (some 2),
        wP 0 (some 1) none] (some 0)) 1 (wP 1 (some 0) (some 2)) 0 2 rfl
      (by norm_num [wP]) rfl (by norm_num) rfl rfl (by decide) (by decide)
      (by decide)
      (by
        intro rr h
        rw [show (wSys [wP 0 none (some 1), wP 1 (some 0) (some 2),
          wP 0 (some 1) none] (some 0)).root = some 0 from rfl] at h
        injection h with h2
        subst h2
        decide)).1 0 (by norm_num)).mpr (by norm_num [sumTo, wP])


section C9Helpers

theorem noNamesRefList_map_inline (ds : List FDef)
    (h : ∀ d ∈ ds, noNamesDef d = true) :
    noNamesRefList (ds.map .inline) = true := by
  induction ds with
  | nil => rfl
  | cons d ds ih =>
    simp only [List.map_cons, noNamesRefList, noNamesRef]
    rw [h d (List.mem_cons_self d ds),
      ih (fun x hx => h x (List.mem_cons_of_mem d hx))]
    rfl

theorem resolve_ok_noNames (table : List (String × FDef)) : ∀ fuel : Nat,
    (∀ d d2, resolveDef fuel table d = .ok d2 → noNamesDef d2 = true) ∧
    (∀ cs cs2, resolveChildren fuel table cs = .ok cs2 →
      noNamesChildren cs2 = true) ∧
    (∀ c c2, resolveChild fuel table c = .ok c2 →
      noNamesChild c2 = true) ∧
    (∀ r d2, resolveRef fuel table r = .ok d2 → noNamesDef d2 = true) ∧
    (∀ rs ds, resolveRefList fuel table rs = .ok ds →
      ∀ d ∈ ds, noNamesDef d = true) := by
  intro fuel
  induction fuel with
  | zero =>
    refine ⟨?_, ?_, ?_, ?_, ?_⟩ <;> intro a a2 h <;>
      exact Except.noConfusion h
  | succ fuel ih =>
    obtain ⟨ihD, ihCs, ihC, ihR, ihRs⟩ := ih
    refine ⟨?_, ?_, ?_, ?_, ?_⟩
    · intro d d2 h
      obtain ⟨b, ch⟩ := d
      cases ch with
      | none =>
        simp only [resolveDef] at h
        cases h
        rfl
      | some kids =>
        simp only [resolveDef] at h
        cases hrc : resolveChildren fuel table kids with
        | error e => rw [hrc] at h; exact Except.noConfusion h
        | ok kids2 =>
          rw [hrc] at h
          cases h
          simpa [noNamesDef] using ihCs kids kids2 hrc
    · intro cs cs2 h
      cases cs with
      | nil =>
        simp only [resolveChildren] at h
        cases h
        rfl
      | cons c cs =>
        simp only [resolveChildren] at h
        cases hrc : resolveChild fuel table c with
        | error e => rw [hrc] at h; exact Except.noConfusion h
        | ok c2 =>
          rw [hrc] at h
          cases hrc2 : resolveChildren fuel table cs with
          | error e => rw [hrc2] at h; exact Except.noConfusion h
          | ok cs3 =>
            rw [hrc2] at h
            cases h
            rw [noNamesChildren, ihC c c2 hrc, ihCs cs cs3 hrc2]
            rfl
    · intro c c2 h
      obtain ⟨dref, cnt⟩ := c
      cases dref with
      | single r =>
        simp only [resolveChild] at h
        cases hrr : resolveRef fuel table r with
        | error e => rw [hrr] at h; exact Except.noConfusion h
        | ok d3 =>
          rw [hrr] at h
          cases h
          simpa [noNamesChild, noNamesRef] using ihR r d3 hrr
      | alts rs =>
        simp only [resolveChild] at h
        cases hrr : resolveRefList fuel table rs with
        | error e => rw [hrr] at h; exact Except.noConfusion h
        | ok ds =>
          rw [hrr] at h
          cases h
          simpa [noNamesChild] using
            noNamesRefList_map_inline ds (ihRs rs ds hrr)
    · intro r d2 h
      cases r with
      | inline d => exact ihD d d2 h
      | name nm2 =>
        simp only [resolveRef] at h
        cases hlu : lookupDef table nm2 with
        | none => rw [hlu] at h; exact Except.noConfusion h
        | some d3 =>
          rw [hlu] at h
          exact ihD d3 d2 h
    · intro rs ds h
      cases rs with
      | nil =>
        simp only [resolveRefList] at h
        cases h
        intro d hd
        simp at hd
      | cons r rs =>
        simp only [resolveRefList] at h
        cases hrr : resolveRef fuel table r with
        | error e => rw [hrr] at h; exact Except.noConfusion h
        | ok d3 =>
          rw [hrr] at h
          cases hrr2 : resolveRefList fuel table rs with
          | error e => rw [hrr2] at h; exact Except.noConfusion h
          | ok ds3 =>
            rw [hrr2] at h
            cases h
            intro d hd
            rcases List.mem_cons.mp hd with hm | hm
            · subst hm
              exact ihR r d hrr
            · exact ihRs rs ds3 hrr2 d hm

theorem resolve_badname_not_ok (table : List (String × FDef)) (nm : String)
    (hl : lookupDef table nm = none) : ∀ fuel : Nat,
    (∀ d, nm ∈ namesInDef d → ∀ d2,
      resolveDef fuel table d ≠ .ok d2) ∧
    (∀ cs, nm ∈ namesInChildren cs → ∀ cs2,
      resolveChildren fuel table cs ≠ .ok cs2) ∧
    (∀ c, nm ∈ namesInChild c → ∀ c2,
      resolveChild fuel table c ≠ .ok c2) ∧
    (∀ r, nm ∈ namesInRef r → ∀ d2,
      resolveRef fuel table r ≠ .ok d2) ∧
    (∀ rs, nm ∈ namesInRefList rs → ∀ ds,
      resolveRefList fuel table rs ≠ .ok ds) := by
  intro fuel
  induction fuel with
  | zero =>
    refine ⟨?_, ?_, ?_, ?_, ?_⟩ <;> intro a hm a2 h <;>
      exact Except.noConfusion h
  | succ fuel ih =>
    obtain ⟨ihD, ihCs, ihC, ihR, ihRs⟩ := ih
    refine ⟨?_, ?_, ?_, ?_, ?_⟩
    · intro d hmem d2 h
      obtain ⟨b, ch⟩ := d
      cases ch with
      | none => simp [namesInDef] at hmem
      | some kids =>
        simp only [resolveDef] at h
        cases hrc : resolveChildren fuel table kids with
        | error e => rw [hrc] at h; exact Except.noConfusion h
        | ok kids2 =>
          exact ihCs kids (by simpa [namesInDef] using hmem) kids2 hrc
    · intro cs hmem cs2 h
      cases cs with
      | nil => simp [namesInChildren] at hmem
      | cons c cs =>
        simp only [resolveChildren] at h
        rw [namesInChildren] at hmem
        cases hrc : resolveChild fuel table c with
        | error e => rw [hrc] at h; exact Except.noConfusion h
        | ok c2 =>
          rw [hrc] at h
          rcases List.mem_append.mp hmem with hm | hm
          · exact ihC c hm c2 hrc
          · cases hrc2 : resolveChildren fuel table cs with
            | error e => rw [hrc2] at h; exact Except.noConfusion h
            | ok cs3 => exact ihCs cs hm cs3 hrc2
    · intro c hmem c2 h
      obtain ⟨dref, cnt⟩ := c
      cases dref with
      | single r =>
        simp only [resolveChild] at h
        rw [namesInChild] at hmem
        cases hrr : resolveRef fuel table r with
        | error e => rw [hrr] at h; exact Except.noConfusion h
        | ok d3 => exact ihR r hmem d3 hrr
      | alts rs =>
        simp only [resolveChild] at h
        rw [namesInChild] at hmem
        cases hrr : resolveRefList fuel table rs with
        | error e => rw [hrr] at h; exact Except.noConfusion h
        | ok ds => exact ihRs rs hmem ds hrr
    · intro r hmem d2 h
      cases r with
      | inline d =>
        rw [namesInRef] at hmem
        exact ihD d hmem d2 h
      | name nm2 =>
        rw [namesInRef] at hmem
        have he : nm = nm2 := by simpa using hmem
        subst he
        simp only [resolveRef, hl] at h
        exact Except.noConfusion h
    · intro rs hmem ds h
      cases rs with
      | nil => simp [namesInRefList] at hmem
      | cons r rs =>
        simp only [resolveRefList] at h
        rw [namesInRefList] at hmem
        cases hrr : resolveRef fuel table r with
        | error e => rw [hrr] at h; exact Except.noConfusion h
        | ok d3 =>
          rw [hrr] at h
          rcases List.mem_append.mp hmem with hm | hm
          · exact ihR r hm d3 hrr
          · cases hrr2 : resolveRefList fuel table rs with
            | error e => rw [hrr2] at h; exact Except.noConfusion h
            | ok ds3 => exact ihRs rs hm ds3 hrr2

theorem resolve_error_mem (table : List (String × FDef)) : ∀ fuel : Nat,
    (∀ d e, resolveDef fuel table d = .error e →
      e = "invalid_def_ref" ∨ e = "out_of_fuel") ∧
    (∀ cs e, resolveChildren fuel table cs = .error e →
      e = "invalid_def_ref" ∨ e = "out_of_fuel") ∧
    (∀ c e, resolveChild fuel table c = .error e →
      e = "invalid_def_ref" ∨ e = "out_of_fuel") ∧
    (∀ r e, resolveRef fuel table r = .error e →
      e = "invalid_def_ref" ∨ e = "out_of_fuel") ∧
    (∀ rs e, resolveRefList fuel table rs = .error e →
      e = "invalid_def_ref" ∨ e = "out_of_fuel") := by
  intro fuel
  induction fuel with
  | zero =>
    refine ⟨?_, ?_, ?_, ?_, ?_⟩ <;> intro a e h <;>
      exact Or.inr (Except.error.inj h).symm
  | succ fuel ih =>
    obtain ⟨ihD, ihCs, ihC, ihR, ihRs⟩ := ih
    refine ⟨?_, ?_, ?_, ?_, ?_⟩
    · intro d e h
      obtain ⟨b, ch⟩ := d
      cases ch with
      | none => exact Except.noConfusion h
      | some kids =>
        simp only [resolveDef] at h
        cases hrc : resolveChildren fuel table kids with
        | error e2 =>
          rw [hrc] at h
          cases h
          exact ihCs kids _ hrc
        | ok kids2 => rw [hrc] at h; exact Except.noConfusion h
    · intro cs e h
      cases cs with
      | nil => exact Except.noConfusion h
      | cons c cs =>
        simp only [resolveChildren] at h
        cases hrc : resolveChild fuel table c with
        | error e2 =>
          rw [hrc] at h
          cases h
          exact ihC c _ hrc
        | ok c2 =>
          rw [hrc] at h
          cases hrc2 : resolveChildren fuel table cs with
          | error e2 =>
            rw [hrc2] at h
            cases h
            exact ihCs cs _ hrc2
          | ok cs3 => rw [hrc2] at h; exact Except.noConfusion h
    · intro c e h
      obtain ⟨dref, cnt⟩ := c
      cases dref with
      | single r =>
        simp only [resolveChild] at h
        cases hrr : resolveRef fuel table r with
        | error e2 =>
          rw [hrr] at h
          cases h
          exact ihR r _ hrr
        | ok d3 => rw [hrr] at h; exact Except.noConfusion h
      | alts rs =>
        simp only [resolveChild] at h
        cases hrr : resolveRefList fuel table rs with
        | error e2 =>
          rw [hrr] at h
          cases h
          exact ihRs rs _ hrr
        | ok ds => rw [hrr] at h; exact Except.noConfusion h
    · intro r e h
      cases r with
      | inline d => exact ihD d e h
      | name nm2 =>
        simp only [resolveRef] at h
        cases hlu : lookupDef table nm2 with
        | none =>
          rw [hlu] at h
          cases h
          exact Or.inl rfl
        | some d3 =>
          rw [hlu] at h
          exact ihD d3 e h
    · intro rs e h
      cases rs with
      | nil => exact Except.noConfusion h
      | cons r rs =>
        simp only [resolveRefList] at h
        cases hrr : resolveRef fuel table r with
        | error e2 =>
          rw [hrr] at h
          cases h
          exact ihR r _ hrr
        | ok d3 =>
          rw [hrr] at h
          cases hrr2 : resolveRefList fuel table rs with
          | error e2 =>
            rw [hrr2] at h
            cases h
            exact ihRs rs _ hrr2
          | ok ds3 => rw [hrr2] at h; exact Except.noConfusion h

theorem loadLoop_ok_noNames (fuel : Nat) (table : List (String × FDef)) :
    ∀ rest out, loadLoop fuel table rest = .ok out →
    ∀ pr ∈ out, noNamesDef pr.2 = true := by
  intro rest
  induction rest with
  | nil =>
    intro out h pr hpr
    cases h
    simp at hpr
  | cons en rest ih =>
    intro out h pr hpr
    simp only [loadLoop] at h
    cases hrd : resolveDef fuel table en.2 with
    | error err => rw [hrd] at h; exact Except.noConfusion h
    | ok d2 =>
      rw [hrd] at h
      cases hll : loadLoop fuel table rest with
      | error err => rw [hll] at h; exact Except.noConfusion h
      | ok rest2 =>
        rw [hll] at h
        cases h
        rcases List.mem_cons.mp hpr with hm | hm
        · subst hm
          exact (resolve_ok_noNames table fuel).1 en.2 d2 hrd
        · exact ih rest2 hll pr hm

theorem loadLoop_badname_not_ok (fuel : Nat)
    (table : List (String × FDef)) (nm : String)
    (hl : lookupDef table nm = none) :
    ∀ rest, (∃ pr ∈ rest, nm ∈ namesInDef pr.2) →
    ∀ out, loadLoop fuel table rest ≠ .ok out := by
  intro rest
  induction rest with
  | nil =>
    rintro ⟨pr, hpr, -⟩
    simp at hpr
  | cons en rest ih =>
    rintro ⟨pr, hpr, hnm⟩ out h
    simp only [loadLoop] at h
    cases hrd : resolveDef fuel table en.2 with
    | error err => rw [hrd] at h; exact Except.noConfusion h
    | ok d2 =>
      rw [hrd] at h
      rcases List.mem_cons.mp hpr with hm | hm
      · subst hm
        exact (resolve_badname_not_ok table nm hl fuel).1 pr.2 hnm d2 hrd
      · cases hll : loadLoop fuel table rest with
        | error err => rw [hll] at h; exact Except.noConfusion h
        | ok rest2 => exact ih ⟨pr, hm, hnm⟩ rest2 hll

theorem loadLoop_error_mem (fuel : Nat) (table : List (String × FDef)) :
    ∀ rest e, loadLoop fuel table rest = .error e →
    e = "invalid_def_ref" ∨ e = "out_of_fuel" := by
  intro rest
  induction rest with
  | nil =>
    intro e h
    exact Except.noConfusion h
  | cons en rest ih =>
    intro e h
    simp only [loadLoop] at h
    cases hrd : resolveDef fuel table en.2 with
    | error err =>
      rw [hrd] at h
      cases h
      exact (resolve_error_mem table fuel).1 en.2 _ hrd
    | ok d2 =>
      rw [hrd] at h
      cases hll : loadLoop fuel table rest with
      | error err =>
        rw [hll] at h
        cases h
        exact ih _ hll
      | ok rest2 => rw [hll] at h; exact Except.noConfusion h

end C9Helpers

/-- C9: a definition table in which some entry's child rules name a
definition absent from the table never loads — every fuel leaves
`loadParticleFile` with a thrown error, and the only thrown signals are
the "invalid_def_ref" reference error and the fuel guard standing in for
the JS version's unbounded recursion — and after any successful load no
rule's `def` field anywhere still holds a string reference. -/
theorem c9_invalid_reference (table : List (String × FDef)) (k : String)
    (dd : FDef) (nm : String) (hmem : (k, dd) ∈ table)
    (hnm : nm ∈ namesInDef dd) (hl : lookupDef table nm = none) :
    (∀ fuel, ¬∃ out, loadParticleFile fuel table = .ok out) ∧
    (∀ fuel, ∃ e, loadParticleFile fuel table = .error e ∧
      (e = "invalid_def_ref" ∨ e = "out_of_fuel")) ∧
    (∀ fuel (table2 : List (String × FDef)) out,
      loadParticleFile fuel table2 = .ok out →
      ∀ pr ∈ out, noNamesDef pr.2 = true) := by
  have hnotok : ∀ fuel out, loadParticleFile fuel table ≠ .ok out := by
    intro fuel out
    exact loadLoop_badname_not_ok fuel table nm hl table
      ⟨(k, dd), hmem, hnm⟩ out
  refine ⟨?_, ?_, ?_⟩
  · rintro fuel ⟨out, h⟩
    exact hnotok fuel out h
  · intro fuel
    cases hres : loadParticleFile fuel table with
    | ok out => exact absurd hres (hnotok fuel out)
    | error e => exact ⟨e, rfl, loadLoop_error_mem fuel table table e hres⟩
  · intro fuel table2 out h
    exact loadLoop_ok_noNames fuel table2 table2 out h

/-- C9 witness: the one-entry table with a dangling "missing" reference
never loads. -/
theorem c9_invalid_reference_witness :
    ¬∃ out, loadParticleFile 5 c9Table = .ok out :=
  (c9_invalid_reference c9Table "boom" c9BadDef "missing"
    (by simp [c9Table])
    (by simp [c9BadDef, c9BadChild, namesInDef, namesInChildren,
      namesInChild, namesInRef])
    (by simp [lookupDef, c9Table])).1 5


section ChainToolkit

theorem chainLinksB_eq_chainSegB (s : ParticleSystem) :
    ∀ (L : List Nat) (r : Option Nat),
    chainLinksB s r L = chainSegB s r L none := by
  intro L
  induction L with
  | nil => intro r; rfl
  | cons x xs ih =>
    intro r
    rw [chainLinksB, chainSegB]
    cases nexts s x with
    | none => rfl
    | some nx =>
      show (r == some x && chainLinksB s nx xs) =
        (r == some x && chainSegB s nx xs none)
      rw [ih nx]

theorem chainSegB_append (s : ParticleSystem) :
    ∀ (L1 L2 : List Nat) (r r2 : Option Nat),
    chainSegB s r (L1 ++ L2) r2 = true ↔
      ∃ m, chainSegB s r L1 m = true ∧ chainSegB s m L2 r2 = true := by
  intro L1
  induction L1 with
  | nil =>
    intro L2 r r2
    constructor
    · intro h
      exact ⟨r, by simp [chainSegB], h⟩
    · rintro ⟨m, hm, h2⟩
      have : r = m := by simpa [chainSegB] using hm
      rwa [this]
  | cons x xs ih =>
    intro L2 r r2
    rw [List.cons_append, chainSegB]
    constructor
    · intro h
      have hr : r = some x := by
        cases hrx : r == some x with
        | false => rw [hrx] at h; simp at h
        | true => exact eq_of_beq hrx
      rw [hr] at h ⊢
      simp only [beq_self_eq_true, Bool.true_and] at h
      cases hnx : nexts s x with
      | none => rw [hnx] at h; exact Bool.noConfusion h
      | some nx =>
        rw [hnx] at h
        obtain ⟨m, hm, h2⟩ := (ih L2 nx r2).mp h
        refine ⟨m, ?_, h2⟩
        rw [chainSegB, hnx]
        simpa using hm
    · rintro ⟨m, hm, h2⟩
      rw [chainSegB] at hm
      have hr : r = some x := by
        cases hrx : r == some x with
        | false => rw [hrx] at hm; simp at hm
        | true => exact eq_of_beq hrx
      rw [hr] at hm ⊢
      simp only [beq_self_eq_true, Bool.true_and] at hm ⊢
      cases hnx : nexts s x with
      | none => rw [hnx] at hm; exact Bool.noConfusion hm
      | some nx =>
        rw [hnx] at hm
        exact (ih L2 nx r2).mpr ⟨m, hm, h2⟩

theorem chainSegB_congr {s s2 : ParticleSystem} :
    ∀ (L : List Nat), (∀ x ∈ L, nexts s2 x = nexts s x) →
    ∀ (r r2 : Option Nat), chainSegB s2 r L r2 = chainSegB s r L r2 := by
  intro L
  induction L with
  | nil => intro _ r r2; rfl
  | cons x xs ih =>
    intro h r r2
    rw [chainSegB, chainSegB, h x (List.mem_cons_self x xs)]
    cases nexts s x with
    | none => rfl
    | some nx =>
      show (r == some x && chainSegB s2 nx xs r2) =
        (r == some x && chainSegB s nx xs r2)
      rw [ih (fun y hy => h y (List.mem_cons_of_mem x hy)) nx r2]

theorem chainSegB_singleton (s : ParticleSystem) (x : Nat)
    (r r2 : Option Nat) :
    chainSegB s r [x] r2 = true ↔ r = some x ∧ nexts s x = some r2 := by
  rw [chainSegB]
  constructor
  · intro h
    have hr : r = some x := by
      cases hrx : r == some x with
      | false => rw [hrx] at h; simp at h
      | true => exact eq_of_beq hrx
    refine ⟨hr, ?_⟩
    rw [hr] at h
    simp only [beq_self_eq_true, Bool.true_and] at h
    cases hnx : nexts s x with
    | none => rw [hnx] at h; exact Bool.noConfusion h
    | some nx =>
      rw [hnx] at h
      have h2 : nx = r2 := by simpa [chainSegB] using h
      rw [h2]
  · rintro ⟨hr, hnx⟩
    rw [hr, hnx]
    simp [chainSegB]

theorem endPred_cons (pred : Option Nat) (x : Nat) (xs : List Nat) :
    endPred pred (x :: xs) = endPred (some x) xs := by
  rw [endPred, endPred]
  cases hxs : xs.getLast? with
  | none =>
    rw [List.getLast?_cons, hxs]
    rfl
  | some y =>
    rw [List.getLast?_cons, hxs]
    rfl

theorem prevOkB_congr {s s2 : ParticleSystem} (all : List Nat) :
    ∀ (L : List Nat), (∀ x ∈ L, prevs s2 x = prevs s x) →
    ∀ (pred : Option Nat), prevOkB s2 all pred L = prevOkB s all pred L := by
  intro L
  induction L with
  | nil => intro _ pred; rfl
  | cons x xs ih =>
    intro h pred
    rw [prevOkB, prevOkB, h x (List.mem_cons_self x xs),
      ih (fun y hy => h y (List.mem_cons_of_mem x hy)) (some x)]

theorem contains_true_iff (l : List Nat) (q : Nat) :
    l.contains q = true ↔ q ∈ l := by
  simp

theorem prevOkB_subset {s : ParticleSystem} {all all2 : List Nat}
    (hsub : ∀ q, q ∈ all2 → q ∈ all) :
    ∀ (L : List Nat) (pred : Option Nat),
    prevOkB s all pred L = true → prevOkB s all2 pred L = true := by
  intro L
  induction L with
  | nil => intro pred _; rfl
  | cons x xs ih =>
    intro pred h
    rw [prevOkB] at h ⊢
    rw [Bool.and_eq_true] at h ⊢
    refine ⟨?_, ih (some x) h.2⟩
    have h1 := h.1
    cases hpx : prevs s x with
    | none => rfl
    | some v =>
      cases v with
      | none => rfl
      | some q =>
        rw [hpx] at h1
        have h2 : (pred == some q || !all.contains q) = true := h1
        show (pred == some q || !all2.contains q) = true
        rw [Bool.or_eq_true] at h2 ⊢
        rcases h2 with h1 | h1
        · exact Or.inl h1
        · right
          cases hc2 : all2.contains q with
          | false => rfl
          | true =>
            exfalso
            have hq2 : q ∈ all2 := contains_true_iff all2 q |>.mp hc2
            have hqa : all.contains q = true :=
              (contains_true_iff all q).mpr (hsub q hq2)
            rw [hqa] at h1
            exact Bool.noConfusion h1

theorem prevOkB_append (s : ParticleSystem) (all : List Nat) :
    ∀ (L1 L2 : List Nat) (pred : Option Nat),
    prevOkB s all pred (L1 ++ L2) =
      (prevOkB s all pred L1 && prevOkB s all (endPred pred L1) L2) := by
  intro L1
  induction L1 with
  | nil =>
    intro L2 pred
    rw [List.nil_append, prevOkB, Bool.true_and, endPred]
    rfl
  | cons x xs ih =>
    intro L2 pred
    rw [List.cons_append, prevOkB, prevOkB, ih L2 (some x),
      endPred_cons, Bool.and_assoc]

end ChainToolkit

section UnlinkPointer

@[simp] theorem config_unlinkPrev (s : ParticleSystem)
    (pv nx : Option Nat) : (unlinkPrev s pv nx).config = s.config := by
  cases pv <;> simp [unlinkPrev]

@[simp] theorem config_unlinkNext (s : ParticleSystem)
    (pv nx : Option Nat) : (unlinkNext s pv nx).config = s.config := by
  cases nx <;> simp [unlinkNext]

theorem nexts_unlinkNext (s : ParticleSystem) (pv nx : Option Nat)
    (j : Nat) : nexts (unlinkNext s pv nx) j = nexts s j := by
  cases nx with
  | none => rfl
  | some n2 => exact nexts_modifyP_prevSet _ _ _ _

theorem prevs_unlinkPrev (s : ParticleSystem) (pv nx : Option Nat)
    (j : Nat) : prevs (unlinkPrev s pv nx) j = prevs s j := by
  cases pv with
  | none => rfl
  | some pr => exact prevs_modifyP_nextSet _ _ _ _

theorem nexts_unlinkPrev (s : ParticleSystem) (pv nx : Option Nat)
    (j : Nat) (hj : j < s.heap.length) :
    nexts (unlinkPrev s pv nx) j =
      if pv = some j then some nx else nexts s j := by
  cases pv with
  | none => rw [unlinkPrev, if_neg (by simp)]
  | some pr =>
    by_cases hpj : pr = j
    · obtain ⟨p0, hp0⟩ :=
        getP_of_lt (show pr < s.heap.length by rw [hpj]; exact hj)
      rw [unlinkPrev, nexts_modifyP_setNext nx hp0 j, if_pos hpj,
        if_pos (by rw [hpj])]
    · cases hg : s.getP pr with
      | none =>
        rw [unlinkPrev, modifyP_of_none _ _ _ hg,
          if_neg (fun he => hpj (Option.some.inj he))]
      | some p0 =>
        rw [unlinkPrev, nexts_modifyP_setNext nx hg j, if_neg hpj,
          if_neg (fun he => hpj (Option.some.inj he))]

theorem prevs_unlinkNext (s : ParticleSystem) (pv nx : Option Nat)
    (j : Nat) (hj : j < s.heap.length) :
    prevs (unlinkNext s pv nx) j =
      if nx = some j then some pv else prevs s j := by
  cases nx with
  | none => rw [unlinkNext, if_neg (by simp)]
  | some n2 =>
    by_cases hnj : n2 = j
    · obtain ⟨p0, hp0⟩ :=
        getP_of_lt (show n2 < s.heap.length by rw [hnj]; exact hj)
      rw [unlinkNext, prevs_modifyP_setPrev pv hp0 j, if_pos hnj,
        if_pos (by rw [hnj])]
    · cases hg : s.getP n2 with
      | none =>
        rw [unlinkNext, modifyP_of_none _ _ _ hg,
          if_neg (fun he => hnj (Option.some.inj he))]
      | some p0 =>
        rw [unlinkNext, prevs_modifyP_setPrev pv hg j, if_neg hnj,
          if_neg (fun he => hnj (Option.some.inj he))]

end UnlinkPointer


section DeathStep

theorem simEvs_append (l1 l2 : List Ev) :
    simEvs (l1 ++ l2) = simEvs l1 ++ simEvs l2 := by
  rw [simEvs, simEvs, simEvs, List.filterMap_append]

theorem simEvs_spawn_map (cnt a : Nat) (x y z : ℚ) :
    simEvs ((List.range cnt).map fun k => Ev.spawned (a + k) x y z) =
      [] := by
  rw [simEvs, List.filterMap_eq_nil]
  intro e he
  obtain ⟨k, -, rfl⟩ := List.mem_map.mp he
  rfl

theorem runPlan_none (s : ParticleSystem) (px py pz : ℚ) :
    runPlan s px py pz none = s := rfl

/-- The full state effect of one `Particle.simulate` call on a dying
particle: the alive flag, heap growth, head move, every pre-existing
object's pointers, the fresh chain's pointers and the appended log. -/
theorem simulate_died_spec {s : ParticleSystem} {i : Nat} {p : Particle}
    (δ : ℚ) (cnt : Nat) (hp : s.getP i = some p)
    (hdie : p.lifespan ≠ 0 ∧ p.lifespan ≤ p.age + δ)
    (hcnt : cnt = (if p.deathCalled = true then 0 else planCnt p.plan))
    (hroot : ∀ rr, s.root = some rr → rr < s.heap.length) :
    (Particle.simulate s i δ).2 = false ∧
    (Particle.simulate s i δ).1.heap.length = s.heap.length + cnt ∧
    (Particle.simulate s i δ).1.config = s.config ∧
    (Particle.simulate s i δ).1.root =
      (if cnt = 0 then s.root else some s.heap.length) ∧
    (∀ j, j < s.heap.length → nexts (Particle.simulate s i δ).1 j =
      (if p.prev = some j then some p.next else nexts s j)) ∧
    (∀ j, j < s.heap.length → prevs (Particle.simulate s i δ).1 j =
      (if 1 ≤ cnt ∧ s.root = some j then
        some (some (s.heap.length + cnt - 1))
       else if p.next = some j then some p.prev else prevs s j)) ∧
    (∀ k, k + 1 < cnt → nexts (Particle.simulate s i δ).1
      (s.heap.length + k) = some (some (s.heap.length + k + 1))) ∧
    (1 ≤ cnt → nexts (Particle.simulate s i δ).1
      (s.heap.length + cnt - 1) = some s.root) ∧
    (∀ k, k < cnt → prevs (Particle.simulate s i δ).1 (s.heap.length + k) =
      (if k = 0 then some none
       else some (some (s.heap.length + k - 1)))) ∧
    (∃ tail, (Particle.simulate s i δ).1.log =
      s.log ++ Ev.simulated i :: tail ∧ simEvs tail = []) := by
  have h1nx : ∀ j,
      nexts ((s.setP i (p.aged δ)).logEv (.simulated i)) j = nexts s j := by
    intro j
    rw [nexts_logEv]
    exact nexts_setP_keep hp (aged_next p δ) j
  have h1pv : ∀ j,
      prevs ((s.setP i (p.aged δ)).logEv (.simulated i)) j = prevs s j := by
    intro j
    rw [prevs_logEv]
    exact prevs_setP_keep hp (aged_prev p δ) j
  have keyBase : ∀ s0 : ParticleSystem, cnt = 0 →
      s0.heap.length = s.heap.length → s0.config = s.config →
      s0.root = s.root →
      (∀ j, j < s.heap.length → nexts s0 j =
        (if p.prev = some j then some p.next else nexts s j)) →
      (∀ j, j < s.heap.length → prevs s0 j =
        (if p.next = some j then some p.prev else prevs s j)) →
      ∀ tl, s0.log = s.log ++ Ev.simulated i :: tl → simEvs tl = [] →
      s0.heap.length = s.heap.length + cnt ∧
      s0.config = s.config ∧
      s0.root = (if cnt = 0 then s.root else some s.heap.length) ∧
      (∀ j, j < s.heap.length → nexts s0 j =
        (if p.prev = some j then some p.next else nexts s j)) ∧
      (∀ j, j < s.heap.length → prevs s0 j =
        (if 1 ≤ cnt ∧ s.root = some j then
          some (some (s.heap.length + cnt - 1))
         else if p.next = some j then some p.prev else prevs s j)) ∧
      (∀ k, k + 1 < cnt → nexts s0 (s.heap.length + k) =
        some (some (s.heap.length + k + 1))) ∧
      (1 ≤ cnt → nexts s0 (s.heap.length + cnt - 1) = some s.root) ∧
      (∀ k, k < cnt → prevs s0 (s.heap.length + k) =
        (if k = 0 then some none
         else some (some (s.heap.length + k - 1)))) ∧
      (∃ tail, s0.log = s.log ++ Ev.simulated i :: tail ∧
        simEvs tail = []) := by
    intro s0 hc0 hlen0 hcfg0 hroot0 hNx hPv tl hlog htl
    subst hc0
    refine ⟨by simp [hlen0], hcfg0, by rw [hroot0, if_pos rfl], hNx, ?_,
      ?_, ?_, ?_, ⟨tl, hlog, htl⟩⟩
    · intro j hj
      have hno : ¬(1 ≤ 0 ∧ s.root = some j) := fun hcc =>
        absurd hcc.1 (by omega)
      rw [if_neg hno, hPv j hj]
    · intro k hk
      exact absurd hk (by omega)
    · intro hk
      exact absurd hk (by omega)
    · intro k hk
      exact absurd hk (by omega)
  have keySpawn : ∀ (s0 : ParticleSystem) (n1 : ℚ)
      (k1 : List ParticleDef) (px py pz : ℚ), cnt = (⌈n1⌉ : ℤ).toNat →
      1 ≤ cnt →
      s0.heap.length = s.heap.length → s0.config = s.config →
      s0.root = s.root →
      (∀ j, j < s.heap.length → nexts s0 j =
        (if p.prev = some j then some p.next else nexts s j)) →
      (∀ j, j < s.heap.length → prevs s0 j =
        (if p.next = some j then some p.prev else prevs s j)) →
      ∀ tl, s0.log = s.log ++ Ev.simulated i :: tl → simEvs tl = [] →
      (runPlan s0 px py pz (some (n1, k1))).heap.length =
        s.heap.length + cnt ∧
      (runPlan s0 px py pz (some (n1, k1))).config = s.config ∧
      (runPlan s0 px py pz (some (n1, k1))).root =
        (if cnt = 0 then s.root else some s.heap.length) ∧
      (∀ j, j < s.heap.length →
        nexts (runPlan s0 px py pz (some (n1, k1))) j =
        (if p.prev = some j then some p.next else nexts s j)) ∧
      (∀ j, j < s.heap.length →
        prevs (runPlan s0 px py pz (some (n1, k1))) j =
        (if 1 ≤ cnt ∧ s.root = some j then
          some (some (s.heap.length + cnt - 1))
         else if p.next = some j then some p.prev else prevs s j)) ∧
      (∀ k, k + 1 < cnt →
        nexts (runPlan s0 px py pz (some (n1, k1))) (s.heap.length + k) =
          some (some (s.heap.length + k + 1))) ∧
      (1 ≤ cnt →
        nexts (runPlan s0 px py pz (some (n1, k1)))
          (s.heap.length + cnt - 1) = some s.root) ∧
      (∀ k, k < cnt →
        prevs (runPlan s0 px py pz (some (n1, k1))) (s.heap.length + k) =
        (if k = 0 then some none
         else some (some (s.heap.length + k - 1)))) ∧
      (∃ tail, (runPlan s0 px py pz (some (n1, k1))).log =
        s.log ++ Ev.simulated i :: tail ∧ simEvs tail = []) := by
    intro s0 n1 k1 px py pz hcn hc1 hlen0 hcfg0 hroot0 hNx hPv tl hlog htl
    have hroot0a : ∀ rr, s0.root = some rr → rr < s0.heap.length := by
      intro rr h
      rw [hlen0]
      exact hroot rr (by rwa [hroot0] at h)
    have spec := runPlan_spec n1 k1 px py pz s0 (by omega) hroot0a
    refine ⟨?_, ?_, ?_, ?_, ?_, ?_, ?_, ?_, ?_⟩
    · rw [spec.len, hlen0, hcn]
    · rw [spec.configEq, hcfg0]
    · rw [spec.rootEq, hlen0, if_neg (by omega)]
    · intro j hj
      rw [spec.nextsOld j (by rw [hlen0]; exact hj), hNx j hj]
    · intro j hj
      by_cases hrj : s.root = some j
      · rw [if_pos ⟨by omega, hrj⟩,
          spec.prevsRoot j (by rw [hroot0]; exact hrj)
            (by rw [hlen0]; exact hj), hlen0, hcn]
      · rw [if_neg (fun hcc => hrj hcc.2),
          spec.prevsOld j (by rw [hlen0]; exact hj)
            (by rw [hroot0]; exact hrj), hPv j hj]
    · intro k hk
      have hmid := spec.nextsMid k (by omega)
      rw [hlen0] at hmid
      exact hmid
    · intro hk
      have hlast := spec.nextsLast
      rw [hlen0, hroot0, ← hcn] at hlast
      exact hlast
    · intro k hk
      cases k with
      | zero =>
        have hh := spec.prevsHead
        rw [hlen0] at hh
        rw [if_pos rfl]
        simpa using hh
      | succ k2 =>
        have hh := spec.prevsNew (k2 + 1) (by omega) (by omega)
        rw [hlen0] at hh
        rw [if_neg (by omega)]
        exact hh
    · refine ⟨tl ++ ((List.range ((⌈n1⌉ : ℤ).toNat)).map fun k =>
        Ev.spawned (s.heap.length + k) px py pz) ++
        [Ev.added s.heap.length], ?_, ?_⟩
      · rw [spec.logEq, hlog, hlen0]
        simp
      · rw [simEvs_append, simEvs_append, htl, simEvs_spawn_map]
        rfl
  simp only [Particle.simulate, hp, aged_lifespan, aged_age, aged_prev,
    aged_next, aged_plan, aged_deathCalled]
  rw [if_pos hdie]
  by_cases hdc : p.deathCalled = true
  · rw [if_pos hdc]
    refine ⟨rfl, ?_⟩
    have hc0 : cnt = 0 := by rw [hcnt, if_pos hdc]
    exact keyBase _ hc0 (by simp) (by simp) (by simp)
      (by
        intro j hj
        rw [nexts_unlinkNext,
          nexts_unlinkPrev _ _ _ j (by simpa using hj), h1nx j])
      (by
        intro j hj
        rw [prevs_unlinkNext _ _ _ j (by simpa using hj),
          prevs_unlinkPrev, h1pv j])
      [] (by simp) rfl
  · rw [if_neg hdc]
    refine ⟨rfl, ?_⟩
    have hc : cnt = planCnt p.plan := by rw [hcnt, if_neg hdc]
    have hS3Anx : ∀ j, j < s.heap.length →
        nexts (((unlinkNext (unlinkPrev ((s.setP i (p.aged δ)).logEv
          (.simulated i)) p.prev p.next) p.prev p.next).modifyP i
          (fun q => { q with deathCalled := true })).logEv (.death i)) j =
        (if p.prev = some j then some p.next else nexts s j) := by
      intro j hj
      rw [nexts_logEv, nexts_modifyP_dcSet, nexts_unlinkNext,
        nexts_unlinkPrev _ _ _ j (by simpa using hj), h1nx j]
    have hS3Apv : ∀ j, j < s.heap.length →
        prevs (((unlinkNext (unlinkPrev ((s.setP i (p.aged δ)).logEv
          (.simulated i)) p.prev p.next) p.prev p.next).modifyP i
          (fun q => { q with deathCalled := true })).logEv (.death i)) j =
        (if p.next = some j then some p.prev else prevs s j) := by
      intro j hj
      rw [prevs_logEv, prevs_modifyP_dcSet,
        prevs_unlinkNext _ _ _ j (by simpa using hj),
        prevs_unlinkPrev, h1pv j]
    cases hpl : p.plan with
    | none =>
      rw [runPlan_none]
      have hc0 : cnt = 0 := by rw [hc, hpl]; rfl
      exact keyBase _ hc0 (by simp) (by simp) (by simp) hS3Anx hS3Apv
        [Ev.death i] (by simp) rfl
    | some nk =>
      obtain ⟨n1, k1⟩ := nk
      have hcP : cnt = (⌈n1⌉ : ℤ).toNat := by rw [hc, hpl]; rfl
      by_cases h0 : (⌈n1⌉ : ℤ).toNat = 0
      · rw [runPlan_zero k1 _ _ _ _ h0]
        have hc0 : cnt = 0 := by rw [hcP]; exact h0
        exact keyBase _ hc0 (by simp) (by simp) (by simp) hS3Anx hS3Apv
          [Ev.death i] (by simp) rfl
      · exact keySpawn _ n1 k1 _ _ _ hcP (by omega) (by simp) (by simp)
          (by simp) hS3Anx hS3Apv [Ev.death i] (by simp) rfl

end DeathStep

/-- C5: the child count is sampled exactly once at instantiation and
cached alongside the child definitions (never re-sampled later); a rule
listing several alternative definitions picks each child's definition with
one fresh draw, floor-scaled into the list's bounds; and the death tick of
a fresh particle with a cached plan of `n` children grows the heap by
exactly `⌈n⌉` particles, logging one spawn at the dying particle's
post-tick position for each, and links them into one doubly-linked chain
inserted by the single `addParticle` call: the system head becomes the
first child, each child's `next` is the following child (with matching
back-pointers, the first child's `prev` cleared), and the last child's
`next` is the former system head. -/
theorem c5_children_cached :
    (∀ (d : ParticleDef) (nr : Range) (p0 : Particle) (g : Rng),
      d.numChildren = some nr → rangeTruthy d.numChildren = true →
      d.children ≠ [] → (computeRange nr true g).1 ≠ 0 →
      planStep d p0 g =
        ({ p0 with plan := some ((computeRange nr true g).1, d.children) },
         (computeRange nr true g).2)) ∧
    (∀ (ks : List ParticleDef) (g : Rng), 2 ≤ ks.length →
      0 ≤ g.stream g.idx → g.stream g.idx < 1 →
      (⌊g.stream g.idx * (ks.length : ℚ)⌋).toNat < ks.length ∧
      pickDef ks g =
        ((ks.get? (⌊g.stream g.idx * (ks.length : ℚ)⌋).toNat).getD dummyDef,
         (g.next).2)) ∧
    (∀ (s : ParticleSystem) (i : Nat) (p : Particle) (δ n : ℚ)
      (kids : List ParticleDef),
      s.getP i = some p → p.deathCalled = false → p.lifespan ≠ 0 →
      p.lifespan ≤ p.age + δ → p.plan = some (n, kids) →
      1 ≤ (⌈n⌉ : ℤ).toNat →
      (∀ rr, s.root = some rr → rr < s.heap.length) →
      (Particle.simulate s i δ).1.heap.length =
        s.heap.length + (⌈n⌉ : ℤ).toNat ∧
      (Particle.simulate s i δ).1.log =
        s.log ++ [Ev.simulated i, Ev.death i] ++
          ((List.range ((⌈n⌉ : ℤ).toNat)).map fun k =>
            Ev.spawned (s.heap.length + k) (p.x + p.vx * δ)
              (p.y + p.vy * δ) (p.z + p.vz * δ)) ++
          [Ev.added s.heap.length] ∧
      (Particle.simulate s i δ).1.root = some s.heap.length ∧
      (∀ k, k + 1 < (⌈n⌉ : ℤ).toNat →
        nexts (Particle.simulate s i δ).1 (s.heap.length + k) =
          some (some (s.heap.length + k + 1))) ∧
      nexts (Particle.simulate s i δ).1
          (s.heap.length + (⌈n⌉ : ℤ).toNat - 1) = some s.root ∧
      (∀ k, k < (⌈n⌉ : ℤ).toNat →
        prevs (Particle.simulate s i δ).1 (s.heap.length + k) =
          (if k = 0 then some none
           else some (some (s.heap.length + k - 1))))) := by
  refine ⟨?_, ?_, ?_⟩
  · intro d nr p0 g hnr htr hne h0
    have hie : d.children.isEmpty = false := by
      simpa using hne
    have hnr2 : rangeTruthy (some nr) = true := by
      rw [← hnr]
      exact htr
    simp only [planStep, hnr, hnr2, hie, Bool.not_false, Bool.and_true,
      if_true]
    rw [if_pos h0]
  · intro ks g h2 h0 h1
    have hlen0 : (0 : ℚ) < (ks.length : ℚ) := by
      exact_mod_cast (by omega : 0 < ks.length)
    have hflt : ⌊g.stream g.idx * (ks.length : ℚ)⌋ < (ks.length : ℤ) := by
      apply Int.floor_lt.mpr
      push_cast
      nlinarith
    have hfnn : 0 ≤ ⌊g.stream g.idx * (ks.length : ℚ)⌋ :=
      Int.floor_nonneg.mpr (mul_nonneg h0 (le_of_lt hlen0))
    refine ⟨by omega, ?_⟩
    simp only [pickDef]
    rw [if_neg (by omega : ¬ ks.length = 1)]
    rfl
  · intro s i p δ n kids hp hdc hl0 hle hplan hcnt hroot
    have hcnt2 : ((⌈n⌉ : ℤ).toNat) =
        (if p.deathCalled = true then 0 else planCnt p.plan) := by
      rw [hdc, hplan]
      simp [planCnt]
    obtain ⟨-, -, -, hroot4, -, -, hMid4, hLast4, hFpv4, -⟩ :=
      simulate_died_spec δ ((⌈n⌉ : ℤ).toNat) hp ⟨hl0, hle⟩ hcnt2 hroot
    refine ⟨?_, ?_, by rw [hroot4, if_neg (by omega)], hMid4,
      hLast4 hcnt, hFpv4⟩
    all_goals
    simp only [Particle.simulate, hp, aged_lifespan, aged_age,
      aged_deathCalled, aged_prev, aged_next, aged_plan, aged_x, aged_y,
      aged_z, hplan]
    all_goals
    rw [if_pos ⟨hl0, hle⟩, if_neg (by simp [hdc] : ¬ p.deathCalled = true)]
    all_goals
    have key : ∀ s0 : ParticleSystem,
        s0.heap.length = s.heap.length → s0.root = s.root →
        s0.log = s.log ++ [Ev.simulated i, Ev.death i] →
        (runPlan s0 (p.x + p.vx * δ) (p.y + p.vy * δ) (p.z + p.vz * δ)
            (some (n, kids))).heap.length =
          s.heap.length + (⌈n⌉ : ℤ).toNat ∧
        (runPlan s0 (p.x + p.vx * δ) (p.y + p.vy * δ) (p.z + p.vz * δ)
            (some (n, kids))).log =
          s.log ++ [Ev.simulated i, Ev.death i] ++
            ((List.range ((⌈n⌉ : ℤ).toNat)).map fun k =>
              Ev.spawned (s.heap.length + k) (p.x + p.vx * δ)
                (p.y + p.vy * δ) (p.z + p.vz * δ)) ++
            [Ev.added s.heap.length] := by
      intro s0 hl0s hr0 hlog0
      have hroot0 : ∀ rr, s0.root = some rr → rr < s0.heap.length := by
        intro rr h
        rw [hl0s]
        exact hroot rr (hr0 ▸ h)
      have spec := runPlan_spec n kids (p.x + p.vx * δ) (p.y + p.vy * δ)
        (p.z + p.vz * δ) s0 hcnt hroot0
      refine ⟨?_, ?_⟩
      · rw [spec.len, hl0s]
      · rw [spec.logEq, hlog0, hl0s]
    first
    | exact (key _ (by simp) (by simp) (by simp)).1
    | exact (key _ (by simp) (by simp) (by simp)).2

/-- C5 witness: the death-tick conjunct at the concrete spawning system
`c1Sys` — one child is created. -/
theorem c5_children_cached_witness :
    (Particle.simulate c1Sys 0 1).1.heap.length =
      c1Sys.heap.length + ((⌈(1 : ℚ)⌉ : ℤ).toNat) :=
  (c5_children_cached.2.2 c1Sys 0
    { x := 0, y := 0, z := 0, lifespan := 1, gravity := 0, next := some 1,
      plan := some (1, [c1Child]) } 1 1 [c1Child] rfl rfl (by norm_num)
    (by norm_num) rfl (by norm_num)
    (by
      intro rr h
      rw [show c1Sys.root = some 0 from rfl] at h
      injection h with h2
      subst h2
      decide)).1


section MasterToolkit

theorem chainLinksB_nil_iff (s : ParticleSystem) (r : Option Nat) :
    chainLinksB s r [] = true ↔ r = none := by
  rw [chainLinksB]
  exact beq_iff_eq

theorem chainLinksB_cons_iff (s : ParticleSystem) (r : Option Nat)
    (x : Nat) (xs : List Nat) :
    chainLinksB s r (x :: xs) = true ↔
      r = some x ∧ ∃ nx, nexts s x = some nx ∧
        chainLinksB s nx xs = true := by
  rw [chainLinksB]
  constructor
  · intro h
    have hr : r = some x := by
      cases hrx : r == some x with
      | false => rw [hrx] at h; simp at h
      | true => exact eq_of_beq hrx
    refine ⟨hr, ?_⟩
    rw [hr] at h
    simp only [beq_self_eq_true, Bool.true_and] at h
    cases hnx : nexts s x with
    | none => rw [hnx] at h; exact Bool.noConfusion h
    | some nx =>
      rw [hnx] at h
      exact ⟨nx, rfl, h⟩
  · rintro ⟨hr, nx, hnx, h⟩
    rw [hr, hnx]
    simpa using h

theorem chainLinksB_congr_mem {s s2 : ParticleSystem}
    (hr : s2.root = s.root) :
    ∀ (L : List Nat), (∀ x ∈ L, nexts s2 x = nexts s x) →
    chainLinksB s2 s2.root L = chainLinksB s s.root L := by
  intro L h
  rw [hr, chainLinksB_eq_chainSegB, chainLinksB_eq_chainSegB,
    chainSegB_congr L h]

theorem prevOkB_cons_iff (s : ParticleSystem) (all : List Nat)
    (pred : Option Nat) (x : Nat) (xs : List Nat) :
    prevOkB s all pred (x :: xs) = true ↔
      (∀ q, prevs s x = some (some q) → pred = some q ∨ q ∉ all) ∧
      prevOkB s all (some x) xs = true := by
  rw [prevOkB, Bool.and_eq_true]
  constructor
  · rintro ⟨h1, h2⟩
    refine ⟨?_, h2⟩
    intro q hq
    rw [hq] at h1
    rw [Bool.or_eq_true] at h1
    rcases h1 with h1 | h1
    · exact Or.inl (eq_of_beq h1)
    · right
      intro hc
      rw [Bool.not_eq_true'] at h1
      rw [← List.elem_iff] at hc
      rw [List.contains] at h1
      rw [h1] at hc
      exact Bool.noConfusion hc
  · rintro ⟨h1, h2⟩
    refine ⟨?_, h2⟩
    cases hpx : prevs s x with
    | none => rfl
    | some v =>
      cases v with
      | none => rfl
      | some q =>
        show (pred == some q || !all.contains q) = true
        rw [Bool.or_eq_true]
        rcases h1 q hpx with h | h
        · exact Or.inl (beq_iff_eq.mpr h)
        · right
          rw [Bool.not_eq_true']
          cases hc : all.contains q with
          | false => rfl
          | true => exact absurd ((contains_true_iff all q).mp hc) h

theorem prevOkB_all_extend {s : ParticleSystem} {all all2 : List Nat}
    (len : Nat) (hnew : ∀ q, q ∈ all2 → q < len → q ∈ all) :
    ∀ (L : List Nat),
    (∀ x ∈ L, ∀ q, prevs s x = some (some q) → q < len) →
    ∀ (pred : Option Nat),
    prevOkB s all pred L = true → prevOkB s all2 pred L = true := by
  intro L
  induction L with
  | nil => intro _ pred _; rfl
  | cons x xs ih =>
    intro hbnd pred h
    rw [prevOkB_cons_iff] at h ⊢
    refine ⟨?_, ih (fun y hy => hbnd y (List.mem_cons_of_mem x hy))
      (some x) h.2⟩
    intro q hq
    rcases h.1 q hq with h1 | h1
    · exact Or.inl h1
    · right
      intro hc
      exact h1 (hnew q hc (hbnd x (List.mem_cons_self x xs) q hq))

theorem range_map_shift (m a : Nat) :
    (List.range (m + 1)).map (fun k => a + k) =
      a :: (List.range m).map (fun k => a + 1 + k) := by
  rw [List.range_succ_eq_map, List.map_cons, List.map_map]
  rw [Nat.add_zero]
  congr 1
  apply List.map_congr_left
  intro k _
  simp only [Function.comp_apply]
  omega

theorem mem_freshList {x a m : Nat} :
    x ∈ (List.range m).map (fun k => a + k) ↔ a ≤ x ∧ x < a + m := by
  rw [List.mem_map]
  constructor
  · rintro ⟨k, hk, rfl⟩
    rw [List.mem_range] at hk
    omega
  · rintro ⟨h1, h2⟩
    exact ⟨x - a, by rw [List.mem_range]; omega, by omega⟩

theorem nodup_freshList (a m : Nat) :
    ((List.range m).map (fun k => a + k)).Nodup := by
  refine List.Nodup.map ?_ (List.nodup_range m)
  intro x y hxy
  have h2 : a + x = a + y := hxy
  omega

theorem getLast?_freshList (a m : Nat) (hm : 1 ≤ m) :
    ((List.range m).map (fun k => a + k)).getLast? =
      some (a + m - 1) := by
  obtain ⟨m2, rfl⟩ : ∃ m2, m = m2 + 1 := ⟨m - 1, by omega⟩
  rw [List.range_succ, List.map_append, List.map_cons, List.map_nil,
    List.getLast?_append_cons, List.getLast?_singleton]
  congr 1

theorem chainSegB_fresh (s2 : ParticleSystem) :
    ∀ (m a : Nat) (rend : Option Nat), 1 ≤ m →
    (∀ k, k + 1 < m → nexts s2 (a + k) = some (some (a + k + 1))) →
    nexts s2 (a + m - 1) = some rend →
    chainSegB s2 (some a) ((List.range m).map (fun k => a + k)) rend =
      true := by
  intro m
  induction m with
  | zero => intro a rend h; exact absurd h (by omega)
  | succ m ih =>
    intro a rend hm hmid hlast
    rw [range_map_shift, chainSegB]
    simp only [beq_self_eq_true, Bool.true_and]
    cases m with
    | zero =>
      have hl : nexts s2 a = some rend := by
        have := hlast
        rwa [show a + 1 - 1 = a by omega] at this
      rw [hl]
      simp [chainSegB]
    | succ m2 =>
      have h0 : nexts s2 a = some (some (a + 1)) := by
        have := hmid 0 (by omega)
        simpa using this
      rw [h0]
      refine ih (a + 1) rend (by omega) ?_ ?_
      · intro k hk
        have := hmid (k + 1) (by omega)
        rw [show a + (k + 1) = a + 1 + k by omega] at this
        exact this
      · have := hlast
        rwa [show a + (m2 + 1 + 1) - 1 = a + 1 + (m2 + 1) - 1 by omega]
          at this

theorem prevOkB_fresh (s2 : ParticleSystem) (all : List Nat) :
    ∀ (m a : Nat) (pred : Option Nat),
    (∀ q, prevs s2 a = some (some q) → pred = some q) →
    (∀ k, 1 ≤ k → k < m → prevs s2 (a + k) = some (some (a + k - 1))) →
    prevOkB s2 all pred ((List.range m).map (fun k => a + k)) = true := by
  intro m
  induction m with
  | zero => intro a pred _ _; rfl
  | succ m ih =>
    intro a pred hh hm
    rw [range_map_shift, prevOkB_cons_iff]
    refine ⟨fun q hq => Or.inl (hh q hq), ?_⟩
    cases m with
    | zero => rfl
    | succ m2 =>
      refine ih (a + 1) (some a) ?_ ?_
      · intro q hq
        have := hm 1 (le_refl 1) (by omega)
        rw [show a + 1 - 1 = a by omega] at this
        rw [this] at hq
        exact Option.some.inj hq
      · intro k h1 hk
        have := hm (k + 1) (by omega) (by omega)
        rw [show a + (k + 1) = a + 1 + k by omega] at this
        exact this

theorem endPred_of_getLast {pred : Option Nat} {L : List Nat} {a : Nat}
    (h : L.getLast? = some a) : endPred pred L = some a := by
  unfold endPred
  rw [h]

theorem split_align {N : Nat} :
    ∀ (F O V rest : List Nat) (c : Nat),
    F ++ O = V ++ c :: rest → (∀ x ∈ F, N ≤ x) → c < N →
    ∃ V1, V = F ++ V1 ∧ O = V1 ++ c :: rest := by
  intro F
  induction F with
  | nil =>
    intro O V rest c h _ _
    exact ⟨V, rfl, by simpa using h⟩
  | cons f F ih =>
    intro O V rest c h hF hc
    cases V with
    | nil =>
      simp only [List.nil_append, List.cons_append] at h
      have hfc : f = c := (List.cons.inj h).1
      exact absurd (hF f (List.mem_cons_self f F))
        (by rw [hfc]; omega)
    | cons v V =>
      simp only [List.cons_append] at h
      obtain ⟨hfv, h2⟩ := List.cons.inj h
      obtain ⟨V1, e1, e2⟩ := ih O V rest c h2
        (fun x hx => hF x (List.mem_cons_of_mem f hx)) hc
      refine ⟨V1, ?_, e2⟩
      rw [List.cons_append, ← e1, hfv]

theorem logDelta_of_append {s out : ParticleSystem} {Δ : List Ev}
    (h : out.log = s.log ++ Δ) : logDelta s out = Δ := by
  rw [logDelta, h, List.drop_left]

end MasterToolkit


section StepToolkit

theorem simLoop_succ_some (δ : ℚ) (f : Nat) (c : Nat)
    (s : ParticleSystem) :
    simLoop δ (f + 1) (some c) s =
      simLoop δ f (nextOf (stepState δ c s) c) (stepState δ c s) := rfl

theorem getP_setRoot (s : ParticleSystem) (r : Option Nat) (i : Nat) :
    ParticleSystem.getP { s with root := r } i = s.getP i := rfl

theorem nexts_setRoot (s : ParticleSystem) (r : Option Nat) (i : Nat) :
    nexts { s with root := r } i = nexts s i := rfl

theorem prevs_setRoot (s : ParticleSystem) (r : Option Nat) (i : Nat) :
    prevs { s with root := r } i = prevs s i := rfl

theorem heap_setRoot (s : ParticleSystem) (r : Option Nat) :
    ({ s with root := r } : ParticleSystem).heap = s.heap := rfl

theorem config_setRoot (s : ParticleSystem) (r : Option Nat) :
    ({ s with root := r } : ParticleSystem).config = s.config := rfl

theorem log_setRoot (s : ParticleSystem) (r : Option Nat) :
    ({ s with root := r } : ParticleSystem).log = s.log := rfl

theorem root_setRoot (s : ParticleSystem) (r : Option Nat) :
    ({ s with root := r } : ParticleSystem).root = r := rfl

theorem nexts_of_getP {s : ParticleSystem} {i : Nat} {p : Particle}
    (h : s.getP i = some p) : nexts s i = some p.next := by
  rw [nexts, h]
  rfl

theorem prevs_of_getP {s : ParticleSystem} {i : Nat} {p : Particle}
    (h : s.getP i = some p) : prevs s i = some p.prev := by
  rw [prevs, h]
  rfl

theorem chainSegB_cons_iff (s : ParticleSystem) (r : Option Nat)
    (x : Nat) (xs : List Nat) (r2 : Option Nat) :
    chainSegB s r (x :: xs) r2 = true ↔
      r = some x ∧ ∃ nx, nexts s x = some nx ∧
        chainSegB s nx xs r2 = true := by
  rw [chainSegB]
  constructor
  · intro h
    have hr : r = some x := by
      cases hrx : r == some x with
      | false => rw [hrx] at h; simp at h
      | true => exact eq_of_beq hrx
    refine ⟨hr, ?_⟩
    rw [hr] at h
    simp only [beq_self_eq_true, Bool.true_and] at h
    cases hnx : nexts s x with
    | none => rw [hnx] at h; exact Bool.noConfusion h
    | some nx =>
      rw [hnx] at h
      exact ⟨nx, rfl, h⟩
  · rintro ⟨hr, nx, hnx, h⟩
    rw [hr, hnx]
    simpa using h

theorem endPred_concat (pred : Option Nat) (L : List Nat) (a : Nat) :
    endPred pred (L ++ [a]) = some a := by
  rw [endPred, List.getLast?_concat]

theorem prevOkB_transport_wild (s S2 : ParticleSystem)
    (allOld allNew : List Nat) (len : Nat)
    (hA : ∀ q, q ∈ allNew → q < len → q ∈ allOld) :
    ∀ (L : List Nat) (pred : Option Nat),
    (∀ x ∈ L,
      (prevs S2 x = prevs s x ∧
        ∀ q, prevs s x = some (some q) → q < len) ∨
      (∀ q, prevs S2 x = some (some q) → q ∉ allNew)) →
    prevOkB s allOld pred L = true → prevOkB S2 allNew pred L = true := by
  intro L
  induction L with
  | nil => intro pred _ _; rfl
  | cons x xs ih =>
    intro pred hx hold
    rw [prevOkB_cons_iff] at hold ⊢
    refine ⟨?_, ih (some x)
      (fun y hy => hx y (List.mem_cons_of_mem x hy)) hold.2⟩
    intro q hq
    rcases hx x (List.mem_cons_self x xs) with ⟨he, hb⟩ | hw
    · rw [he] at hq
      rcases hold.1 q hq with h | h
      · exact Or.inl h
      · right
        intro hc
        exact h (hA q hc (hb q hq))
    · exact Or.inr (hw q hq)

theorem nodup_bounded_length {L : List Nat} {n : Nat} (hnd : L.Nodup)
    (hb : ∀ x ∈ L, x < n) : L.length ≤ n := by
  have h1 : L.toFinset.card = L.length := List.toFinset_card_of_nodup hnd
  have h2 : L.toFinset ⊆ Finset.range n := by
    intro x hx
    rw [List.mem_toFinset] at hx
    rw [Finset.mem_range]
    exact hb x hx
  have h3 := Finset.card_le_card h2
  rw [h1, Finset.card_range] at h3
  exact h3

end StepToolkit


section TraversalStep

/-- One alive iteration of the tick loop: the state keeps every pointer, the
head, the heap size and the chain, appends one `simulated` event, and the
cursor moves to the visited node's `next`. -/
theorem alive_step_inv (δ : ℚ) (N : Nat) (s : ParticleSystem) (c : Nat)
    (rest W : List Nat) (p : Particle)
    (inv : LoopInv N s (some c) W (c :: rest))
    (hp : s.getP c = some p)
    (halive : ¬(p.lifespan ≠ 0 ∧ p.lifespan ≤ p.age + δ)) :
    LoopInv N (stepState δ c s) (nextOf (stepState δ c s) c) W rest ∧
    (stepState δ c s).heap.length = s.heap.length ∧
    (stepState δ c s).log = s.log ++ [Ev.simulated c] := by
  have hstep := simulate_alive_eq δ hp halive
  have hS2 : stepState δ c s = (s.setP c (p.aged δ)).logEv (.simulated c) := by
    simp only [stepState, hstep]
    rw [if_neg]
    rintro ⟨h1, -⟩
    exact Bool.noConfusion h1
  have hNx1 : ∀ j, nexts (stepState δ c s) j = nexts s j := by
    intro j
    rw [hS2, nexts_logEv]
    exact nexts_setP_keep hp (aged_next p δ) j
  have hPv1 : ∀ j, prevs (stepState δ c s) j = prevs s j := by
    intro j
    rw [hS2, prevs_logEv]
    exact prevs_setP_keep hp (aged_prev p δ) j
  have hroot1 : (stepState δ c s).root = s.root := by
    rw [hS2, root_logEv, root_setP]
  have hlen1 : (stepState δ c s).heap.length = s.heap.length := by
    rw [hS2, heap_logEv]
    exact length_setP s c (p.aged δ)
  have hlog1 : (stepState δ c s).log = s.log ++ [Ev.simulated c] := by
    rw [hS2, log_logEv, log_setP]
  have hcc := inv.chainCur
  rw [chainLinksB_cons_iff] at hcc
  obtain ⟨-, nx0, hnx0, hrest0⟩ := hcc
  have hnx0p : nx0 = p.next := by
    rw [nexts_of_getP hp] at hnx0
    exact (Option.some.inj hnx0).symm
  subst hnx0p
  have hcur : nextOf (stepState δ c s) c = p.next := by
    apply nextOf_eq_of_nexts
    rw [hNx1 c]
    exact nexts_of_getP hp
  refine ⟨⟨?_, ?_, ?_, inv.nodup, ?_, ?_, ?_, ?_, ?_, inv.hsplit⟩,
    hlen1, hlog1⟩
  · rw [hroot1, chainLinksB_eq_chainSegB,
      chainSegB_congr W (fun x _ => hNx1 x) s.root none,
      ← chainLinksB_eq_chainSegB]
    exact inv.chainW
  · rw [hcur, chainLinksB_eq_chainSegB,
      chainSegB_congr rest (fun x _ => hNx1 x) p.next none,
      ← chainLinksB_eq_chainSegB]
    exact hrest0
  · obtain ⟨V, hWV⟩ := inv.hsuffix
    exact ⟨V ++ [c], by rw [hWV]; simp⟩
  · intro x hx
    rw [hlen1]
    exact inv.bounds x hx
  · rw [prevOkB_congr W W (fun x _ => hPv1 x) none]
    exact inv.prevOk
  · intro x hx q hq
    rw [hlen1]
    rw [hPv1 x] at hq
    exact inv.prevBound x hx q hq
  · intro x hx
    exact inv.todoOld x (List.mem_cons_of_mem c hx)
  · rw [hlen1]
    exact inv.hNlen


/-- One dying iteration of the tick loop: the visited node is unlinked (and,
when it was the head with no spawn, the head advances past it), any spawned
children are spliced in as a fresh prefix at the head, the cursor moves to
the dead node's former `next`, and the traversal invariant survives with an
active list that gained the fresh ids in front and lost at most the dead
node. -/
theorem died_step_inv (δ : ℚ) (N : Nat) (s : ParticleSystem) (c : Nat)
    (rest W : List Nat) (p : Particle)
    (inv : LoopInv N s (some c) W (c :: rest))
    (hp : s.getP c = some p)
    (hdie : p.lifespan ≠ 0 ∧ p.lifespan ≤ p.age + δ) :
    ∃ W2,
      LoopInv N (stepState δ c s) (nextOf (stepState δ c s) c) W2 rest ∧
      s.heap.length ≤ (stepState δ c s).heap.length ∧
      (∃ Δ1, (stepState δ c s).log = s.log ++ Ev.simulated c :: Δ1 ∧
        simEvs Δ1 = []) ∧
      (∀ x ∈ W, x ≠ c → x ∈ W2) ∧
      (∀ j, s.heap.length ≤ j → j < (stepState δ c s).heap.length →
        j ∈ W2) := by
  obtain ⟨V, hWV⟩ := inv.hsuffix
  subst hWV
  obtain ⟨cnt, hcnt⟩ :
      ∃ k, k = (if p.deathCalled = true then 0 else planCnt p.plan) :=
    ⟨_, rfl⟩
  have hcW : c ∈ V ++ c :: rest :=
    List.mem_append_right V (List.mem_cons_self c rest)
  have hclen : c < s.heap.length := inv.bounds c hcW
  have hcN : c < N := inv.todoOld c (List.mem_cons_self c rest)
  have hnd := inv.nodup
  rw [List.nodup_append] at hnd
  obtain ⟨hndV, hndCR, hdisj⟩ := hnd
  rw [List.nodup_cons] at hndCR
  obtain ⟨hcrest, hndrest⟩ := hndCR
  have hcV : c ∉ V := fun h => hdisj h (List.mem_cons_self c rest)
  have hVrest : ∀ x ∈ V, x ∉ rest :=
    fun x hx hr => hdisj hx (List.mem_cons_of_mem c hr)
  have hcw := inv.chainW
  rw [chainLinksB_eq_chainSegB, chainSegB_append] at hcw
  obtain ⟨m1, hsegV, hsegCR⟩ := hcw
  rw [chainSegB_cons_iff] at hsegCR
  obtain ⟨hm1c, nx0, hnx0, hsegRest⟩ := hsegCR
  have hnx0p : nx0 = p.next := by
    rw [nexts_of_getP hp] at hnx0
    exact (Option.some.inj hnx0).symm
  subst hnx0p
  subst hm1c
  have hpo := inv.prevOk
  rw [prevOkB_append, Bool.and_eq_true] at hpo
  obtain ⟨hpoV, hpoCR⟩ := hpo
  rw [prevOkB_cons_iff] at hpoCR
  obtain ⟨hshc0, hpoRest⟩ := hpoCR
  have hshc : ∀ q, p.prev = some q →
      endPred none V = some q ∨ q ∉ V ++ c :: rest := by
    intro q hq
    exact hshc0 q (by rw [prevs_of_getP hp, hq])
  have hheadW : ∃ w0, s.root = some w0 ∧
      ((V = [] ∧ w0 = c) ∨ w0 ∈ V) := by
    cases V with
    | nil =>
      refine ⟨c, ?_, Or.inl ⟨rfl, rfl⟩⟩
      simpa [chainSegB] using hsegV
    | cons vh V1 =>
      rw [chainSegB_cons_iff] at hsegV
      exact ⟨vh, hsegV.1, Or.inr (List.mem_cons_self vh V1)⟩
  have hw0A : ∀ w0, ((V = [] ∧ w0 = c) ∨ w0 ∈ V) →
      w0 ∈ V ++ c :: rest := by
    intro w0 h
    rcases h with ⟨-, rfl⟩ | h
    · exact hcW
    · exact List.mem_append_left _ h
  have hrootB : ∀ rr, s.root = some rr → rr < s.heap.length := by
    intro rr hrr
    obtain ⟨w0, hw0, hdisc⟩ := hheadW
    rw [hw0] at hrr
    rw [← Option.some.inj hrr]
    exact inv.bounds w0 (hw0A w0 hdisc)
  obtain ⟨hflag, hlen4, hcfg4, hroot4, hNx4, hPv4, hMid4, hLast4, hFpv4,
    tl, hlog4, htl4⟩ := simulate_died_spec δ cnt hp hdie hcnt hrootB
  have hnxsa : nexts (Particle.simulate s c δ).1 c = some p.next := by
    rw [hNx4 c hclen]
    by_cases hpc : p.prev = some c
    · rw [if_pos hpc]
    · rw [if_neg hpc, nexts_of_getP hp]
  have hPB : ∀ x, ∀ q, prevs (Particle.simulate s c δ).1 x =
      some (some q) → (x ∈ V ++ c :: rest ∨
        (s.heap.length ≤ x ∧ x < s.heap.length + cnt)) →
      q < s.heap.length + cnt := by
    intro x q hq hmem
    rcases hmem with hold | hfr
    · have hxlen : x < s.heap.length := inv.bounds x hold
      rw [hPv4 x hxlen] at hq
      by_cases h1 : 1 ≤ cnt ∧ s.root = some x
      · rw [if_pos h1] at hq
        have h2 : s.heap.length + cnt - 1 = q :=
          Option.some.inj (Option.some.inj hq)
        omega
      · rw [if_neg h1] at hq
        by_cases h2 : p.next = some x
        · rw [if_pos h2] at hq
          have hq2 : p.prev = some q := Option.some.inj hq
          have h3 := inv.prevBound c hcW q
            (by rw [prevs_of_getP hp, hq2])
          omega
        · rw [if_neg h2] at hq
          have h3 := inv.prevBound x hold q hq
          omega
    · obtain ⟨k, hk, rfl⟩ : ∃ k, k < cnt ∧ x = s.heap.length + k :=
        ⟨x - s.heap.length, by omega, by omega⟩
      rw [hFpv4 k hk] at hq
      by_cases hk0 : k = 0
      · rw [if_pos hk0] at hq
        exact absurd hq (by simp)
      · rw [if_neg hk0] at hq
        have h2 : s.heap.length + k - 1 = q :=
          Option.some.inj (Option.some.inj hq)
        omega
  have hPvKeep : ∀ x, x < s.heap.length →
      ¬(1 ≤ cnt ∧ s.root = some x) → p.next ≠ some x →
      prevs (Particle.simulate s c δ).1 x = prevs s x := by
    intro x hx h1 h2
    rw [hPv4 x hx, if_neg h1, if_neg h2]
  have hrestShape :
      (rest = [] ∧ p.next = none) ∨
      ∃ r0 rs, rest = r0 :: rs ∧ p.next = some r0 := by
    cases rest with
    | nil =>
      left
      refine ⟨rfl, ?_⟩
      simpa [chainSegB] using hsegRest
    | cons r0 rs =>
      right
      rw [chainSegB_cons_iff] at hsegRest
      exact ⟨r0, rs, rfl, hsegRest.1⟩
  have hpnextMem : ∀ x, p.next = some x → x ∈ rest := by
    intro x hx
    rcases hrestShape with ⟨-, h0⟩ | ⟨r0, rs, hre, h0⟩
    · rw [h0] at hx
      exact Option.noConfusion hx
    · rw [h0] at hx
      rw [hre, ← Option.some.inj hx]
      exact List.mem_cons_self r0 rs
  obtain ⟨FL, hFL⟩ :
      ∃ L, L = (List.range cnt).map (fun k => s.heap.length + k) :=
    ⟨_, rfl⟩
  have hFLmem : ∀ x, x ∈ FL ↔
      s.heap.length ≤ x ∧ x < s.heap.length + cnt := by
    intro x
    rw [hFL]
    exact mem_freshList
  have hFLnd : FL.Nodup := by
    rw [hFL]
    exact nodup_freshList _ _
  by_cases hadv : cnt = 0 ∧ V = []
  · -- the head died without spawning: the head advances past it
    obtain ⟨hc0, hV0⟩ := hadv
    subst hV0
    have hrc : s.root = some c := by simpa [chainSegB] using hsegV
    have hS2 : stepState δ c s =
        { (Particle.simulate s c δ).1 with
            root := nextOf (Particle.simulate s c δ).1 c } := by
      simp only [stepState]
      rw [if_pos]
      exact ⟨hflag, by rw [hroot4, if_pos hc0, hrc]⟩
    have hcur : nextOf (stepState δ c s) c = p.next := by
      apply nextOf_eq_of_nexts
      rw [hS2, nexts_setRoot]
      exact hnxsa
    have hroot2 : (stepState δ c s).root = p.next := by
      rw [hS2, root_setRoot]
      exact nextOf_eq_of_nexts hnxsa
    have hlen2 : (stepState δ c s).heap.length = s.heap.length := by
      rw [hS2]
      have h1 : ({ (Particle.simulate s c δ).1 with
          root := nextOf (Particle.simulate s c δ).1 c } :
            ParticleSystem).heap.length =
          (Particle.simulate s c δ).1.heap.length := rfl
      rw [h1, hlen4, hc0]
      omega
    have hkeep : ∀ q, p.prev = some q → q ∉ [] ++ c :: rest := by
      intro q hq
      rcases hshc q hq with h | h
      · rw [show endPred none ([] : List Nat) = none from rfl] at h
        exact absurd h (by simp)
      · exact h
    have hNx2 : ∀ j, j < s.heap.length →
        nexts (stepState δ c s) j =
          (if p.prev = some j then some p.next else nexts s j) := by
      intro j hj
      rw [hS2, nexts_setRoot]
      exact hNx4 j hj
    have hnxRest : ∀ x ∈ rest, nexts (stepState δ c s) x = nexts s x := by
      intro x hx
      have hxA : x ∈ [] ++ c :: rest :=
        List.mem_append_right _ (List.mem_cons_of_mem c hx)
      rw [hNx2 x (inv.bounds x hxA), if_neg]
      intro hpp
      exact hkeep x hpp hxA
    have hchainRest2 :
        chainLinksB (stepState δ c s) p.next rest = true := by
      rw [chainLinksB_eq_chainSegB,
        chainSegB_congr rest hnxRest p.next none]
      exact hsegRest
    refine ⟨rest, ⟨?_, ?_, ⟨[], rfl⟩, hndrest, ?_, ?_, ?_, ?_, ?_, ?_⟩,
      ?_, ?_, ?_, ?_⟩
    · rw [hroot2]
      exact hchainRest2
    · rw [hcur]
      exact hchainRest2
    · intro x hx
      rw [hlen2]
      exact inv.bounds x
        (List.mem_append_right _ (List.mem_cons_of_mem c hx))
    · -- prevOk on the remaining suffix
      rcases hrestShape with ⟨hre, -⟩ | ⟨r0, rs, hre, hpn⟩
      · rw [hre]
        rfl
      · rw [hre, prevOkB_cons_iff]
        have hr0rest : r0 ∈ rest := by
          rw [hre]
          exact List.mem_cons_self r0 rs
        have hr0A : r0 ∈ [] ++ c :: rest :=
          List.mem_append_right _ (List.mem_cons_of_mem c hr0rest)
        have hndre := hndrest
        rw [hre, List.nodup_cons] at hndre
        constructor
        · intro q hq
          right
          have hpv : prevs (stepState δ c s) r0 = some p.prev := by
            rw [hS2, prevs_setRoot, hPv4 r0 (inv.bounds r0 hr0A),
              if_neg (by rintro ⟨h1, -⟩; omega), if_pos hpn]
          rw [hpv] at hq
          have hq2 : p.prev = some q := Option.some.inj hq
          intro hqmem
          exact hkeep q hq2 (List.mem_append_right _
            (List.mem_cons_of_mem c (by rw [hre]; exact hqmem)))
        · have hpoR2 := hpoRest
          rw [hre, prevOkB_cons_iff] at hpoR2
          refine prevOkB_transport_wild s (stepState δ c s)
            ([] ++ c :: r0 :: rs) _ s.heap.length ?_ rs
            (some r0) ?_ hpoR2.2
          · intro q hq hlt
            exact List.mem_append_right _ (List.mem_cons_of_mem c hq)
          · intro x hx
            left
            have hxrest : x ∈ rest := by
              rw [hre]
              exact List.mem_cons_of_mem r0 hx
            have hxA : x ∈ [] ++ c :: rest :=
              List.mem_append_right _ (List.mem_cons_of_mem c hxrest)
            constructor
            · rw [hS2, prevs_setRoot]
              refine hPvKeep x (inv.bounds x hxA)
                (by rintro ⟨h1, -⟩; omega) ?_
              intro hpp
              rw [hpn] at hpp
              exact hndre.1 (by rw [Option.some.inj hpp]; exact hx)
            · intro q hq
              exact inv.prevBound x hxA q hq
    · intro x hx q hq
      rw [hlen2]
      rw [hS2, prevs_setRoot] at hq
      have hxA : x ∈ [] ++ c :: rest :=
        List.mem_append_right _ (List.mem_cons_of_mem c hx)
      have h2 := hPB x q hq (Or.inl hxA)
      omega
    · intro x hx
      exact inv.todoOld x (List.mem_cons_of_mem c hx)
    · rw [hlen2]
      exact inv.hNlen
    · exact ⟨[], rest, rfl, fun x hx => absurd hx (List.not_mem_nil x),
        fun x hx => inv.todoOld x (List.mem_cons_of_mem c hx)⟩
    · rw [hlen2]
    · exact ⟨tl, by rw [hS2, log_setRoot]; exact hlog4, htl4⟩
    · intro x hx hne
      rcases List.mem_append.mp hx with h | h
      · exact absurd h (List.not_mem_nil x)
      · rcases List.mem_cons.mp h with h2 | h2
        · exact absurd h2 hne
        · exact h2
    · intro j hj1 hj2
      rw [hlen2] at hj2
      exact absurd hj1 (by omega)
  · -- no head advance: the node stays linked out by the unlink step
    have hVcnt : V = [] → 1 ≤ cnt := by
      intro hV
      rcases Nat.eq_zero_or_pos cnt with h0 | h1
      · exact absurd ⟨h0, hV⟩ hadv
      · exact h1
    have hrootne : (Particle.simulate s c δ).1.root ≠ some c := by
      rw [hroot4]
      by_cases h0 : cnt = 0
      · rw [if_pos h0]
        obtain ⟨w0, hw0, hdisc⟩ := hheadW
        rw [hw0]
        intro hcc
        have hwc : w0 = c := Option.some.inj hcc
        rcases hdisc with ⟨hV, -⟩ | h
        · exact absurd (hVcnt hV) (by omega)
        · exact hcV (by rw [← hwc]; exact h)
      · rw [if_neg h0]
        intro hcc
        have h2 : s.heap.length = c := Option.some.inj hcc
        omega
    have hS2 : stepState δ c s = (Particle.simulate s c δ).1 := by
      simp only [stepState]
      rw [if_neg]
      rintro ⟨-, hr⟩
      exact hrootne hr
    have hcur : nextOf (stepState δ c s) c = p.next := by
      apply nextOf_eq_of_nexts
      rw [hS2]
      exact hnxsa
    have hlen2 : (stepState δ c s).heap.length =
        s.heap.length + cnt := by
      rw [hS2]
      exact hlen4
    have hroot2 : (stepState δ c s).root =
        (if cnt = 0 then s.root else some s.heap.length) := by
      rw [hS2]
      exact hroot4
    have hNx2 : ∀ j, j < s.heap.length →
        nexts (stepState δ c s) j =
          (if p.prev = some j then some p.next else nexts s j) := by
      intro j hj
      rw [hS2]
      exact hNx4 j hj
    have hfreshSeg : 1 ≤ cnt →
        chainSegB (stepState δ c s) (some s.heap.length) FL s.root =
          true := by
      intro h1
      rw [hFL]
      refine chainSegB_fresh _ cnt s.heap.length s.root h1 ?_ ?_
      · intro k hk
        rw [hS2]
        exact hMid4 k hk
      · rw [hS2]
        exact hLast4 h1
    have hfreshPrevOk : ∀ (all2 : List Nat) (pred : Option Nat),
        prevOkB (stepState δ c s) all2 pred FL = true := by
      intro all2 pred
      rw [hFL]
      rcases Nat.eq_zero_or_pos cnt with h0 | h1
      · rw [h0]
        rfl
      · refine prevOkB_fresh _ _ cnt s.heap.length pred ?_ ?_
        · intro q hq
          exfalso
          have hp0 : prevs (stepState δ c s) s.heap.length =
              some none := by
            rw [hS2]
            have h2 := hFpv4 0 h1
            rw [if_pos rfl] at h2
            exact h2
          rw [hp0] at hq
          simp at hq
        · intro k hk1 hkc
          rw [hS2]
          have h2 := hFpv4 k hkc
          rw [if_neg (by omega)] at h2
          exact h2
    have hpred0 : 1 ≤ cnt →
        endPred none FL = some (s.heap.length + cnt - 1) := by
      intro h1
      rw [hFL]
      exact endPred_of_getLast (getLast?_freshList _ _ h1)
    have hsh0 : ∀ a0, ((V = [] ∧ a0 = c) ∨ a0 ∈ V) → s.root = some a0 →
        ∀ q, prevs s a0 = some (some q) → q ∉ V ++ c :: rest := by
      intro a0 hdisc hr0 q hq
      rcases hdisc with ⟨hV, rfl⟩ | hmem
      · have hq2 : p.prev = some q := by
          rw [prevs_of_getP hp] at hq
          exact Option.some.inj hq
        rcases hshc q hq2 with h | h
        · rw [hV] at h
          rw [show endPred none ([] : List Nat) = none from rfl] at h
          exact absurd h (by simp)
        · exact h
      · cases V with
        | nil => exact absurd hmem (List.not_mem_nil a0)
        | cons vh V1 =>
          have hseg2 := hsegV
          rw [hr0, chainSegB_cons_iff] at hseg2
          have hav : a0 = vh := Option.some.inj hseg2.1
          subst hav
          have hpo2 := inv.prevOk
          rw [List.cons_append, prevOkB_cons_iff] at hpo2
          rcases hpo2.1 q hq with h | h
          · exact absurd h (by simp)
          · intro hc2
            rw [List.cons_append] at hc2
            exact h hc2
    have hjunction : ∀ a0, s.root = some a0 →
        ((V = [] ∧ a0 = c) ∨ a0 ∈ V) →
        ∀ (allNew : List Nat),
        (∀ q2, q2 ∈ allNew → q2 < s.heap.length →
          q2 ∈ V ++ c :: rest) →
        ∀ q, prevs (stepState δ c s) a0 = some (some q) →
          endPred none FL = some q ∨ q ∉ allNew := by
      intro a0 hr0 hdisc allNew hAn q hq
      have ha0A : a0 ∈ V ++ c :: rest := hw0A a0 hdisc
      have ha0nx : p.next ≠ some a0 := by
        intro hpn
        have hmem := hpnextMem a0 hpn
        rcases hdisc with ⟨-, rfl⟩ | h
        · exact hcrest hmem
        · exact hVrest a0 h hmem
      rcases Nat.eq_zero_or_pos cnt with h0 | h1
      · have hun : prevs (stepState δ c s) a0 = prevs s a0 := by
          rw [hS2]
          exact hPvKeep a0 (inv.bounds a0 ha0A)
            (by rintro ⟨hx, -⟩; omega) ha0nx
        rw [hun] at hq
        right
        intro hmem
        exact hsh0 a0 hdisc hr0 q hq
          (hAn q hmem (inv.prevBound a0 ha0A q hq))
      · have hch : prevs (stepState δ c s) a0 =
            some (some (s.heap.length + cnt - 1)) := by
          rw [hS2, hPv4 a0 (inv.bounds a0 ha0A), if_pos ⟨h1, hr0⟩]
        rw [hch] at hq
        left
        rw [hpred0 h1]
        exact congrArg some (Option.some.inj (Option.some.inj hq))
    have hrootNotRest : ∀ x ∈ rest, ¬(1 ≤ cnt ∧ s.root = some x) := by
      rintro x hx ⟨-, hr⟩
      obtain ⟨w0, hw0, hdisc⟩ := hheadW
      rw [hw0] at hr
      have hwx : w0 = x := Option.some.inj hr
      rcases hdisc with ⟨-, rfl⟩ | h
      · exact hcrest (by rw [hwx]; exact hx)
      · exact hVrest w0 h (by rw [hwx]; exact hx)
    have hlog2 : ∃ Δ1, (stepState δ c s).log =
        s.log ++ Ev.simulated c :: Δ1 ∧ simEvs Δ1 = [] :=
      ⟨tl, by rw [hS2]; exact hlog4, htl4⟩
    have hkeepOrRem :
        (∀ q, p.prev = some q → q ∉ V ++ c :: rest) ∨
        ∃ V0 last, V = V0 ++ [last] ∧ p.prev = some last := by
      cases hpp : p.prev with
      | none => exact Or.inl (fun q hq => Option.noConfusion hq)
      | some q0 =>
        rcases hshc q0 hpp with h | h
        · rcases List.eq_nil_or_concat V with hV | ⟨V0, last, hV⟩
          · rw [hV] at h
            rw [show endPred none ([] : List Nat) = none from rfl] at h
            exact absurd h (by simp)
          · rw [List.concat_eq_append] at hV
            right
            refine ⟨V0, last, hV, ?_⟩
            rw [hV, endPred_concat] at h
            exact (congrArg some (Option.some.inj h)).symm
        · left
          intro q hq
          rw [← Option.some.inj hq]
          exact h
    rcases hkeepOrRem with hkeep | ⟨V0, last, hV, hplast⟩
    · -- keep: the dead node's back-pointer leaves the chain untouched
      have hnxA : ∀ x ∈ V ++ c :: rest,
          nexts (stepState δ c s) x = nexts s x := by
        intro x hx
        rw [hNx2 x (inv.bounds x hx), if_neg]
        intro hpp
        exact hkeep x hpp hx
      have hbaseSeg : chainSegB (stepState δ c s) s.root
          (V ++ c :: rest) none = true := by
        rw [chainSegB_congr (V ++ c :: rest) hnxA s.root none,
          ← chainLinksB_eq_chainSegB]
        exact inv.chainW
      have hchainW2 : chainLinksB (stepState δ c s)
          (stepState δ c s).root (FL ++ (V ++ c :: rest)) = true := by
        rw [chainLinksB_eq_chainSegB, chainSegB_append]
        refine ⟨s.root, ?_, hbaseSeg⟩
        rcases Nat.eq_zero_or_pos cnt with h0 | h1
        · rw [hFL, h0]
          have hr2 : (stepState δ c s).root = s.root := by
            rw [hroot2, if_pos h0]
          rw [hr2]
          simp [chainSegB]
        · have hr2 : (stepState δ c s).root = some s.heap.length := by
            rw [hroot2, if_neg (by omega)]
          rw [hr2]
          exact hfreshSeg h1
      have hchainRest2 :
          chainLinksB (stepState δ c s) p.next rest = true := by
        rw [chainLinksB_eq_chainSegB,
          chainSegB_congr rest (fun x hx => hnxA x
            (List.mem_append_right _ (List.mem_cons_of_mem c hx)))
            p.next none]
        exact hsegRest
      have hprevOk2 : prevOkB (stepState δ c s)
          (FL ++ (V ++ c :: rest)) none (FL ++ (V ++ c :: rest)) =
          true := by
        rw [prevOkB_append, Bool.and_eq_true]
        refine ⟨hfreshPrevOk _ _, ?_⟩
        obtain ⟨w0, hw0, hdisc⟩ := hheadW
        have hAcons : ∃ as2, V ++ c :: rest = w0 :: as2 := by
          rcases hdisc with ⟨hVe, rfl⟩ | hmem
          · exact ⟨rest, by rw [hVe]; rfl⟩
          · cases V with
            | nil => exact absurd hmem (List.not_mem_nil w0)
            | cons vh V1 =>
              have h2 := hsegV
              rw [hw0, chainSegB_cons_iff] at h2
              have hwv : w0 = vh := Option.some.inj h2.1
              exact ⟨V1 ++ c :: rest, by rw [hwv, List.cons_append]⟩
        obtain ⟨as2, hAs⟩ := hAcons
        have hnd2 := inv.nodup
        rw [hAs, List.nodup_cons] at hnd2
        rw [hAs, prevOkB_cons_iff]
        constructor
        · refine hjunction w0 hw0 hdisc (FL ++ w0 :: as2) ?_
          intro q2 hq2 hlt
          rcases List.mem_append.mp hq2 with h | h
          · exact absurd hlt (by have h3 := (hFLmem q2).mp h; omega)
          · rw [hAs]
            exact h
        · have hpoOld := inv.prevOk
          rw [hAs, prevOkB_cons_iff] at hpoOld
          refine prevOkB_transport_wild s (stepState δ c s)
            (w0 :: as2) _ s.heap.length ?_ as2
            (some w0) ?_ hpoOld.2
          · intro q hq hlt
            rcases List.mem_append.mp hq with h | h
            · exact absurd hlt (by have h3 := (hFLmem q).mp h; omega)
            · exact h
          · intro x hx
            have hxA : x ∈ V ++ c :: rest := by
              rw [hAs]
              exact List.mem_cons_of_mem w0 hx
            have hxlen : x < s.heap.length := inv.bounds x hxA
            have hxroot : ¬(1 ≤ cnt ∧ s.root = some x) := by
              rintro ⟨-, hr⟩
              rw [hw0] at hr
              exact hnd2.1 (by rw [Option.some.inj hr]; exact hx)
            by_cases hpn : p.next = some x
            · right
              intro q hq
              have hch : prevs (stepState δ c s) x = some p.prev := by
                rw [hS2, hPv4 x hxlen, if_neg hxroot, if_pos hpn]
              rw [hch] at hq
              have hq2 : p.prev = some q := Option.some.inj hq
              intro hmem
              rcases List.mem_append.mp hmem with h | h
              · have h3 := (hFLmem q).mp h
                have h4 := inv.prevBound c hcW q
                  (by rw [prevs_of_getP hp, hq2])
                omega
              · rw [← hAs] at h
                exact hkeep q hq2 h
            · left
              constructor
              · rw [hS2]
                exact hPvKeep x hxlen hxroot hpn
              · intro q hq
                exact inv.prevBound x hxA q hq
      refine ⟨FL ++ (V ++ c :: rest),
        ⟨hchainW2, ?_, ⟨FL ++ (V ++ [c]), by simp⟩, ?_, ?_, hprevOk2,
          ?_, ?_, ?_, ?_⟩, ?_, hlog2, ?_, ?_⟩
      · rw [hcur]
        exact hchainRest2
      · rw [List.nodup_append]
        refine ⟨hFLnd, inv.nodup, ?_⟩
        intro x hx hxA
        have h1 := (hFLmem x).mp hx
        have h2 := inv.bounds x hxA
        omega
      · intro x hx
        rw [hlen2]
        rcases List.mem_append.mp hx with h | h
        · have h1 := (hFLmem x).mp h
          omega
        · have h1 := inv.bounds x h
          omega
      · intro x hx q hq
        rw [hlen2]
        rw [hS2] at hq
        refine hPB x q hq ?_
        rcases List.mem_append.mp hx with h | h
        · exact Or.inr ((hFLmem x).mp h)
        · exact Or.inl h
      · intro x hx
        exact inv.todoOld x (List.mem_cons_of_mem c hx)
      · rw [hlen2]
        have h1 := inv.hNlen
        omega
      · obtain ⟨F, O, hFO, hFge, hOlt⟩ := inv.hsplit
        refine ⟨FL ++ F, O, by rw [hFO, List.append_assoc], ?_, hOlt⟩
        intro x hx
        rcases List.mem_append.mp hx with h | h
        · have h1 := (hFLmem x).mp h
          have h2 := inv.hNlen
          omega
        · exact hFge x h
      · rw [hlen2]
        omega
      · intro x hx hne
        exact List.mem_append_right _ hx
      · intro j hj1 hj2
        rw [hlen2] at hj2
        exact List.mem_append_left _ ((hFLmem j).mpr ⟨hj1, hj2⟩)
    · -- removal: the dead node's predecessor is re-pointed past it
      subst hV
      have hlastV : last ∈ V0 ++ [last] :=
        List.mem_append_right V0 (List.mem_cons_self last [])
      have hlastA : last ∈ (V0 ++ [last]) ++ c :: rest :=
        List.mem_append_left _ hlastV
      have hlastlen : last < s.heap.length := inv.bounds last hlastA
      have hlastV0 : last ∉ V0 := by
        have h2 := hndV
        rw [List.nodup_append] at h2
        exact fun h => h2.2.2 h (List.mem_cons_self last [])
      have hlastrest : last ∉ rest := hVrest last hlastV
      have hsegV2 := hsegV
      rw [chainSegB_append] at hsegV2
      obtain ⟨m0, hsegV0, hsegL⟩ := hsegV2
      rw [chainSegB_singleton] at hsegL
      obtain ⟨hm0, hnl⟩ := hsegL
      subst hm0
      have hnxV0 : ∀ x ∈ V0,
          nexts (stepState δ c s) x = nexts s x := by
        intro x hx
        rw [hNx2 x (inv.bounds x (List.mem_append_left _
          (List.mem_append_left _ hx))), if_neg]
        intro hpp
        rw [hplast] at hpp
        exact hlastV0 (by rw [← Option.some.inj hpp] at hx; exact hx)
      have hnxRest : ∀ x ∈ rest,
          nexts (stepState δ c s) x = nexts s x := by
        intro x hx
        rw [hNx2 x (inv.bounds x (List.mem_append_right _
          (List.mem_cons_of_mem c hx))), if_neg]
        intro hpp
        rw [hplast] at hpp
        exact hlastrest (by rw [← Option.some.inj hpp] at hx; exact hx)
      have hnxLast : nexts (stepState δ c s) last = some p.next := by
        rw [hNx2 last hlastlen, if_pos hplast]
      have hbase2 : chainSegB (stepState δ c s) s.root
          ((V0 ++ [last]) ++ rest) none = true := by
        rw [chainSegB_append]
        refine ⟨p.next, ?_, ?_⟩
        · rw [chainSegB_append]
          refine ⟨some last, ?_, ?_⟩
          · rw [chainSegB_congr V0 hnxV0 s.root (some last)]
            exact hsegV0
          · rw [chainSegB_singleton]
            exact ⟨rfl, hnxLast⟩
        · rw [chainSegB_congr rest hnxRest p.next none]
          exact hsegRest
      have hchainW2 : chainLinksB (stepState δ c s)
          (stepState δ c s).root
          (FL ++ ((V0 ++ [last]) ++ rest)) = true := by
        rw [chainLinksB_eq_chainSegB, chainSegB_append]
        refine ⟨s.root, ?_, hbase2⟩
        rcases Nat.eq_zero_or_pos cnt with h0 | h1
        · rw [hFL, h0]
          have hr2 : (stepState δ c s).root = s.root := by
            rw [hroot2, if_pos h0]
          rw [hr2]
          simp [chainSegB]
        · have hr2 : (stepState δ c s).root = some s.heap.length := by
            rw [hroot2, if_neg (by omega)]
          rw [hr2]
          exact hfreshSeg h1
      have hchainRest2 :
          chainLinksB (stepState δ c s) p.next rest = true := by
        rw [chainLinksB_eq_chainSegB,
          chainSegB_congr rest hnxRest p.next none]
        exact hsegRest
      have hprevOk2 : prevOkB (stepState δ c s)
          (FL ++ ((V0 ++ [last]) ++ rest)) none
          (FL ++ ((V0 ++ [last]) ++ rest)) = true := by
        rw [prevOkB_append, Bool.and_eq_true]
        refine ⟨hfreshPrevOk _ _, ?_⟩
        rw [prevOkB_append, Bool.and_eq_true, endPred_concat]
        constructor
        · -- the part of the chain before the dead node
          obtain ⟨w0, hw0, hdisc⟩ := hheadW
          have hVne : V0 ++ [last] ≠ ([] : List Nat) := by simp
          have hw0V : w0 ∈ V0 ++ [last] := by
            rcases hdisc with ⟨hVe, -⟩ | h
            · exact absurd hVe hVne
            · exact h
          obtain ⟨b, Vt, hbV⟩ := List.exists_cons_of_ne_nil hVne
          have hbw0 : b = w0 := by
            have h2 := hsegV
            rw [hbV, hw0, chainSegB_cons_iff] at h2
            exact (Option.some.inj h2.1).symm
          rw [hbw0] at hbV
          have hndVt : w0 ∉ Vt := by
            have h2 := hndV
            rw [hbV, List.nodup_cons] at h2
            exact h2.1
          rw [hbV, prevOkB_cons_iff]
          constructor
          · refine hjunction w0 hw0 hdisc _ ?_
            intro q2 hq2 hlt
            rcases List.mem_append.mp hq2 with h | h
            · exact absurd hlt (by have h3 := (hFLmem q2).mp h; omega)
            · rcases List.mem_append.mp h with h4 | h4
              · rw [← hbV] at h4
                exact List.mem_append_left _ h4
              · exact List.mem_append_right _
                  (List.mem_cons_of_mem c h4)
          · have hpoV2 := hpoV
            rw [hbV, prevOkB_cons_iff] at hpoV2
            refine prevOkB_transport_wild s (stepState δ c s)
              ((w0 :: Vt) ++ c :: rest) _ s.heap.length ?_ Vt
              (some w0) ?_ hpoV2.2
            · intro q hq hlt
              rcases List.mem_append.mp hq with h | h
              · exact absurd hlt (by have h3 := (hFLmem q).mp h; omega)
              · rcases List.mem_append.mp h with h4 | h4
                · exact List.mem_append_left _ h4
                · exact List.mem_append_right _
                    (List.mem_cons_of_mem c h4)
            · intro x hx
              left
              have hxV : x ∈ V0 ++ [last] := by
                rw [hbV]
                exact List.mem_cons_of_mem w0 hx
              have hxA : x ∈ (V0 ++ [last]) ++ c :: rest :=
                List.mem_append_left _ hxV
              constructor
              · rw [hS2]
                refine hPvKeep x (inv.bounds x hxA) ?_ ?_
                · rintro ⟨-, hr⟩
                  rw [hw0] at hr
                  exact hndVt (by rw [Option.some.inj hr]; exact hx)
                · intro hpn
                  exact hVrest x hxV (hpnextMem x hpn)
              · intro q hq
                exact inv.prevBound x hxA q hq
        · -- the suffix after the dead node, anchored at its predecessor
          rcases hrestShape with ⟨hre, -⟩ | ⟨r0, rs, hre, hpn⟩
          · rw [hre]
            rfl
          · have hr0rest : r0 ∈ rest := by
              rw [hre]
              exact List.mem_cons_self r0 rs
            have hr0A : r0 ∈ (V0 ++ [last]) ++ c :: rest :=
              List.mem_append_right _ (List.mem_cons_of_mem c hr0rest)
            have hndre := hndrest
            rw [hre, List.nodup_cons] at hndre
            rw [hre, prevOkB_cons_iff]
            constructor
            · intro q hq
              left
              have hch : prevs (stepState δ c s) r0 = some p.prev := by
                rw [hS2, hPv4 r0 (inv.bounds r0 hr0A),
                  if_neg (hrootNotRest r0 hr0rest), if_pos hpn]
              rw [hch, hplast] at hq
              exact Option.some.inj hq
            · have hpoR2 := hpoRest
              rw [hre, prevOkB_cons_iff] at hpoR2
              refine prevOkB_transport_wild s (stepState δ c s)
                ((V0 ++ [last]) ++ c :: r0 :: rs) _ s.heap.length ?_ rs
                (some r0) ?_ hpoR2.2
              · intro q hq hlt
                rcases List.mem_append.mp hq with h | h
                · exact absurd hlt
                    (by have h3 := (hFLmem q).mp h; omega)
                · rcases List.mem_append.mp h with h4 | h4
                  · exact List.mem_append_left _ h4
                  · exact List.mem_append_right _
                      (List.mem_cons_of_mem c h4)
              · intro x hx
                left
                have hxrest : x ∈ rest := by
                  rw [hre]
                  exact List.mem_cons_of_mem r0 hx
                have hxA : x ∈ (V0 ++ [last]) ++ c :: rest :=
                  List.mem_append_right _
                    (List.mem_cons_of_mem c hxrest)
                constructor
                · rw [hS2]
                  refine hPvKeep x (inv.bounds x hxA)
                    (hrootNotRest x hxrest) ?_
                  intro hpp
                  rw [hpn] at hpp
                  exact hndre.1
                    (by rw [Option.some.inj hpp]; exact hx)
                · intro q hq
                  exact inv.prevBound x hxA q hq
      refine ⟨FL ++ ((V0 ++ [last]) ++ rest),
        ⟨hchainW2, ?_, ⟨FL ++ (V0 ++ [last]), by simp⟩, ?_, ?_,
          hprevOk2, ?_, ?_, ?_, ?_⟩, ?_, hlog2, ?_, ?_⟩
      · rw [hcur]
        exact hchainRest2
      · rw [List.nodup_append]
        have hsub : List.Sublist ((V0 ++ [last]) ++ rest)
            ((V0 ++ [last]) ++ c :: rest) :=
          List.Sublist.append_left (List.sublist_cons_self c rest) _
        refine ⟨hFLnd, List.Nodup.sublist hsub inv.nodup, ?_⟩
        intro x hx hxB
        have h1 := (hFLmem x).mp hx
        have h2 : x ∈ (V0 ++ [last]) ++ c :: rest := by
          rcases List.mem_append.mp hxB with h | h
          · exact List.mem_append_left _ h
          · exact List.mem_append_right _ (List.mem_cons_of_mem c h)
        have h3 := inv.bounds x h2
        omega
      · intro x hx
        rw [hlen2]
        rcases List.mem_append.mp hx with h | h
        · have h1 := (hFLmem x).mp h
          omega
        · have h2 : x ∈ (V0 ++ [last]) ++ c :: rest := by
            rcases List.mem_append.mp h with h3 | h3
            · exact List.mem_append_left _ h3
            · exact List.mem_append_right _ (List.mem_cons_of_mem c h3)
          have h3 := inv.bounds x h2
          omega
      · intro x hx q hq
        rw [hlen2]
        rw [hS2] at hq
        refine hPB x q hq ?_
        rcases List.mem_append.mp hx with h | h
        · exact Or.inr ((hFLmem x).mp h)
        · rcases List.mem_append.mp h with h3 | h3
          · exact Or.inl (List.mem_append_left _ h3)
          · exact Or.inl (List.mem_append_right _
              (List.mem_cons_of_mem c h3))
      · intro x hx
        exact inv.todoOld x (List.mem_cons_of_mem c hx)
      · rw [hlen2]
        have h1 := inv.hNlen
        omega
      · obtain ⟨F, O, hFO, hFge, hOlt⟩ := inv.hsplit
        obtain ⟨V1, hVF, hOeq⟩ :=
          split_align F O (V0 ++ [last]) rest c hFO.symm hFge hcN
        refine ⟨FL ++ F, V1 ++ rest, ?_, ?_, ?_⟩
        · rw [hVF, List.append_assoc, List.append_assoc]
        · intro x hx
          rcases List.mem_append.mp hx with h | h
          · have h1 := (hFLmem x).mp h
            have h2 := inv.hNlen
            omega
          · exact hFge x h
        · intro x hx
          rcases List.mem_append.mp hx with h | h
          · exact hOlt x (by rw [hOeq]; exact List.mem_append_left _ h)
          · exact hOlt x (by rw [hOeq]
                             exact List.mem_append_right _
                               (List.mem_cons_of_mem c h))
      · rw [hlen2]
        omega
      · intro x hx hne
        rcases List.mem_append.mp hx with h | h
        · exact List.mem_append_right _ (List.mem_append_left _ h)
        · rcases List.mem_cons.mp h with h2 | h2
          · exact absurd h2 hne
          · exact List.mem_append_right _ (List.mem_append_right _ h2)
      · intro j hj1 hj2
        rw [hlen2] at hj2
        exact List.mem_append_left _ ((hFLmem j).mpr ⟨hj1, hj2⟩)

/-- The tick traversal in full: starting from a cursor holding the invariant,
the loop visits exactly the pending suffix `todo` (one `simulated` event
each, in order), never shrinks the heap, preserves the invariant with an
empty pending list, keeps every fresh chain node, and puts every id it
allocates into the final active list. -/
theorem simLoop_master (δ : ℚ) (N : Nat) :
    ∀ (todo : List Nat) (fuel : Nat) (cur : Option Nat)
      (s : ParticleSystem) (W : List Nat),
    LoopInv N s cur W todo → todo.length ≤ fuel →
    ∃ W2, LoopInv N (simLoop δ fuel cur s) none W2 [] ∧
      (∃ Δ, (simLoop δ fuel cur s).log = s.log ++ Δ ∧
        simEvs Δ = todo) ∧
      s.heap.length ≤ (simLoop δ fuel cur s).heap.length ∧
      (∀ x ∈ W, N ≤ x → x ∈ W2) ∧
      (∀ j, s.heap.length ≤ j →
        j < (simLoop δ fuel cur s).heap.length → j ∈ W2) := by
  intro todo
  induction todo with
  | nil =>
    intro fuel cur s W inv hf
    have hcur : cur = none := (chainLinksB_nil_iff s cur).mp inv.chainCur
    subst hcur
    have hid : simLoop δ fuel none s = s := by
      cases fuel with
      | zero => rfl
      | succ f => rfl
    rw [hid]
    refine ⟨W, ⟨inv.chainW, (chainLinksB_nil_iff s none).mpr rfl,
      ⟨W, by simp⟩, inv.nodup, inv.bounds, inv.prevOk, inv.prevBound,
      fun x hx => absurd hx (List.not_mem_nil x), inv.hNlen,
      inv.hsplit⟩, ⟨[], by simp, rfl⟩, le_refl _,
      fun x hx _ => hx, ?_⟩
    intro j hj1 hj2
    exact absurd hj1 (by omega)
  | cons c rest ih =>
    intro fuel cur s W inv hf
    have hcur : cur = some c :=
      ((chainLinksB_cons_iff s cur c rest).mp inv.chainCur).1
    subst hcur
    obtain ⟨f, rfl⟩ : ∃ f, fuel = f + 1 := by
      cases fuel with
      | zero => exact absurd hf (by simp)
      | succ f => exact ⟨f, rfl⟩
    rw [simLoop_succ_some]
    have hcW : c ∈ W := by
      obtain ⟨V, hWV⟩ := inv.hsuffix
      rw [hWV]
      exact List.mem_append_right V (List.mem_cons_self c rest)
    have hclen : c < s.heap.length := inv.bounds c hcW
    obtain ⟨p, hp⟩ := getP_of_lt hclen
    have hcN : c < N := inv.todoOld c (List.mem_cons_self c rest)
    have hfr : rest.length ≤ f := by
      have h2 : (c :: rest).length = rest.length + 1 := rfl
      omega
    by_cases hdie : p.lifespan ≠ 0 ∧ p.lifespan ≤ p.age + δ
    · obtain ⟨W1, inv1, hlen1, ⟨Δ1, hlog1, hΔ1⟩, hmem1, hfresh1⟩ :=
        died_step_inv δ N s c rest W p inv hp hdie
      obtain ⟨W2, inv2, ⟨Δ2, hlog2, hΔ2⟩, hlen2, hmem2, hfresh2⟩ :=
        ih f (nextOf (stepState δ c s) c) (stepState δ c s) W1 inv1 hfr
      refine ⟨W2, inv2, ?_, ?_, ?_, ?_⟩
      · refine ⟨Ev.simulated c :: (Δ1 ++ Δ2), ?_, ?_⟩
        · rw [hlog2, hlog1]
          simp [List.append_assoc]
        · rw [show (Ev.simulated c :: (Δ1 ++ Δ2)) =
            [Ev.simulated c] ++ Δ1 ++ Δ2 from rfl, simEvs_append,
            simEvs_append, hΔ1, hΔ2]
          rfl
      · omega
      · intro x hx hge
        refine hmem2 x (hmem1 x hx ?_) hge
        intro hxc
        omega
      · intro j hj1 hj2
        by_cases hjs : j < (stepState δ c s).heap.length
        · exact hmem2 j (hfresh1 j hj1 hjs) (by have := inv.hNlen; omega)
        · exact hfresh2 j (Nat.le_of_not_lt hjs) hj2
    · obtain ⟨inv1, hlen1, hlog1⟩ :=
        alive_step_inv δ N s c rest W p inv hp hdie
      obtain ⟨W2, inv2, ⟨Δ2, hlog2, hΔ2⟩, hlen2, hmem2, hfresh2⟩ :=
        ih f (nextOf (stepState δ c s) c) (stepState δ c s) W inv1 hfr
      refine ⟨W2, inv2, ?_, ?_, ?_, ?_⟩
      · refine ⟨Ev.simulated c :: Δ2, ?_, ?_⟩
        · rw [hlog2, hlog1]
          simp
        · rw [show (Ev.simulated c :: Δ2) = [Ev.simulated c] ++ Δ2
            from rfl, simEvs_append, hΔ2]
          rfl
      · omega
      · intro x hx hge
        exact hmem2 x hx hge
      · intro j hj1 hj2
        exact hfresh2 j (by omega) hj2

/-- `ParticleSystem.simulate` through the master traversal description: one
tick visits exactly the pre-tick active list, and ends with the invariant
on a new active list that keeps every fresh id. -/
theorem simulate_master (δ : ℚ) (N : Nat) (s : ParticleSystem)
    (W : List Nat) (inv : LoopInv N s s.root W W) :
    ∃ W2, LoopInv N (s.simulate δ) none W2 [] ∧
      simEvs (logDelta s (s.simulate δ)) = W ∧
      s.heap.length ≤ (s.simulate δ).heap.length ∧
      (∀ x ∈ W, N ≤ x → x ∈ W2) ∧
      (∀ j, s.heap.length ≤ j → j < (s.simulate δ).heap.length →
        j ∈ W2) := by
  have hflen : W.length ≤ s.heap.length :=
    nodup_bounded_length inv.nodup inv.bounds
  obtain ⟨W2, inv2, ⟨Δ, hlog, hΔ⟩, h3, h4, h5⟩ :=
    simLoop_master δ N W s.heap.length s.root s W inv hflen
  refine ⟨W2, inv2, ?_, h3, h4, h5⟩
  show simEvs (logDelta s (simLoop δ s.heap.length s.root s)) = W
  rw [logDelta_of_append hlog]
  exact hΔ

end TraversalStep


section ClaimC2

/-- **C2** — For every `ParticleSystem.simulate(delta)` call on a
well-formed system (its active list `W` satisfies the traversal invariant),
the tick's `simulate` events are exactly the pre-tick list `W`: every id
allocated during the tick (the children spawned by death callbacks, all of
them ≥ the pre-tick heap size) receives zero same-tick `simulate` calls.
Those children are spliced in at the system's head: the post-tick active
list splits as a fresh-id prefix `F` followed by old ids `O`, it is the
`next`-chain from the new head, it contains every id allocated during the
tick, and the next `ParticleSystem.simulate` call visits exactly that
list — in particular every spawned child. -/
theorem c2_children_spliced_head_next_tick (δ1 δ2 : ℚ)
    (s : ParticleSystem) (W : List Nat)
    (inv : LoopInv s.heap.length s s.root W W) :
    simEvs (logDelta s (s.simulate δ1)) = W ∧
    (∀ j, s.heap.length ≤ j →
      j ∉ simEvs (logDelta s (s.simulate δ1))) ∧
    ∃ W1 F O, W1 = F ++ O ∧
      (∀ x ∈ F, s.heap.length ≤ x) ∧ (∀ x ∈ O, x < s.heap.length) ∧
      chainLinksB (s.simulate δ1) (s.simulate δ1).root W1 = true ∧
      (∀ j, s.heap.length ≤ j → j < (s.simulate δ1).heap.length →
        j ∈ W1) ∧
      simEvs (logDelta (s.simulate δ1) ((s.simulate δ1).simulate δ2)) =
        W1 := by
  obtain ⟨W1, inv1, hev, hlen, hmem, hfresh⟩ :=
    simulate_master δ1 s.heap.length s W inv
  refine ⟨hev, ?_, W1, ?_⟩
  · intro j hj hmemEv
    rw [hev] at hmemEv
    have h2 := inv.bounds j hmemEv
    omega
  obtain ⟨F, O, hFO, hFge, hOlt⟩ := inv1.hsplit
  have inv1b : LoopInv (s.simulate δ1).heap.length (s.simulate δ1)
      (s.simulate δ1).root W1 W1 :=
    ⟨inv1.chainW, inv1.chainW, ⟨[], rfl⟩, inv1.nodup, inv1.bounds,
     inv1.prevOk, inv1.prevBound, inv1.bounds, le_refl _,
     ⟨[], W1, rfl, fun x hx => absurd hx (List.not_mem_nil x),
      inv1.bounds⟩⟩
  obtain ⟨W2b, inv2b, hev2, hlen2, hmem2b, hfresh2b⟩ :=
    simulate_master δ2 (s.simulate δ1).heap.length (s.simulate δ1)
      W1 inv1b
  exact ⟨F, O, hFO, hFge, hOlt, inv1.chainW, hfresh, hev2⟩

/-- `c1Sys` (two chained particles, head dying on the first 1-second tick
with one cached child) instantiates C2. -/
theorem c2_children_spliced_head_next_tick_witness :
    simEvs (logDelta c1Sys (c1Sys.simulate 1)) = [0, 1] ∧
    (∀ j, c1Sys.heap.length ≤ j →
      j ∉ simEvs (logDelta c1Sys (c1Sys.simulate 1))) ∧
    ∃ W1 F O, W1 = F ++ O ∧
      (∀ x ∈ F, c1Sys.heap.length ≤ x) ∧
      (∀ x ∈ O, x < c1Sys.heap.length) ∧
      chainLinksB (c1Sys.simulate 1) (c1Sys.simulate 1).root W1 = true ∧
      (∀ j, c1Sys.heap.length ≤ j →
        j < (c1Sys.simulate 1).heap.length → j ∈ W1) ∧
      simEvs (logDelta (c1Sys.simulate 1)
        ((c1Sys.simulate 1).simulate 1)) = W1 :=
  c2_children_spliced_head_next_tick 1 1 c1Sys [0, 1]
    ⟨by decide, by decide, ⟨[], rfl⟩, by decide, by decide, by decide,
     by intro x hx q hq
        rcases List.mem_cons.mp hx with rfl | hx2
        · rw [show prevs c1Sys 0 = some none from rfl] at hq
          simp at hq
        · rcases List.mem_cons.mp hx2 with rfl | hx3
          · rw [show prevs c1Sys 1 = some (some 0) from rfl] at hq
            have h2 : (0 : Nat) = q :=
              Option.some.inj (Option.some.inj hq)
            rw [← h2]
            decide
          · exact absurd hx3 (List.not_mem_nil x),
     by decide, le_refl _,
     ⟨[], [0, 1], rfl, by decide, by decide⟩⟩

end ClaimC2

end Fireworks
